import Mathlib

set_option maxRecDepth 100000

/-!
# Bech32 and segwit addresses

A shallow embedding of `ref/go/src/bech32/bech32.go` (tnakagawa/bech32) and the
properties of its checksum engine, bit converter, bech32 codec and segwit
address codec.

Modelling conventions.

* A Go `string` is a sequence of bytes (`GoString`).  `for _, c := range s`
  decodes UTF-8 (`range`), an invalid byte giving the rune `0xFFFD`.
* `strings.ToLower` is `stringsToLower`; the case tables of the Unicode library,
  for the runes outside ASCII, are its parameter.  `Decode` reaches it with ASCII
  bytes only, where it is the bytewise `toLower`.
* A Go `int` is modelled by `Int`.  Left shifts and the subtraction in `maxv` are
  wrapped to 64 bits explicitly (`wrap64`, `shl`); the accumulator of
  `convertbits` does leave the 64-bit range.  Bitwise operations and right
  shifts (`Int.land`, `Int.lor`, `Int.xor`, `shr`) act on two's complement and
  stay in range.
* A function returning `(T, error)` returns `Except Error T`; the constructors of
  `Error` are the `fmt.Errorf` sites of the source, with their arguments.
* Two definitions are not translations of the source and serve as terms of
  comparison: `convertbitsUnbounded`, the bit converter without the 64-bit wrap,
  and `polymodSpec`, the checksum fold in the words of its specification.
-/

namespace Bech32

/-! ## Strings -/

/-- A byte of a Go string. -/
abbrev Byte := Fin 256

/-- A Go string: a sequence of bytes, not necessarily valid UTF-8. -/
abbrev GoString := List Byte

/-- The bytes of an ASCII literal. -/
def ascii (s : String) : GoString :=
  s.toList.map (fun c => ⟨c.toNat % 256, Nat.mod_lt _ (by decide)⟩)

/-- The rune `utf8.RuneError`, produced for an invalid UTF-8 sequence. -/
def RuneError : Nat := 0xFFFD

/-- A UTF-8 continuation byte, `0x80..0xBF`. -/
def isCont (b : Byte) : Bool := decide (0x80 ≤ b.val ∧ b.val ≤ 0xBF)

/-- The accepted range of the second byte of a three-byte sequence. -/
def second3 (b0 b1 : Byte) : Bool :=
  if b0.val = 0xE0 then decide (0xA0 ≤ b1.val ∧ b1.val ≤ 0xBF)
  else if b0.val = 0xED then decide (0x80 ≤ b1.val ∧ b1.val ≤ 0x9F)
  else isCont b1

/-- The accepted range of the second byte of a four-byte sequence. -/
def second4 (b0 b1 : Byte) : Bool :=
  if b0.val = 0xF0 then decide (0x90 ≤ b1.val ∧ b1.val ≤ 0xBF)
  else if b0.val = 0xF4 then decide (0x80 ≤ b1.val ∧ b1.val ≤ 0x8F)
  else isCont b1

/-- The first rune of a string and its width in bytes (`utf8.DecodeRuneInString`). -/
def decodeRune : GoString → Nat × Nat
  | [] => (RuneError, 0)
  | b0 :: rest =>
    if b0.val < 0x80 then (b0.val, 1)
    else if 0xC2 ≤ b0.val ∧ b0.val ≤ 0xDF then
      match rest with
      | b1 :: _ =>
        if isCont b1 then ((b0.val % 32) * 64 + b1.val % 64, 2) else (RuneError, 1)
      | _ => (RuneError, 1)
    else if 0xE0 ≤ b0.val ∧ b0.val ≤ 0xEF then
      match rest with
      | b1 :: b2 :: _ =>
        if second3 b0 b1 && isCont b2 then
          ((b0.val % 16) * 4096 + (b1.val % 64) * 64 + b2.val % 64, 3)
        else (RuneError, 1)
      | _ => (RuneError, 1)
    else if 0xF0 ≤ b0.val ∧ b0.val ≤ 0xF4 then
      match rest with
      | b1 :: b2 :: b3 :: _ =>
        if second4 b0 b1 && isCont b2 && isCont b3 then
          ((b0.val % 8) * 262144 + (b1.val % 64) * 4096 + (b2.val % 64) * 64 + b3.val % 64, 4)
        else (RuneError, 1)
      | _ => (RuneError, 1)
    else (RuneError, 1)

/-- The loop `for idx, c := range s` from byte index `idx`, the next `skip` bytes
belonging to the rune already produced. -/
def rangeFrom : Nat → Nat → GoString → List (Nat × Nat)
  | _, _, [] => []
  | idx, skip + 1, _ :: bs => rangeFrom (idx + 1) skip bs
  | idx, 0, b :: bs =>
    (idx, (decodeRune (b :: bs)).1) :: rangeFrom (idx + 1) ((decodeRune (b :: bs)).2 - 1) bs

/-- The pairs `(idx, c)` of `for idx, c := range s`. -/
def range (s : GoString) : List (Nat × Nat) := rangeFrom 0 0 s

/-- The byte `string(c)[0]`: the first byte of the UTF-8 encoding of the rune `c`. -/
def runeFirstByte (c : Nat) : Nat :=
  if c < 0x80 then c
  else if c < 0x800 then 0xC0 + c / 64
  else if (0xD800 ≤ c ∧ c ≤ 0xDFFF) ∨ 0x10FFFF < c then 0xEF
  else if c < 0x10000 then 0xE0 + c / 4096
  else 0xF0 + c / 262144

/-- The ASCII lower-case form of a byte. -/
def toLowerByte (b : Byte) : Byte :=
  if h : 65 ≤ b.val ∧ b.val ≤ 90 then ⟨b.val + 32, by omega⟩ else b

/-- The function `strings.ToLower` on a string of ASCII bytes (`stringsToLower` is
the function on every string). `Decode` calls it only after every rune was found
in `[33,126]`. -/
def toLower (s : GoString) : GoString := s.map toLowerByte

/-- The index of the last occurrence of byte `c` in `s`, scanning from index `i`;
`cur` is the last one seen so far. -/
def lastIndexFrom (c : Byte) : GoString → Nat → Int → Int
  | [], _, cur => cur
  | b :: bs, i, cur => lastIndexFrom c bs (i + 1) (if b = c then (i : Int) else cur)

/-- The call `strings.LastIndex(s, string(c))` for a single byte `c`; `-1` when absent. -/
def lastIndex (s : GoString) (c : Byte) : Int := lastIndexFrom c s 0 (-1)

/-- The call `strings.Index(s, fmt.Sprintf("%c", c))` for an ASCII byte `c`; `-1`
when absent. -/
def index (s : GoString) (c : Byte) : Int :=
  if s.indexOf c < s.length then (s.indexOf c : Int) else -1

/-! ## The library function `strings.ToLower` -/

/-- The byte with the value `n mod 256`. -/
def byteOf (n : Nat) : Byte := ⟨n % 256, Nat.mod_lt _ (by decide)⟩

/-- The UTF-8 encoding of the rune `c` (`utf8.AppendRune`): a surrogate or a value
beyond `0x10FFFF` is encoded as `utf8.RuneError`. -/
def encodeRune (c : Nat) : GoString :=
  if c < 0x80 then [byteOf c]
  else if c < 0x800 then [byteOf (0xC0 + c / 64), byteOf (0x80 + c % 64)]
  else if (0xD800 ≤ c ∧ c ≤ 0xDFFF) ∨ 0x10FFFF < c then [0xEF, 0xBF, 0xBD]
  else if c < 0x10000 then
    [byteOf (0xE0 + c / 4096), byteOf (0x80 + c / 64 % 64), byteOf (0x80 + c % 64)]
  else
    [byteOf (0xF0 + c / 262144), byteOf (0x80 + c / 4096 % 64), byteOf (0x80 + c / 64 % 64),
      byteOf (0x80 + c % 64)]

/-- The function `unicode.ToLower`: the letters `A-Z` are shifted to `a-z`, the
other ASCII runes are kept, and a rune outside ASCII is looked up in the case
tables of the Unicode library, the parameter `table`. -/
def unicodeToLower (table : Nat → Nat) (c : Nat) : Nat :=
  if c < 0x80 then (if 65 ≤ c ∧ c ≤ 90 then c + 32 else c) else table c

/-- The function `strings.ToLower`: a string of ASCII bytes is lower-cased byte
by byte; any other string is decoded rune by rune, each rune mapped by
`unicode.ToLower` and encoded again (`strings.Map`). The case tables for the runes
outside ASCII belong to the Unicode library and are the parameter `table`. -/
def stringsToLower (table : Nat → Nat) (s : GoString) : GoString :=
  if s.all (fun b => decide (b.val < 0x80)) then toLower s
  else ((range s).map (fun p => encodeRune (unicodeToLower table p.2))).flatten

/-! ## Errors -/

/-- The failures of the package, one constructor for each `fmt.Errorf` site. -/
inductive Error where
  /-- "Invalid data : data[%d]=%d" (`Encode`). -/
  | invalidData (idx : Nat) (p : Int)
  /-- "Invalid human-readable part : bechString[%d]=%d" (`Decode`). -/
  | invalidChar (idx : Nat) (c : Nat)
  /-- "Mixed case" (`Decode`). -/
  | mixedCase
  /-- "Invalid program length : pos : %d , len : %d" (`Decode`). -/
  | invalidLength (pos : Int) (len : Nat)
  /-- "Invalid data part : bechString[%d]=%d" (`Decode`). -/
  | invalidDataPart (p : Nat) (b : Nat)
  /-- "Invalid checksum" (`Decode`). -/
  | invalidChecksum
  /-- "Invalid data range : data[%d]=%d (frombits=%d)" (`convertbits`). -/
  | invalidDataRange (idx : Nat) (value : Int) (frombits : Nat)
  /-- "Illegal zero padding" (`convertbits`). -/
  | illegalZeroPadding
  /-- "Non-zero padding" (`convertbits`). -/
  | nonZeroPadding
  /-- "Invalid human-readable part : %s != %s" (`SegwitAddrDecode`). -/
  | hrpMismatch (expected decoded : GoString)
  /-- "Invalid decode data length : %d" (`SegwitAddrDecode`). -/
  | invalidDecodeDataLength (len : Nat)
  /-- "Invalid witness version : %d" (`SegwitAddrDecode`). -/
  | invalidWitnessVersion (v : Int)
  /-- "Invalid convertbits length : %d" (`SegwitAddrDecode`). -/
  | invalidConvertbitsLength (len : Nat)
  /-- "Invalid program length for witness version 0 (per BIP141) : %d". -/
  | invalidProgramLengthV0 (len : Nat)
  deriving DecidableEq, Repr

/-! ## Integer operations -/

/-- The value of a 64-bit two's-complement register holding `x`. -/
def wrap64 (x : Int) : Int := (x + 2 ^ 63) % 2 ^ 64 - 2 ^ 63

/-- The Go expression `x << n` on `int`. -/
def shl (x : Int) (n : Nat) : Int := wrap64 (x * 2 ^ n)

/-- The Go expression `x >> n` on `int` (arithmetic shift). -/
def shr (x : Int) (n : Nat) : Int := x >>> n

/-! ## Checksum engine -/

/-- The alphabet `CHARSET`. -/
def CHARSET : GoString := ascii ("qpzry9x8gf2tvdw0s3jn54khce6mua7l")

/-- The table `GENERATOR`. -/
def GENERATOR : List Int := [0x3b6a57b2, 0x26508e6d, 0x1ea119fa, 0x3d4233dd, 0x2a1462b3]

/-- One iteration of the inner loop of `polymod`, for index `i`. -/
def polymodInner (top : Int) (chk : Int) (i : Nat) : Int :=
  if Int.land (shr top i) 1 = 1 then Int.xor chk (GENERATOR.getD i 0) else chk

/-- The body of the loop of `polymod` for one value `v`. -/
def polymodStep (chk v : Int) : Int :=
  let top := shr chk 25
  let chk1 := Int.xor (shl (Int.land chk 0x1ffffff) 5) v
  (List.range 5).foldl (polymodInner top) chk1

/-- The function `polymod`. -/
def polymod (values : List Int) : Int := values.foldl polymodStep 1

/-- The function `hrpExpand`. -/
def hrpExpand (hrp : GoString) : List Int :=
  (range hrp).map (fun p => ((runeFirstByte p.2 >>> 5 : Nat) : Int)) ++ [0] ++
    (range hrp).map (fun p => ((runeFirstByte p.2 &&& 31 : Nat) : Int))

/-- The function `verifyChecksum`. -/
def verifyChecksum (hrp : GoString) (data : List Int) : Bool :=
  decide (polymod (hrpExpand hrp ++ data) = 1)

/-- The function `createChecksum`. -/
def createChecksum (hrp : GoString) (data : List Int) : List Int :=
  let values := hrpExpand hrp ++ data ++ [0, 0, 0, 0, 0, 0]
  let mod := Int.xor (polymod values) 1
  (List.range 6).map (fun p => Int.land (shr mod (5 * (5 - p))) 31)

/-! ## Bech32 codec -/

/-- The result type `Dec`. -/
structure Dec where
  hrp : GoString
  data : List Int
  deriving DecidableEq, Repr

/-- The first loop of `Decode`, over the runes of the string. -/
def checkChars : List (Nat × Nat) → Bool → Bool → Except Error (Bool × Bool)
  | [], has_lower, has_upper => .ok (has_lower, has_upper)
  | (idx, c) :: rest, has_lower, has_upper =>
    if c < 33 ∨ c > 126 then .error (.invalidChar idx c)
    else checkChars rest (has_lower || decide (c ≥ 97 ∧ c ≤ 122))
      (has_upper || decide (c ≥ 65 ∧ c ≤ 90))

/-- The second loop of `Decode`: the bytes from index `p` on, mapped through `CHARSET`. -/
def decodeData : GoString → Nat → List Int → Except Error (List Int)
  | [], _, data => .ok data
  | b :: bs, p, data =>
    if index CHARSET b = -1 then .error (.invalidDataPart p b.val)
    else decodeData bs (p + 1) (data ++ [index CHARSET b])

/-- The lines of `Decode` after `strings.ToLower`, on the lower-cased string. -/
def decodeBody (bechString : GoString) : Except Error Dec :=
  let pos := lastIndex bechString 49
  if pos < 1 ∨ pos + 7 > bechString.length ∨ bechString.length > 90 then
    .error (.invalidLength pos bechString.length)
  else
    let hrp := bechString.take pos.toNat
    match decodeData (bechString.drop (pos.toNat + 1)) (pos.toNat + 1) [] with
    | .error e => .error e
    | .ok data =>
      if !verifyChecksum hrp data then .error .invalidChecksum
      else .ok ⟨hrp, data.take (data.length - 6)⟩

/-- The function `Decode`. -/
def Decode (bechString : GoString) : Except Error Dec :=
  match checkChars (range bechString) false false with
  | .error e => .error e
  | .ok (has_lower, has_upper) =>
    if has_lower && has_upper then .error .mixedCase
    else decodeBody (toLower bechString)

/-- The loop of `Encode`, appending to `ret` the characters of the values from
index `idx` on. -/
def encodeLoop : List Int → Nat → GoString → Except Error GoString
  | [], _, ret => .ok ret
  | p :: ps, idx, ret =>
    if p < 0 ∨ p ≥ CHARSET.length then .error (.invalidData idx p)
    else encodeLoop ps (idx + 1) (ret ++ [CHARSET.getD p.toNat 0])

/-- The function `Encode`. -/
def Encode (hrp : GoString) (data : List Int) : Except Error GoString :=
  let combined := data ++ createChecksum hrp data
  match encodeLoop combined 0 (hrp ++ [49]) with
  | .error e => .error e
  | .ok ret =>
    match Decode ret with
    | .error e => .error e
    | .ok _ => .ok ret

/-! ## Bit converter -/

/-- The state of the loops of `convertbits`. -/
structure ConvState where
  acc : Int
  bits : Nat
  ret : List Int
  deriving DecidableEq, Repr

/-- The loop `for bits >= tobits` of `convertbits`, run for at most `fuel`
iterations. For `tobits ≥ 1` it ends within `bits` iterations. -/
def emit (tobits : Nat) (maxv : Int) : Nat → ConvState → ConvState
  | 0, s => s
  | fuel + 1, s =>
    if s.bits ≥ tobits then
      emit tobits maxv fuel
        ⟨s.acc, s.bits - tobits, s.ret ++ [Int.land (shr s.acc (s.bits - tobits)) maxv]⟩
    else s

/-- The loop of `convertbits` over the input values, from index `idx`. -/
def convLoop (frombits tobits : Nat) (maxv : Int) :
    List Int → Nat → ConvState → Except Error ConvState
  | [], _, s => .ok s
  | value :: rest, idx, s =>
    if value < 0 ∨ shr value frombits ≠ 0 then
      .error (.invalidDataRange idx value frombits)
    else
      let acc := Int.lor (shl s.acc frombits) value
      let bits := s.bits + frombits
      convLoop frombits tobits maxv rest (idx + 1)
        (emit tobits maxv bits ⟨acc, bits, s.ret⟩)

/-- The function `convertbits`. The counters `bits`, `frombits`, `tobits` are
naturals: `bits < frombits + tobits` throughout. For `tobits = 0` the source does
not terminate on a non-empty input; the model is meant for `tobits ≥ 1`. -/
def convertbits (data : List Int) (frombits tobits : Nat) (pad : Bool) :
    Except Error (List Int) :=
  let maxv : Int := wrap64 (shl 1 tobits - 1)
  match convLoop frombits tobits maxv data 0 ⟨0, 0, []⟩ with
  | .error e => .error e
  | .ok s =>
    if pad then
      if s.bits > 0 then .ok (s.ret ++ [Int.land (shl s.acc (tobits - s.bits)) maxv])
      else .ok s.ret
    else if s.bits ≥ frombits then .error .illegalZeroPadding
    else if Int.land (shl s.acc (tobits - s.bits)) maxv ≠ 0 then .error .nonZeroPadding
    else .ok s.ret

/-! ## Segwit address codec -/

/-- The result type `SegwitAddrDec`. -/
structure SegwitAddrDec where
  version : Int
  program : List Int
  deriving DecidableEq, Repr

/-- The function `SegwitAddrDecode`. -/
def SegwitAddrDecode (hrp addr : GoString) : Except Error SegwitAddrDec :=
  match Decode addr with
  | .error e => .error e
  | .ok dec =>
    if dec.hrp ≠ hrp then .error (.hrpMismatch hrp dec.hrp)
    else if dec.data.length < 1 then .error (.invalidDecodeDataLength dec.data.length)
    else if dec.data.headD 0 > 16 then .error (.invalidWitnessVersion (dec.data.headD 0))
    else
      match convertbits dec.data.tail 5 8 false with
      | .error e => .error e
      | .ok res =>
        if res.length < 2 ∨ res.length > 40 then
          .error (.invalidConvertbitsLength res.length)
        else if dec.data.headD 0 = 0 ∧ res.length ≠ 20 ∧ res.length ≠ 32 then
          .error (.invalidProgramLengthV0 res.length)
        else .ok ⟨dec.data.headD 0, res⟩

/-- The function `SegwitAddrEncode`. -/
def SegwitAddrEncode (hrp : GoString) (version : Int) (program : List Int) :
    Except Error GoString :=
  match convertbits program 8 5 true with
  | .error e => .error e
  | .ok data =>
    match Encode hrp (version :: data) with
    | .error e => .error e
    | .ok ret =>
      match SegwitAddrDecode hrp ret with
      | .error e => .error e
      | .ok _ => .ok ret


/-! ## Auxiliary definitions for the proofs -/

instance decEqExcept {ε α : Type} [DecidableEq ε] [DecidableEq α] : DecidableEq (Except ε α)
  | .ok a, .ok b => if h : a = b then isTrue (by rw [h]) else isFalse (fun h2 => h (Except.ok.inj h2))
  | .error a, .error b =>
    if h : a = b then isTrue (by rw [h]) else isFalse (fun h2 => h (Except.error.inj h2))
  | .ok _, .error _ => isFalse (fun h => Except.noConfusion h)
  | .error _, .ok _ => isFalse (fun h => Except.noConfusion h)

/-- The table `GENERATOR` over the naturals. -/
def GEN : List Nat := [0x3b6a57b2, 0x26508e6d, 0x1ea119fa, 0x3d4233dd, 0x2a1462b3]

/-- The generator selected by bit `i` of `t`, or zero. -/
def gterm (t i : Nat) : Nat := if t.testBit i then GEN.getD i 0 else 0

/-- The combination of generators selected by the five low bits of `t`. -/
def gsel (t : Nat) : Nat :=
  gterm t 0 ^^^ gterm t 1 ^^^ gterm t 2 ^^^ gterm t 3 ^^^ gterm t 4

/-- The register of `polymod` after a zero symbol. -/
def lin (c : Nat) : Nat := ((c &&& 0x1ffffff) <<< 5) ^^^ gsel (c >>> 25)

/-- The body of the loop of `polymod` over the naturals. -/
def stepN (c v : Nat) : Nat := lin c ^^^ v

/-- The function `polymod` over the naturals. -/
def polymodN (vs : List Nat) : Nat := vs.foldl stepN 1

/-- The big-endian number with digits `l` in base 32, continuing from `a`. -/
def packFrom (a : Nat) (l : List Nat) : Nat := l.foldl (fun a s => a * 32 + s) a

/-- The six base-32 digits of `m`, most significant first. -/
def unpack (m : Nat) : List Nat :=
  [m / 2 ^ 25 % 32, m / 2 ^ 20 % 32, m / 2 ^ 15 % 32, m / 2 ^ 10 % 32, m / 2 ^ 5 % 32, m % 32]

/-- The expansion `hrpExpand` over the naturals. -/
def hrpExpandN (hrp : GoString) : List Nat :=
  (range hrp).map (fun p => runeFirstByte p.2 >>> 5) ++ [0] ++
    (range hrp).map (fun p => runeFirstByte p.2 &&& 31)

/-- The injection of a list of naturals into the Go integers. -/
def castList (l : List Nat) : List Int := l.map (fun (v : Nat) => (v : Int))

/-- The checksum `createChecksum` over the naturals. -/
def createChecksumN (hrp : GoString) (data : List Nat) : List Nat :=
  unpack (polymodN (hrpExpandN hrp ++ data ++ [0, 0, 0, 0, 0, 0]) ^^^ 1)

/-- Every byte of the string is a printable ASCII character, in `[33,126]`. -/
def validChars (s : GoString) : Prop := ∀ b ∈ s, 33 ≤ b.val ∧ b.val ≤ 126

/-- Some byte of the string is a lower-case letter `a-z`. -/
def anyLower (s : GoString) : Bool := s.any (fun b => decide (97 ≤ b.val ∧ b.val ≤ 122))

/-- Some byte of the string is an upper-case letter `A-Z`. -/
def anyUpper (s : GoString) : Bool := s.any (fun b => decide (65 ≤ b.val ∧ b.val ≤ 90))

/-- The characters of `CHARSET` for a list of symbols. -/
def render (vals : List Nat) : GoString := vals.map (fun p => CHARSET.getD p 0)

/-- The characters of `CHARSET` for a list of Go integers in `[0,31]`. -/
def charsetRender (vals : List Int) : GoString := vals.map (fun p => CHARSET.getD p.toNat 0)

/-- The symbols of a string of `CHARSET` characters, as naturals. -/
def symsN (d : GoString) : List Nat := d.map (fun b => (index CHARSET b).toNat)

/-- The big-endian number with digits `l` in base `2^w`, continuing from `a`. -/
def valueFrom (w : Nat) (a : Nat) (l : List Nat) : Nat := l.foldl (fun a d => a * 2 ^ w + d) a

/-- The `n` low digits of `x` in base `2^w`, most significant first. -/
def digits (w : Nat) : Nat → Nat → List Nat
  | 0, _ => []
  | n + 1, x => digits w n (x / 2 ^ w) ++ [x % 2 ^ w]

/-! ## The bit converter on unbounded integers -/

/-- The loop of `convertbits` over the input values, evaluated on unbounded
integers: the left shift is a multiplication by a power of two, never wrapped. -/
def convLoopUnbounded (frombits tobits : Nat) (maxv : Int) :
    List Int → Nat → ConvState → Except Error ConvState
  | [], _, s => .ok s
  | value :: rest, idx, s =>
    if value < 0 ∨ shr value frombits ≠ 0 then
      .error (.invalidDataRange idx value frombits)
    else
      let acc := Int.lor (s.acc * 2 ^ frombits) value
      let bits := s.bits + frombits
      convLoopUnbounded frombits tobits maxv rest (idx + 1)
        (emit tobits maxv bits ⟨acc, bits, s.ret⟩)

/-- The function `convertbits` evaluated on unbounded integers. -/
def convertbitsUnbounded (data : List Int) (frombits tobits : Nat) (pad : Bool) :
    Except Error (List Int) :=
  let maxv : Int := 1 * 2 ^ tobits - 1
  match convLoopUnbounded frombits tobits maxv data 0 ⟨0, 0, []⟩ with
  | .error e => .error e
  | .ok s =>
    if pad then
      if s.bits > 0 then .ok (s.ret ++ [Int.land (s.acc * 2 ^ (tobits - s.bits)) maxv])
      else .ok s.ret
    else if s.bits ≥ frombits then .error .illegalZeroPadding
    else if Int.land (s.acc * 2 ^ (tobits - s.bits)) maxv ≠ 0 then .error .nonZeroPadding
    else .ok s.ret

/-! ## The checksum fold as specified -/

/-- The step that the specification describes for `polymod`, for comparison with
the source: `top = chk >> 25`, the low 25 bits shifted left by 5 with the symbol
OR-ed in, then `GENERATOR[i]` XOR-ed in for each set bit `i` of `top`. -/
def polymodSpecStep (chk v : Int) : Int :=
  let top := shr chk 25
  let chk1 := Int.lor (shl (Int.land chk 0x1ffffff) 5) v
  (List.range 5).foldl
    (fun c i => if Int.land (shr top i) 1 = 1 then Int.xor c (GENERATOR.getD i 0) else c) chk1

/-- The fold that the specification describes for `polymod`: `polymodSpecStep`
over the symbols, the accumulator seeded at 1. -/
def polymodSpec (values : List Int) : Int := values.foldl polymodSpecStep 1

/-! ## Proof devices: the checksum engine over the naturals -/







theorem land_cast (a b : Nat) : Int.land (a : Int) (b : Int) = ((a &&& b : Nat) : Int) := rfl

theorem xor_cast (a b : Nat) : Int.xor (a : Int) (b : Int) = ((a ^^^ b : Nat) : Int) := rfl

theorem lor_cast (a b : Nat) : Int.lor (a : Int) (b : Int) = ((a ||| b : Nat) : Int) := rfl

theorem shr_cast (a n : Nat) : shr (a : Int) n = ((a >>> n : Nat) : Int) := rfl

theorem wrap64_of_lt (x : Int) (h0 : -2 ^ 63 ≤ x) (h1 : x < 2 ^ 63) : wrap64 x = x := by
  unfold wrap64
  rw [Int.emod_eq_of_lt (by omega) (by omega)]
  omega

theorem polymodInner_cast (t x i : Nat) :
    polymodInner (t : Int) (x : Int) i = ((x ^^^ gterm t i : Nat) : Int) := by
  unfold polymodInner gterm
  rw [shr_cast]
  have h1 : Int.land ((t >>> i : Nat) : Int) 1 = (((t >>> i) &&& 1 : Nat) : Int) := rfl
  rw [h1]
  have h2 : GENERATOR.getD i 0 = ((GEN.getD i 0 : Nat) : Int) := by
    unfold GENERATOR GEN
    rcases i with _ | _ | _ | _ | _ | _ | i <;> rfl
  rw [h2, xor_cast]
  have h3 : ((t >>> i) &&& 1) = if t.testBit i then 1 else 0 := by
    rw [Nat.and_one_is_mod, Nat.testBit, Nat.one_and_eq_mod_two]
    rcases Nat.mod_two_eq_zero_or_one (t >>> i) with h | h <;> simp [h]
  rw [h3]
  by_cases hb : t.testBit i <;> simp [hb]

theorem polymodStep_cast (c v : Nat) :
    polymodStep (c : Int) (v : Int) = ((stepN c v : Nat) : Int) := by
  unfold polymodStep stepN lin
  have hr : List.range 5 = [0, 1, 2, 3, 4] := by decide
  have hm : Int.land (c : Int) 0x1ffffff = ((c &&& 0x1ffffff : Nat) : Int) := rfl
  have hlt : c &&& 0x1ffffff < 2 ^ 25 := by
    exact Nat.and_lt_two_pow c (show 0x1ffffff < 2 ^ 25 by norm_num)
  have hs : shl ((c &&& 0x1ffffff : Nat) : Int) 5 = (((c &&& 0x1ffffff) <<< 5 : Nat) : Int) := by
    unfold shl
    rw [wrap64_of_lt, Nat.shiftLeft_eq]
    · push_cast; rfl
    · have : (0 : Int) ≤ ((c &&& 0x1ffffff : Nat) : Int) := Int.ofNat_nonneg _
      nlinarith
    · have : ((c &&& 0x1ffffff : Nat) : Int) < 2 ^ 25 := by exact_mod_cast hlt
      nlinarith
  rw [hr, hm, hs, shr_cast, xor_cast]
  simp only [List.foldl_cons, List.foldl_nil, polymodInner_cast, gsel]
  apply congrArg Nat.cast
  generalize (c &&& 0x1ffffff) <<< 5 = a
  generalize gterm (c >>> 25) 0 = g0
  generalize gterm (c >>> 25) 1 = g1
  generalize gterm (c >>> 25) 2 = g2
  generalize gterm (c >>> 25) 3 = g3
  generalize gterm (c >>> 25) 4 = g4
  ac_rfl

theorem polymod_cast (vs : List Nat) :
    polymod (vs.map (fun (v : Nat) => (v : Int))) = ((polymodN vs : Nat) : Int) := by
  unfold polymod polymodN
  have : ∀ (c : Nat), List.foldl polymodStep (c : Int) (vs.map (fun (v : Nat) => (v : Int)))
      = ((List.foldl stepN c vs : Nat) : Int) := by
    induction vs with
    | nil => intro c; rfl
    | cons v vs ih => intro c; simp only [List.map, List.foldl, polymodStep_cast, ih]
  exact this 1


/-! ### Linearity of the checksum register over exclusive or -/

theorem shiftLeft_xor (a b k : Nat) : (a ^^^ b) <<< k = a <<< k ^^^ b <<< k := by
  apply Nat.eq_of_testBit_eq
  intro j
  simp only [Nat.testBit_shiftLeft, Nat.testBit_xor]
  by_cases h : j ≥ k <;> simp [h]

theorem shiftRight_xor (a b k : Nat) : (a ^^^ b) >>> k = a >>> k ^^^ b >>> k := by
  apply Nat.eq_of_testBit_eq
  intro j
  simp only [Nat.testBit_shiftRight, Nat.testBit_xor]

theorem xor_eq_add_of_lt (a s k : Nat) (h : s < 2 ^ k) : (a <<< k) ^^^ s = a * 2 ^ k + s := by
  rw [Nat.shiftLeft_eq, Nat.mul_comm a, Nat.mul_add_lt_is_or h]
  apply Nat.eq_of_testBit_eq
  intro j
  simp only [Nat.testBit_xor, Nat.testBit_or]
  by_cases hj : j < k
  · have : (2 ^ k * a).testBit j = false := by
      rw [Nat.testBit_mul_pow_two]
      simp [hj]
    simp [this]
  · have : s.testBit j = false := by
      apply Nat.testBit_lt_two_pow
      exact lt_of_lt_of_le h (Nat.pow_le_pow_right (by norm_num) (by omega))
    simp [this]

theorem gterm_xor (s t i : Nat) : gterm (s ^^^ t) i = gterm s i ^^^ gterm t i := by
  unfold gterm
  rw [Nat.testBit_xor]
  cases s.testBit i <;> cases t.testBit i <;> simp

theorem gsel_xor (s t : Nat) : gsel (s ^^^ t) = gsel s ^^^ gsel t := by
  unfold gsel
  simp only [gterm_xor]
  ac_rfl

theorem gsel_zero : gsel 0 = 0 := by decide

theorem lin_xor (a b : Nat) : lin (a ^^^ b) = lin a ^^^ lin b := by
  unfold lin
  rw [Nat.and_xor_distrib_right, shiftLeft_xor, shiftRight_xor, gsel_xor]
  ac_rfl

theorem lin_zero : lin 0 = 0 := by decide

theorem stepN_xor (a b v : Nat) : stepN (a ^^^ b) v = stepN a v ^^^ lin b := by
  unfold stepN
  rw [lin_xor]
  ac_rfl

theorem stepN_xor_val (c v e : Nat) : stepN c (v ^^^ e) = stepN c v ^^^ e := by
  unfold stepN
  ac_rfl

theorem gterm_lt (t i : Nat) : gterm t i < 2 ^ 30 := by
  unfold gterm GEN
  split
  · rcases i with _ | _ | _ | _ | _ | _ | i <;> simp [List.getD]
  · norm_num

theorem gsel_lt (t : Nat) : gsel t < 2 ^ 30 := by
  unfold gsel
  exact Nat.xor_lt_two_pow (Nat.xor_lt_two_pow (Nat.xor_lt_two_pow (Nat.xor_lt_two_pow
    (gterm_lt _ _) (gterm_lt _ _)) (gterm_lt _ _)) (gterm_lt _ _)) (gterm_lt _ _)

theorem lin_lt (c : Nat) : lin c < 2 ^ 30 := by
  unfold lin
  apply Nat.xor_lt_two_pow _ (gsel_lt _)
  have h : c &&& 0x1ffffff < 2 ^ 25 := Nat.and_lt_two_pow c (show 0x1ffffff < 2 ^ 25 by norm_num)
  rw [Nat.shiftLeft_eq]
  omega

theorem stepN_lt (c v : Nat) (hv : v < 2 ^ 30) : stepN c v < 2 ^ 30 :=
  Nat.xor_lt_two_pow (lin_lt c) hv

theorem lin_of_lt (x : Nat) (h : x < 2 ^ 25) : lin x = x * 32 := by
  unfold lin
  have h1 : x >>> 25 = 0 := by
    rw [Nat.shiftRight_eq_div_pow]
    exact Nat.div_eq_of_lt h
  have h2 : x &&& 0x1ffffff = x := by
    have := Nat.and_pow_two_sub_one_of_lt_two_pow h
    simpa using this
  rw [h1, h2, gsel_zero, Nat.xor_zero, Nat.shiftLeft_eq]

theorem stepN_of_lt (x s : Nat) (h : x < 2 ^ 25) (hs : s < 32) : stepN x s = x * 32 + s := by
  unfold stepN
  rw [lin_of_lt x h]
  have := xor_eq_add_of_lt x s 5 (by omega)
  rw [Nat.shiftLeft_eq] at this
  exact this

theorem gsel_low : ∀ t, t < 32 → gsel t % 32 = 0 → t = 0 := by decide

theorem lin_eq_zero (c : Nat) (hc : c < 2 ^ 30) (h : lin c = 0) : c = 0 := by
  unfold lin at h
  rw [Nat.xor_eq_zero] at h
  have ht : c >>> 25 < 32 := by
    rw [Nat.shiftRight_eq_div_pow]
    omega
  have h0 : gsel (c >>> 25) % 32 = 0 := by
    rw [← h, Nat.shiftLeft_eq]
    omega
  have ht0 := gsel_low _ ht h0
  rw [ht0, gsel_zero, Nat.shiftLeft_eq] at h
  rw [Nat.shiftRight_eq_div_pow] at ht0
  have hlt : c < 2 ^ 25 := by omega
  have h2 : c &&& 0x1ffffff = c := by
    have := Nat.and_pow_two_sub_one_of_lt_two_pow hlt
    simpa using this
  rw [h2] at h
  omega

theorem lin_iterate_lt (n c : Nat) (hc : c < 2 ^ 30) : lin^[n] c < 2 ^ 30 := by
  induction n generalizing c with
  | zero => simpa using hc
  | succ n ih => rw [Function.iterate_succ_apply]; exact ih _ (lin_lt c)

theorem lin_iterate_ne_zero (n c : Nat) (hc : c < 2 ^ 30) (h : c ≠ 0) : lin^[n] c ≠ 0 := by
  induction n generalizing c with
  | zero => simpa using h
  | succ n ih =>
    rw [Function.iterate_succ_apply]
    exact ih _ (lin_lt c) (fun h0 => h (lin_eq_zero c hc h0))

theorem foldl_stepN_xor (vs : List Nat) (a b : Nat) :
    vs.foldl stepN (a ^^^ b) = vs.foldl stepN a ^^^ lin^[vs.length] b := by
  induction vs generalizing a b with
  | nil => simp
  | cons v vs ih =>
    simp only [List.foldl_cons, List.length_cons, Function.iterate_succ_apply]
    rw [stepN_xor, ih]

theorem foldl_stepN_lt (vs : List Nat) (c : Nat) (hc : c < 2 ^ 30)
    (hvs : ∀ v ∈ vs, v < 32) : vs.foldl stepN c < 2 ^ 30 := by
  induction vs generalizing c with
  | nil => simpa using hc
  | cons v vs ih =>
    simp only [List.foldl_cons]
    apply ih _ (stepN_lt _ _ _) (fun w hw => hvs w (List.mem_cons_of_mem _ hw))
    have := hvs v (List.mem_cons_self _ _)
    omega


theorem foldl_stepN_pack (l : List Nat) (a : Nat) (hl : l.length ≤ 6)
    (ha : a < 32 ^ (6 - l.length)) (hs : ∀ s ∈ l, s < 32) :
    l.foldl stepN a = packFrom a l := by
  induction l generalizing a with
  | nil => rfl
  | cons s l ih =>
    simp only [List.length_cons] at hl ha
    have hs0 := hs s (List.mem_cons_self _ _)
    have ha25 : a < 2 ^ 25 := by
      have : (32 : Nat) ^ (6 - (l.length + 1)) ≤ 32 ^ 5 :=
        Nat.pow_le_pow_right (by norm_num) (by omega)
      omega
    simp only [List.foldl_cons, packFrom]
    rw [stepN_of_lt a s ha25 hs0]
    apply ih _ (by omega) _ (fun w hw => hs w (List.mem_cons_of_mem _ hw))
    have e : 6 - l.length = (6 - (l.length + 1)) + 1 := by omega
    rw [e, pow_succ]
    omega


theorem pack_unpack (m : Nat) (h : m < 2 ^ 30) : packFrom 0 (unpack m) = m := by
  simp only [packFrom, unpack, List.foldl_cons, List.foldl_nil]
  omega

theorem unpack_lt (m : Nat) : ∀ s ∈ unpack m, s < 32 := by
  intro s hs
  simp only [unpack, List.mem_cons, List.mem_singleton, List.mem_nil_iff, or_false] at hs
  omega

theorem unpack_pack (l : List Nat) (hl : l.length = 6) (hs : ∀ s ∈ l, s < 32) :
    unpack (packFrom 0 l) = l := by
  match l, hl with
  | [a, b, c, d, e, f], _ =>
    have ha := hs a (by simp)
    have hb := hs b (by simp)
    have hc := hs c (by simp)
    have hd := hs d (by simp)
    have he := hs e (by simp)
    have hf := hs f (by simp)
    simp only [packFrom, unpack, List.foldl_cons, List.foldl_nil]
    simp only [List.cons.injEq, and_true]
    omega

/-- Folding six symbols into the register `c`: the register after six zero
symbols, combined with the packed symbols. -/
theorem foldl_stepN_six (c : Nat) (l : List Nat) (hl : l.length = 6) (hs : ∀ s ∈ l, s < 32) :
    l.foldl stepN c = packFrom 0 l ^^^ lin^[6] c := by
  have h := foldl_stepN_xor l 0 c
  rw [Nat.zero_xor, hl] at h
  rw [h, foldl_stepN_pack l 0 (by omega) (by rw [hl]; norm_num) hs]

theorem foldl_stepN_zeros (c : Nat) : [0, 0, 0, 0, 0, 0].foldl stepN c = lin^[6] c := by
  rw [foldl_stepN_six c [0, 0, 0, 0, 0, 0] rfl (by simp)]
  simp [packFrom]


/-! ### Symbols as naturals -/



theorem castList_append (a b : List Nat) : castList (a ++ b) = castList a ++ castList b := by
  simp [castList]

theorem castList_length (a : List Nat) : (castList a).length = a.length := by
  simp [castList]

theorem castList_toNat (l : List Int) (h : ∀ x ∈ l, 0 ≤ x) : castList (l.map Int.toNat) = l := by
  induction l with
  | nil => rfl
  | cons x l ih =>
    have hx := h x (List.mem_cons_self _ _)
    simp only [castList, List.map_cons, List.cons.injEq] at ih ⊢
    exact ⟨Int.toNat_of_nonneg hx, ih (fun y hy => h y (List.mem_cons_of_mem _ hy))⟩

theorem castList_injective (a b : List Nat) (h : castList a = castList b) : a = b := by
  unfold castList at h
  exact List.map_injective_iff.mpr (fun x y hxy => Int.ofNat.inj hxy) h

theorem mem_castList (l : List Nat) (x : Int) (hx : x ∈ castList l) :
    ∃ n ∈ l, x = (n : Int) := by
  simp only [castList, List.mem_map] at hx
  obtain ⟨n, hn, rfl⟩ := hx
  exact ⟨n, hn, rfl⟩

theorem hrpExpand_cast (hrp : GoString) : hrpExpand hrp = castList (hrpExpandN hrp) := by
  simp [hrpExpand, hrpExpandN, castList, List.map_append, Function.comp_def]

theorem runeFirstByte_and_lt (c : Nat) : runeFirstByte c &&& 31 < 32 :=
  Nat.and_lt_two_pow _ (show 31 < 2 ^ 5 by norm_num)

theorem runeFirstByte_lt (c : Nat) : runeFirstByte c < 256 := by
  unfold runeFirstByte
  split_ifs <;> omega

theorem hrpExpandN_lt (hrp : GoString) : ∀ v ∈ hrpExpandN hrp, v < 32 := by
  intro v hv
  simp only [hrpExpandN, List.mem_append, List.mem_map, List.mem_singleton] at hv
  rcases hv with (⟨p, _, rfl⟩ | rfl) | ⟨p, _, rfl⟩
  · have := runeFirstByte_lt p.2
    rw [Nat.shiftRight_eq_div_pow]
    omega
  · norm_num
  · exact runeFirstByte_and_lt _

theorem polymodN_lt (vs : List Nat) (h : ∀ v ∈ vs, v < 32) : polymodN vs < 2 ^ 30 :=
  foldl_stepN_lt vs 1 (by norm_num) h


theorem land_shr_cast (m k : Nat) :
    Int.land (shr (m : Int) k) 31 = ((m / 2 ^ k % 32 : Nat) : Int) := by
  rw [shr_cast]
  have h : Int.land ((m >>> k : Nat) : Int) 31 = (((m >>> k) &&& 31 : Nat) : Int) := rfl
  rw [h, Nat.shiftRight_eq_div_pow]
  have := Nat.and_pow_two_sub_one_eq_mod (m / 2 ^ k) 5
  simp only [Nat.reducePow, Nat.add_one_sub_one] at this
  rw [this]

theorem createChecksum_cast (hrp : GoString) (data : List Nat) :
    createChecksum hrp (castList data) = castList (createChecksumN hrp data) := by
  unfold createChecksum createChecksumN
  have hz : ([0, 0, 0, 0, 0, 0] : List Int) = castList [0, 0, 0, 0, 0, 0] := rfl
  have hr : List.range 6 = [0, 1, 2, 3, 4, 5] := by decide
  simp only [hrpExpand_cast, hz, ← castList_append]
  rw [castList, polymod_cast]
  have hx : Int.xor ((polymodN (hrpExpandN hrp ++ data ++ [0, 0, 0, 0, 0, 0]) : Nat) : Int) 1
      = ((polymodN (hrpExpandN hrp ++ data ++ [0, 0, 0, 0, 0, 0]) ^^^ 1 : Nat) : Int) := rfl
  rw [hx, hr]
  simp only [List.map_cons, List.map_nil, land_shr_cast, unpack, castList]
  simp

theorem polymodN_append (a b : List Nat) : polymodN (a ++ b) = b.foldl stepN (polymodN a) := by
  simp [polymodN, List.foldl_append]

/-- The checksum symbols complete the register to the value 1. -/
theorem polymodN_createChecksumN (hrp : GoString) (data : List Nat) (hd : ∀ v ∈ data, v < 32) :
    polymodN (hrpExpandN hrp ++ data ++ createChecksumN hrp data) = 1 := by
  have hc : polymodN (hrpExpandN hrp ++ data) < 2 ^ 30 := by
    apply polymodN_lt
    intro v hv
    rcases List.mem_append.mp hv with h | h
    · exact hrpExpandN_lt hrp v h
    · exact hd v h
  rw [polymodN_append, foldl_stepN_six _ (createChecksumN hrp data)
    (by simp [createChecksumN, unpack]) (unpack_lt _)]
  unfold createChecksumN
  rw [polymodN_append, foldl_stepN_zeros, pack_unpack]
  · rw [Nat.xor_comm, ← Nat.xor_assoc, Nat.xor_self, Nat.zero_xor]
  · exact Nat.xor_lt_two_pow (lin_iterate_lt 6 _ hc) (by norm_num)

/-- Six symbols that complete the register to 1 are the checksum. -/
theorem checksum_unique (hrp : GoString) (data chk : List Nat) (hl : chk.length = 6)
    (hs : ∀ s ∈ chk, s < 32) (h : polymodN (hrpExpandN hrp ++ data ++ chk) = 1) :
    chk = createChecksumN hrp data := by
  rw [polymodN_append, foldl_stepN_six _ _ hl hs] at h
  unfold createChecksumN
  rw [polymodN_append, foldl_stepN_zeros]
  have hp : packFrom 0 chk = lin^[6] (polymodN (hrpExpandN hrp ++ data)) ^^^ 1 := by
    rw [← h, Nat.xor_comm (packFrom 0 chk), ← Nat.xor_assoc, Nat.xor_self, Nat.zero_xor]
  rw [← hp, unpack_pack chk hl hs]

/-- Changing one symbol changes the register. -/
theorem polymodN_single_error (pre post : List Nat) (d e : Nat) (hd : d < 32) (he : e < 32)
    (hne : d ≠ e) : polymodN (pre ++ d :: post) ≠ polymodN (pre ++ e :: post) := by
  rw [polymodN_append, polymodN_append]
  simp only [List.foldl_cons]
  have hde : e = d ^^^ (d ^^^ e) := by
    rw [← Nat.xor_assoc, Nat.xor_self, Nat.zero_xor]
  rw [hde, stepN_xor_val, foldl_stepN_xor]
  intro h
  have hz : lin^[post.length] (d ^^^ e) = 0 := by
    have h2 := congrArg (fun x => List.foldl stepN (stepN (polymodN pre) d) post ^^^ x) h
    simp only [Nat.xor_self, ← Nat.xor_assoc, Nat.zero_xor] at h2
    exact h2.symm
  have hlt : d ^^^ e < 2 ^ 30 := Nat.xor_lt_two_pow (by omega) (by omega)
  exact lin_iterate_ne_zero _ _ hlt (fun h0 => hne (Nat.xor_eq_zero.mp h0)) hz


/-! ### Strings: runes, case, separator -/

theorem decodeRune_ascii (b : Byte) (bs : GoString) (h : b.val < 128) :
    decodeRune (b :: bs) = (b.val, 1) := by
  simp [decodeRune, h]

theorem decodeRune_ge (b : Byte) (bs : GoString) (h : 128 ≤ b.val) :
    128 ≤ (decodeRune (b :: bs)).1 := by
  have hb := b.isLt
  simp only [decodeRune]
  rw [if_neg (by omega)]
  split_ifs with h1 h2 h3
  · rcases bs with _ | ⟨b1, bs⟩
    · simp [RuneError]
    · simp only
      split_ifs
      · simp only; omega
      · simp [RuneError]
  · rcases bs with _ | ⟨b1, _ | ⟨b2, bs⟩⟩
    · simp [RuneError]
    · simp [RuneError]
    · simp only
      split_ifs with h4
      · have hb1 := b1.isLt
        simp only
        unfold second3 isCont at h4
        split_ifs at h4 <;> simp only [Bool.and_eq_true, decide_eq_true_eq] at h4 <;> omega
      · simp [RuneError]
  · rcases bs with _ | ⟨b1, _ | ⟨b2, _ | ⟨b3, bs⟩⟩⟩
    · simp [RuneError]
    · simp [RuneError]
    · simp [RuneError]
    · simp only
      split_ifs with h4
      · have hb1 := b1.isLt
        simp only
        unfold second4 isCont at h4
        split_ifs at h4 <;> simp only [Bool.and_eq_true, decide_eq_true_eq] at h4 <;> omega
      · simp [RuneError]
  · simp [RuneError]

theorem validChars_cons (b : Byte) (s : GoString) :
    validChars (b :: s) ↔ (33 ≤ b.val ∧ b.val ≤ 126) ∧ validChars s := by
  simp [validChars]

theorem checkChars_valid (s : GoString) (i : Nat) (l u : Bool) (h : validChars s) :
    checkChars (rangeFrom i 0 s) l u = .ok (l || anyLower s, u || anyUpper s) := by
  induction s generalizing i l u with
  | nil => simp [rangeFrom, checkChars, anyLower, anyUpper]
  | cons b bs ih =>
    rw [validChars_cons] at h
    rw [rangeFrom, decodeRune_ascii b bs (by omega)]
    simp only [checkChars]
    rw [if_neg (by omega)]
    simp only [Nat.sub_self]
    rw [ih _ _ _ h.2]
    simp [anyLower, anyUpper, Bool.or_assoc, and_comm]

theorem checkChars_invalid (s : GoString) (i : Nat) (l u : Bool) (h : ¬ validChars s) :
    ∃ idx c, checkChars (rangeFrom i 0 s) l u = .error (.invalidChar idx c) := by
  induction s generalizing i l u with
  | nil => exact absurd (by simp [validChars]) h
  | cons b bs ih =>
    rw [validChars_cons] at h
    rw [rangeFrom]
    simp only [checkChars]
    by_cases hb : b.val < 128
    · rw [decodeRune_ascii b bs hb]
      by_cases hv : 33 ≤ b.val ∧ b.val ≤ 126
      · rw [if_neg (by omega)]
        simp only [Nat.sub_self]
        exact ih _ _ _ (fun hs => h ⟨hv, hs⟩)
      · rw [if_pos (by omega)]
        exact ⟨_, _, rfl⟩
    · have := decodeRune_ge b bs (by omega)
      rw [if_pos (by omega)]
      exact ⟨_, _, rfl⟩

theorem Decode_valid (s : GoString) (h : validChars s) :
    Decode s = if anyLower s && anyUpper s then .error .mixedCase
      else decodeBody (toLower s) := by
  unfold Decode range
  rw [checkChars_valid s 0 false false h]
  simp

theorem Decode_invalid (s : GoString) (h : ¬ validChars s) :
    ∃ idx c, Decode s = .error (.invalidChar idx c) := by
  obtain ⟨idx, c, hc⟩ := checkChars_invalid s 0 false false h
  refine ⟨idx, c, ?_⟩
  unfold Decode range
  rw [hc]

theorem toLowerByte_of_not_upper (b : Byte) (h : ¬ (65 ≤ b.val ∧ b.val ≤ 90)) :
    toLowerByte b = b := by
  simp [toLowerByte, h]

theorem toLowerByte_val (b : Byte) :
    (toLowerByte b).val = if 65 ≤ b.val ∧ b.val ≤ 90 then b.val + 32 else b.val := by
  unfold toLowerByte
  split_ifs <;> rfl

theorem toLowerByte_not_upper (b : Byte) :
    ¬ (65 ≤ (toLowerByte b).val ∧ (toLowerByte b).val ≤ 90) := by
  rw [toLowerByte_val]
  split_ifs <;> omega

theorem toLowerByte_eq_sep (b : Byte) : toLowerByte b = 49 ↔ b = 49 := by
  constructor
  · intro h
    have h2 := congrArg Fin.val h
    rw [toLowerByte_val] at h2
    apply Fin.ext
    have : ((49 : Byte).val) = 49 := rfl
    split_ifs at h2 <;> omega
  · intro h
    rw [h]
    rfl

theorem toLower_length (s : GoString) : (toLower s).length = s.length := by
  simp [toLower]

theorem toLower_of_not_anyUpper (s : GoString) (h : anyUpper s = false) : toLower s = s := by
  induction s with
  | nil => rfl
  | cons b bs ih =>
    simp only [anyUpper, List.any_cons, Bool.or_eq_false_iff, decide_eq_false_iff_not] at h
    simp only [toLower, List.map_cons, List.cons.injEq]
    exact ⟨toLowerByte_of_not_upper b h.1, ih h.2⟩

theorem anyUpper_toLower (s : GoString) : anyUpper (toLower s) = false := by
  induction s with
  | nil => rfl
  | cons b bs ih =>
    simp only [anyUpper, toLower, List.map_cons, List.any_cons, Bool.or_eq_false_iff,
      decide_eq_false_iff_not]
    exact ⟨toLowerByte_not_upper b, ih⟩

theorem toLower_toLower (s : GoString) : toLower (toLower s) = toLower s :=
  toLower_of_not_anyUpper _ (anyUpper_toLower s)

theorem validChars_toLower (s : GoString) : validChars (toLower s) ↔ validChars s := by
  induction s with
  | nil => simp [toLower]
  | cons b bs ih =>
    simp only [toLower, List.map_cons] at ih ⊢
    rw [validChars_cons, validChars_cons, ih, toLowerByte_val]
    split_ifs <;> constructor <;> rintro ⟨h1, h2⟩ <;> exact ⟨by omega, h2⟩

theorem anyUpper_append (a b : GoString) : anyUpper (a ++ b) = (anyUpper a || anyUpper b) := by
  simp [anyUpper]

theorem anyLower_toLower_of_anyUpper (s : GoString)
    (h2 : anyUpper s = true) : anyLower (toLower s) = true := by
  simp only [anyUpper, List.any_eq_true, decide_eq_true_eq] at h2
  obtain ⟨b, hb, hb2⟩ := h2
  simp only [anyLower, List.any_eq_true, decide_eq_true_eq, toLower, List.mem_map]
  refine ⟨toLowerByte b, ⟨b, hb, rfl⟩, ?_⟩
  rw [toLowerByte_val, if_pos hb2]
  omega

/-! ### The separator -/

theorem lastIndexFrom_not_mem (c : Byte) (s : GoString) (i : Nat) (cur : Int) (h : c ∉ s) :
    lastIndexFrom c s i cur = cur := by
  induction s generalizing i cur with
  | nil => rfl
  | cons b bs ih =>
    simp only [List.mem_cons, not_or] at h
    simp only [lastIndexFrom]
    rw [if_neg (fun e => h.1 e.symm)]
    exact ih _ _ h.2

theorem lastIndexFrom_append (c : Byte) (pre post : GoString) (i : Nat) (cur : Int)
    (h : c ∉ post) : lastIndexFrom c (pre ++ c :: post) i cur = ((i + pre.length : Nat) : Int) := by
  induction pre generalizing i cur with
  | nil => simp [lastIndexFrom, lastIndexFrom_not_mem c post _ _ h]
  | cons b bs ih =>
    have e := ih (i + 1) (if b = c then (i : Int) else cur)
    rw [List.cons_append, lastIndexFrom, e, List.length_cons]
    congr 1
    omega

theorem lastIndex_append (c : Byte) (pre post : GoString) (h : c ∉ post) :
    lastIndex (pre ++ c :: post) c = (pre.length : Int) := by
  unfold lastIndex
  rw [lastIndexFrom_append c pre post 0 (-1) h]
  simp

theorem lastIndex_not_mem (c : Byte) (s : GoString) (h : c ∉ s) : lastIndex s c = -1 :=
  lastIndexFrom_not_mem c s 0 (-1) h

theorem exists_last_split (c : Byte) (s : GoString) (h : c ∈ s) :
    ∃ pre post, s = pre ++ c :: post ∧ c ∉ post := by
  induction s with
  | nil => simp at h
  | cons b bs ih =>
    by_cases hc : c ∈ bs
    · obtain ⟨pre, post, e, hp⟩ := ih hc
      exact ⟨b :: pre, post, by rw [e]; rfl, hp⟩
    · rcases List.mem_cons.mp h with e | e
      · exact ⟨[], bs, by rw [e]; rfl, hc⟩
      · exact absurd e hc

theorem lastIndex_cases (c : Byte) (s : GoString) :
    (c ∉ s ∧ lastIndex s c = -1) ∨
    ∃ pre post, s = pre ++ c :: post ∧ c ∉ post ∧ lastIndex s c = (pre.length : Int) := by
  by_cases h : c ∈ s
  · obtain ⟨pre, post, e, hp⟩ := exists_last_split c s h
    exact Or.inr ⟨pre, post, e, hp, by rw [e]; exact lastIndex_append c pre post hp⟩
  · exact Or.inl ⟨h, lastIndex_not_mem c s h⟩

theorem mem_toLower_sep (s : GoString) : (49 : Byte) ∈ toLower s ↔ (49 : Byte) ∈ s := by
  simp only [toLower, List.mem_map]
  constructor
  · rintro ⟨b, hb, e⟩
    rw [toLowerByte_eq_sep] at e
    rw [← e]; exact hb
  · intro h
    exact ⟨49, h, rfl⟩

theorem lastIndex_toLower (s : GoString) : lastIndex (toLower s) 49 = lastIndex s 49 := by
  rcases lastIndex_cases 49 s with ⟨h, e⟩ | ⟨pre, post, e, hp, hl⟩
  · rw [e]
    exact lastIndex_not_mem _ _ (fun h2 => h ((mem_toLower_sep s).mp h2))
  · rw [hl]
    have e2 : toLower s = toLower pre ++ 49 :: toLower post := by
      rw [e]
      simp [toLower]
      rfl
    rw [e2, lastIndex_append 49 _ _ (fun h2 => hp ((mem_toLower_sep post).mp h2)),
      toLower_length]


/-! ### The alphabet -/

theorem CHARSET_length : CHARSET.length = 32 := by decide

theorem index_CHARSET_facts : ∀ b : Byte, index CHARSET b ≠ -1 →
    0 ≤ index CHARSET b ∧ index CHARSET b < 32 ∧
    CHARSET.getD (index CHARSET b).toNat 0 = b ∧ b ≠ 49 ∧
    33 ≤ b.val ∧ b.val ≤ 126 ∧ ¬ (65 ≤ b.val ∧ b.val ≤ 90) := by decide

theorem getD_CHARSET_facts : ∀ p : Fin 32,
    index CHARSET (CHARSET.getD p.val 0) = (p.val : Int) := by decide

theorem index_getD (p : Nat) (h : p < 32) : index CHARSET (CHARSET.getD p 0) = (p : Int) :=
  getD_CHARSET_facts ⟨p, h⟩

theorem index_getD_ne (p : Nat) (h : p < 32) : index CHARSET (CHARSET.getD p 0) ≠ -1 := by
  rw [index_getD p h]
  omega

theorem decodeData_ok (bs : GoString) (p : Nat) (acc : List Int)
    (h : ∀ b ∈ bs, index CHARSET b ≠ -1) :
    decodeData bs p acc = .ok (acc ++ bs.map (index CHARSET)) := by
  induction bs generalizing p acc with
  | nil => simp [decodeData]
  | cons b bs ih =>
    rw [decodeData, if_neg (h b (List.mem_cons_self _ _)),
      ih _ _ (fun c hc => h c (List.mem_cons_of_mem _ hc))]
    simp

theorem decodeData_error (bs : GoString) (p : Nat) (acc : List Int)
    (h : ¬ ∀ b ∈ bs, index CHARSET b ≠ -1) :
    ∃ q v, decodeData bs p acc = .error (.invalidDataPart q v) := by
  induction bs generalizing p acc with
  | nil => exact absurd (by simp) h
  | cons b bs ih =>
    rw [decodeData]
    by_cases hb : index CHARSET b = -1
    · rw [if_pos hb]
      exact ⟨_, _, rfl⟩
    · rw [if_neg hb]
      apply ih
      intro h2
      apply h
      intro c hc
      rcases List.mem_cons.mp hc with e | e
      · rw [e]; exact hb
      · exact h2 c e

theorem encodeLoop_ok (vals : List Nat) (idx : Nat) (ret : GoString)
    (h : ∀ v ∈ vals, v < 32) :
    encodeLoop (castList vals) idx ret = .ok (ret ++ render vals) := by
  induction vals generalizing idx ret with
  | nil => simp [castList, encodeLoop, render]
  | cons v vs ih =>
    have hv := h v (List.mem_cons_self _ _)
    simp only [castList, List.map_cons] at ih ⊢
    rw [encodeLoop, if_neg, ih _ _ (fun c hc => h c (List.mem_cons_of_mem _ hc))]
    · simp [render]
    · rw [CHARSET_length]
      omega

theorem render_length (vals : List Nat) : (render vals).length = vals.length := by
  simp [render]

theorem render_index_ne (vals : List Nat) (h : ∀ v ∈ vals, v < 32) :
    ∀ b ∈ render vals, index CHARSET b ≠ -1 := by
  intro b hb
  simp only [render, List.mem_map] at hb
  obtain ⟨v, hv, rfl⟩ := hb
  exact index_getD_ne v (h v hv)

theorem render_map_index (vals : List Nat) (h : ∀ v ∈ vals, v < 32) :
    (render vals).map (index CHARSET) = castList vals := by
  induction vals with
  | nil => rfl
  | cons v vs ih =>
    simp only [render, castList, List.map_cons, List.cons.injEq, List.map_map] at ih ⊢
    exact ⟨index_getD v (h v (List.mem_cons_self _ _)),
      ih (fun c hc => h c (List.mem_cons_of_mem _ hc))⟩

theorem render_toNat_index (d : GoString) (h : ∀ b ∈ d, index CHARSET b ≠ -1) :
    render (d.map (fun b => (index CHARSET b).toNat)) = d := by
  induction d with
  | nil => rfl
  | cons b bs ih =>
    simp only [render, List.map_cons, List.cons.injEq, List.map_map] at ih ⊢
    exact ⟨(index_CHARSET_facts b (h b (List.mem_cons_self _ _))).2.2.1,
      ih (fun c hc => h c (List.mem_cons_of_mem _ hc))⟩

theorem validChars_of_index (d : GoString) (h : ∀ b ∈ d, index CHARSET b ≠ -1) :
    validChars d := fun b hb =>
  ⟨(index_CHARSET_facts b (h b hb)).2.2.2.2.1, (index_CHARSET_facts b (h b hb)).2.2.2.2.2.1⟩

theorem anyUpper_of_index (d : GoString) (h : ∀ b ∈ d, index CHARSET b ≠ -1) :
    anyUpper d = false := by
  simp only [anyUpper, List.any_eq_false, decide_eq_true_eq]
  intro b hb
  exact (index_CHARSET_facts b (h b hb)).2.2.2.2.2.2

theorem sep_not_mem_of_index (d : GoString) (h : ∀ b ∈ d, index CHARSET b ≠ -1) :
    (49 : Byte) ∉ d := fun hm =>
  (index_CHARSET_facts 49 (h 49 hm)).2.2.2.1 rfl

/-! ### The body of `Decode` -/

/-- The body of `Decode` on a string split at its last separator. -/
theorem decodeBody_split (hrp d : GoString) (hne : hrp ≠ []) (hd : 6 ≤ d.length)
    (hlen : hrp.length + 1 + d.length ≤ 90) (hc : ∀ b ∈ d, index CHARSET b ≠ -1) :
    decodeBody (hrp ++ 49 :: d) =
      if verifyChecksum hrp (d.map (index CHARSET)) then
        .ok ⟨hrp, (d.map (index CHARSET)).take (d.length - 6)⟩
      else .error .invalidChecksum := by
  have hpos : 0 < hrp.length := List.length_pos.mpr hne
  unfold decodeBody
  simp only [lastIndex_append 49 hrp d (sep_not_mem_of_index d hc), List.length_append,
    List.length_cons, Int.toNat_ofNat]
  rw [if_neg (by omega)]
  have h1 : List.take hrp.length (hrp ++ 49 :: d) = hrp := by simp
  have h2 : List.drop (hrp.length + 1) (hrp ++ 49 :: d) = d := by
    rw [List.drop_append_eq_append_drop]
    simp
  rw [h1, h2, decodeData_ok d _ [] hc]
  simp only [List.nil_append, List.length_map]
  split_ifs <;> simp_all

/-- What a successful body of `Decode` says about its input. -/
theorem decodeBody_ok (s : GoString) (r : Dec) (h : decodeBody s = .ok r) :
    ∃ hrp d, s = hrp ++ 49 :: d ∧ hrp ≠ [] ∧ 6 ≤ d.length ∧ s.length ≤ 90 ∧
      (∀ b ∈ d, index CHARSET b ≠ -1) ∧ lastIndex s 49 = (hrp.length : Int) ∧
      verifyChecksum hrp (d.map (index CHARSET)) = true ∧
      r = ⟨hrp, (d.map (index CHARSET)).take (d.length - 6)⟩ := by
  rcases lastIndex_cases 49 s with ⟨_, e⟩ | ⟨hrp, d, e, hp, hl⟩
  · unfold decodeBody at h
    simp only [e] at h
    rw [if_pos (by omega)] at h
    cases h
  · have hlen : s.length = hrp.length + 1 + d.length := by
      rw [e]; simp; omega
    by_cases hcond : (hrp.length : Int) < 1 ∨ (hrp.length : Int) + 7 > s.length ∨ s.length > 90
    · unfold decodeBody at h
      simp only [hl] at h
      rw [if_pos hcond] at h
      cases h
    · have hne : hrp ≠ [] := by
        intro h0
        rw [h0] at hcond
        simp at hcond
      by_cases hc : ∀ b ∈ d, index CHARSET b ≠ -1
      · rw [e, decodeBody_split hrp d hne (by omega) (by omega) hc] at h
        refine ⟨hrp, d, e, hne, by omega, by omega, hc, hl, ?_⟩
        split_ifs at h with hv
        · exact ⟨hv, (Except.ok.inj h).symm⟩
      · exfalso
        obtain ⟨q, v, hq⟩ := decodeData_error d (hrp.length + 1) [] hc
        unfold decodeBody at h
        simp only [hl, Int.toNat_ofNat] at h
        rw [if_neg hcond] at h
        have h2 : List.drop (hrp.length + 1) s = d := by
          rw [e, List.drop_append_eq_append_drop]
          simp
        rw [h2, hq] at h
        cases h


/-! ### Encoding and decoding -/

theorem charsetRender_cast (l : List Nat) : charsetRender (castList l) = render l := by
  simp [charsetRender, castList, render, Function.comp_def]

theorem map_index_eq (d : GoString) (hc : ∀ b ∈ d, index CHARSET b ≠ -1) :
    d.map (index CHARSET) = castList (symsN d) := by
  induction d with
  | nil => rfl
  | cons b bs ih =>
    simp only [symsN, castList, List.map_cons, List.cons.injEq, List.map_map] at ih ⊢
    refine ⟨?_, ih (fun c hc2 => hc c (List.mem_cons_of_mem _ hc2))⟩
    have := (index_CHARSET_facts b (hc b (List.mem_cons_self _ _))).1
    omega

theorem symsN_lt (d : GoString) (hc : ∀ b ∈ d, index CHARSET b ≠ -1) :
    ∀ v ∈ symsN d, v < 32 := by
  intro v hv
  simp only [symsN, List.mem_map] at hv
  obtain ⟨b, hb, rfl⟩ := hv
  have := index_CHARSET_facts b (hc b hb)
  omega

theorem symsN_length (d : GoString) : (symsN d).length = d.length := by
  simp [symsN]

theorem verifyChecksum_cast (hrp : GoString) (l : List Nat) :
    verifyChecksum hrp (castList l) = decide (polymodN (hrpExpandN hrp ++ l) = 1) := by
  unfold verifyChecksum
  rw [hrpExpand_cast, ← castList_append, castList, polymod_cast]
  apply decide_eq_decide.mpr
  constructor
  · intro h; exact_mod_cast h
  · intro h; exact_mod_cast h

theorem validChars_append (a b : GoString) :
    validChars (a ++ b) ↔ validChars a ∧ validChars b := by
  simp only [validChars, List.mem_append]
  constructor
  · intro h
    exact ⟨fun x hx => h x (Or.inl hx), fun x hx => h x (Or.inr hx)⟩
  · rintro ⟨h1, h2⟩ x (hx | hx)
    · exact h1 x hx
    · exact h2 x hx

theorem anyUpper_eq_false (s : GoString) :
    anyUpper s = false ↔ ∀ b ∈ s, ¬ (65 ≤ b.val ∧ b.val ≤ 90) := by
  simp [anyUpper]

theorem anyLower_eq_false (s : GoString) :
    anyLower s = false ↔ ∀ b ∈ s, ¬ (97 ≤ b.val ∧ b.val ≤ 122) := by
  simp [anyLower]

/-- The function `Decode` on a lower-case string split at its last separator. -/
theorem Decode_split (hrp d : GoString) (hne : hrp ≠ []) (hv : validChars hrp)
    (hu : anyUpper hrp = false) (hd : 6 ≤ d.length)
    (hlen : hrp.length + 1 + d.length ≤ 90) (hc : ∀ b ∈ d, index CHARSET b ≠ -1) :
    Decode (hrp ++ 49 :: d) =
      if verifyChecksum hrp (d.map (index CHARSET)) then
        .ok ⟨hrp, (d.map (index CHARSET)).take (d.length - 6)⟩
      else .error .invalidChecksum := by
  have hvs : validChars (hrp ++ 49 :: d) := by
    rw [validChars_append, validChars_cons]
    exact ⟨hv, by decide, validChars_of_index d hc⟩
  have hus : anyUpper (hrp ++ 49 :: d) = false := by
    rw [anyUpper_append, hu]
    have h49 : anyUpper (49 :: d) = anyUpper d := by
      have : ¬ (65 ≤ ((49 : Byte).val) ∧ ((49 : Byte).val) ≤ 90) := by decide
      simp only [anyUpper, List.any_cons, this, decide_False, Bool.false_or]
    rw [h49, anyUpper_of_index d hc]
    rfl
  rw [Decode_valid _ hvs, hus, Bool.and_false, toLower_of_not_anyUpper _ hus]
  simp only [Bool.false_eq_true, if_false]
  exact decodeBody_split hrp d hne hd hlen hc

/-- The function `Encode` on symbols given as naturals. -/
theorem Encode_cast (hrp : GoString) (data : List Nat) (hne : hrp ≠ []) (hv : validChars hrp)
    (hu : anyUpper hrp = false) (hd : ∀ v ∈ data, v < 32)
    (hlen : hrp.length + 7 + data.length ≤ 90) :
    Encode hrp (castList data) =
        .ok (hrp ++ 49 :: render (data ++ createChecksumN hrp data)) ∧
      Decode (hrp ++ 49 :: render (data ++ createChecksumN hrp data)) =
        .ok ⟨hrp, castList data⟩ := by
  have hcl : (createChecksumN hrp data).length = 6 := by simp [createChecksumN, unpack]
  have hall : ∀ v ∈ data ++ createChecksumN hrp data, v < 32 := by
    intro v hv2
    rcases List.mem_append.mp hv2 with h | h
    · exact hd v h
    · exact unpack_lt _ v h
  have hdec : Decode (hrp ++ 49 :: render (data ++ createChecksumN hrp data)) =
      .ok ⟨hrp, castList data⟩ := by
    rw [Decode_split hrp _ hne hv hu
      (by rw [render_length, List.length_append, hcl]; omega)
      (by rw [render_length, List.length_append, hcl]; omega)
      (render_index_ne _ hall), render_map_index _ hall, verifyChecksum_cast,
      ← List.append_assoc, polymodN_createChecksumN hrp data hd]
    simp only [decide_True, if_true, render_length, List.length_append, hcl,
      Nat.add_sub_cancel]
    rw [castList_append, ← castList_length data, List.take_left']
    rfl
  refine ⟨?_, hdec⟩
  unfold Encode
  simp only [createChecksum_cast, ← castList_append]
  rw [encodeLoop_ok _ _ _ hall]
  have e : hrp ++ [49] ++ render (data ++ createChecksumN hrp data)
      = hrp ++ 49 :: render (data ++ createChecksumN hrp data) := by simp
  simp only [e, hdec]


theorem mem_CHARSET_index : ∀ b : Byte, b ∈ CHARSET → index CHARSET b ≠ -1 := by decide

/-- What a successful `Decode` says about its input. -/
theorem Decode_ok (s : GoString) (d : Dec) (h : Decode s = .ok d) :
    validChars s ∧ (anyLower s && anyUpper s) = false ∧ decodeBody (toLower s) = .ok d := by
  by_cases hv : validChars s
  · rw [Decode_valid s hv] at h
    refine ⟨hv, ?_⟩
    split_ifs at h with hm
    exact ⟨by simpa using hm, h⟩
  · obtain ⟨idx, c, hc⟩ := Decode_invalid s hv
    rw [hc] at h
    cases h

theorem validChars_mono (a b : GoString) (h : ∀ x ∈ a, x ∈ b) (hb : validChars b) :
    validChars a := fun x hx => hb x (h x hx)

theorem symsN_append_cons (A B : GoString) (x : Byte) :
    symsN (A ++ x :: B) = symsN A ++ (index CHARSET x).toNat :: symsN B := by
  simp [symsN]

/-- Replacing one data character by another character of `CHARSET` breaks the
checksum. -/
theorem verify_single_error (hrp A B : GoString) (x c : Byte)
    (hA : ∀ b ∈ A, index CHARSET b ≠ -1) (hB : ∀ b ∈ B, index CHARSET b ≠ -1)
    (hx : index CHARSET x ≠ -1) (hc : index CHARSET c ≠ -1) (hne : x ≠ c)
    (h : verifyChecksum hrp ((A ++ x :: B).map (index CHARSET)) = true) :
    verifyChecksum hrp ((A ++ c :: B).map (index CHARSET)) = false := by
  have hall : ∀ (y : Byte), index CHARSET y ≠ -1 → ∀ b ∈ A ++ y :: B, index CHARSET b ≠ -1 := by
    intro y hy b hb
    rcases List.mem_append.mp hb with h1 | h1
    · exact hA b h1
    · rcases List.mem_cons.mp h1 with h2 | h2
      · rw [h2]; exact hy
      · exact hB b h2
  rw [map_index_eq _ (hall x hx), verifyChecksum_cast, symsN_append_cons, ← List.append_assoc,
    decide_eq_true_eq] at h
  rw [map_index_eq _ (hall c hc), verifyChecksum_cast, symsN_append_cons, ← List.append_assoc,
    decide_eq_false_iff_not]
  have fx := index_CHARSET_facts x hx
  have fc := index_CHARSET_facts c hc
  have hd : (index CHARSET x).toNat ≠ (index CHARSET c).toNat := by
    intro e
    apply hne
    rw [← fx.2.2.1, ← fc.2.2.1, e]
  have := polymodN_single_error (hrpExpandN hrp ++ symsN A) (symsN B)
    (index CHARSET x).toNat (index CHARSET c).toNat (by omega) (by omega) hd
  rw [h] at this
  exact fun e => this e.symm

/-- The function `Decode` rejects, with the checksum error, an accepted lower-case
string in which one character after the separator was replaced. -/
theorem Decode_replace (pre post : GoString) (x c : Byte) (d : Dec)
    (hlow : anyUpper (pre ++ x :: post) = false)
    (hs : Decode (pre ++ x :: post) = .ok d)
    (hi : lastIndex (pre ++ x :: post) 49 < (pre.length : Int))
    (hc : index CHARSET c ≠ -1) (hne : x ≠ c) :
    Decode (pre ++ c :: post) = .error .invalidChecksum := by
  obtain ⟨hv, _, hb⟩ := Decode_ok _ d hs
  rw [toLower_of_not_anyUpper _ hlow] at hb
  obtain ⟨hrp, dd, e, hne2, h6, hlen, hcs, hl, hver, _⟩ := decodeBody_ok _ d hb
  rw [hl] at hi
  have hlt : hrp.length < pre.length := by exact_mod_cast hi
  have hlen2 : (pre ++ x :: post).length = hrp.length + 1 + dd.length := by
    rw [e]; simp; omega
  obtain ⟨A, hpre, hdd⟩ : ∃ A, pre = hrp ++ 49 :: A ∧ dd = A ++ x :: post := by
    rcases List.append_eq_append_iff.mp e with ⟨a, h1, h2⟩ | ⟨a, h1, h2⟩
    · have := congrArg List.length h1
      simp at this
      omega
    · rcases a with _ | ⟨y, A⟩
      · have := congrArg List.length h1
        simp at this
        omega
      · simp only [List.cons_append, List.cons.injEq] at h2
        exact ⟨A, by rw [h1, h2.1], h2.2⟩
  have hvh : validChars hrp := validChars_mono _ _ (by rw [e]; simp_all) hv
  have huh : anyUpper hrp = false := by
    rw [anyUpper_eq_false] at hlow ⊢
    intro b hb2
    exact hlow b (by rw [e]; simp [hb2])
  have hA : ∀ b ∈ A, index CHARSET b ≠ -1 := fun b hb2 => hcs b (by rw [hdd]; simp [hb2])
  have hB : ∀ b ∈ post, index CHARSET b ≠ -1 := fun b hb2 => hcs b (by rw [hdd]; simp [hb2])
  have hx : index CHARSET x ≠ -1 := hcs x (by rw [hdd]; simp)
  have hnew : ∀ b ∈ A ++ c :: post, index CHARSET b ≠ -1 := by
    intro b hb2
    rcases List.mem_append.mp hb2 with h1 | h1
    · exact hA b h1
    · rcases List.mem_cons.mp h1 with h2 | h2
      · rw [h2]; exact hc
      · exact hB b h2
  have hl2 : (A ++ c :: post).length = dd.length := by rw [hdd]; simp
  rw [hdd] at hver
  have hf := verify_single_error hrp A post x c hA hB hx hc hne hver
  have e3 : pre ++ c :: post = hrp ++ 49 :: (A ++ c :: post) := by rw [hpre]; simp
  rw [e3, Decode_split hrp _ hne2 hvh huh (by omega) (by omega) hnew, hf]
  rfl

/-- Bounds on the separator of a string accepted by `Decode`. -/
theorem Decode_ok_bounds (s : GoString) (d : Dec) (h : Decode s = .ok d) :
    1 ≤ lastIndex s 49 ∧ lastIndex s 49 + 7 ≤ s.length ∧ s.length ≤ 90 ∧
    d.hrp = toLower (s.take (lastIndex s 49).toNat) ∧
    (∀ x ∈ d.data, 0 ≤ x ∧ x ≤ 31) := by
  obtain ⟨_, _, hb⟩ := Decode_ok s d h
  obtain ⟨hrp, dd, e, hne, h6, hlen, hcs, hl, _, hr⟩ := decodeBody_ok _ d hb
  rw [lastIndex_toLower] at hl
  rw [toLower_length] at hlen
  have hlen2 : s.length = hrp.length + 1 + dd.length := by
    rw [← toLower_length s, e]; simp; omega
  have hpos : 0 < hrp.length := List.length_pos.mpr hne
  rw [hl, hr]
  refine ⟨by omega, by omega, hlen, ?_, ?_⟩
  · simp only [Int.toNat_ofNat]
    have : toLower (List.take hrp.length s) = List.take hrp.length (toLower s) := by
      simp [toLower, List.map_take]
    rw [this, e]
    simp
  · intro x hx
    have hx2 := List.mem_of_mem_take hx
    simp only [List.mem_map] at hx2
    obtain ⟨b, hb2, rfl⟩ := hx2
    have := index_CHARSET_facts b (hcs b hb2)
    omega

/-- What a successful `SegwitAddrDecode` says about its input. -/
theorem SegwitAddrDecode_ok (hrp addr : GoString) (r : SegwitAddrDec)
    (h : SegwitAddrDecode hrp addr = .ok r) :
    ∃ dec, Decode addr = .ok dec ∧ dec.hrp = hrp ∧ 1 ≤ dec.data.length ∧
      dec.data.headD 0 ≤ 16 ∧ convertbits dec.data.tail 5 8 false = .ok r.program ∧
      r.version = dec.data.headD 0 ∧ 2 ≤ r.program.length ∧ r.program.length ≤ 40 ∧
      (r.version = 0 → r.program.length = 20 ∨ r.program.length = 32) := by
  unfold SegwitAddrDecode at h
  cases hd : Decode addr with
  | error e => rw [hd] at h; cases h
  | ok dec =>
    rw [hd] at h
    simp only at h
    split_ifs at h with h1 h2 h3
    cases hc : convertbits dec.data.tail 5 8 false with
    | error e => rw [hc] at h; cases h
    | ok res =>
      rw [hc] at h
      simp only at h
      split_ifs at h with h4 h5
      have hr : r = ⟨dec.data.headD 0, res⟩ := (Except.ok.inj h).symm
      subst hr
      have h1b : 1 ≤ dec.data.length := by omega
      refine ⟨dec, rfl, by simpa using h1, h1b, by omega, hc, rfl, ?_, ?_, ?_⟩
      · show 2 ≤ res.length
        omega
      · show res.length ≤ 40
        omega
      · intro h0
        show res.length = 20 ∨ res.length = 32
        have h00 : dec.data.headD 0 = 0 := h0
        by_contra hcon
        exact h5 ⟨h00, by omega, by omega⟩

/-! ### Two's-complement arithmetic -/

theorem two_pow_pos_nat (t : Nat) : 0 < 2 ^ t := by positivity

theorem ldiff_mask (n t : Nat) : Nat.ldiff (2 ^ t - 1) n = 2 ^ t - 1 - n % 2 ^ t := by
  apply Nat.eq_of_testBit_eq
  intro i
  have h : n % 2 ^ t < 2 ^ t := Nat.mod_lt _ (two_pow_pos_nat t)
  have e : 2 ^ t - 1 - n % 2 ^ t = 2 ^ t - (n % 2 ^ t + 1) := by omega
  rw [Nat.testBit_ldiff, Nat.testBit_two_pow_sub_one, e, Nat.testBit_two_pow_sub_succ h,
    Nat.testBit_mod_two_pow]
  by_cases hi : i < t <;> simp [hi]

/-- Masking an integer with `2^t - 1` gives its residue modulo `2^t`. -/
theorem land_mask (x : Int) (t : Nat) : Int.land x ((2 ^ t - 1 : Nat) : Int) = x % 2 ^ t := by
  cases x with
  | ofNat n =>
    have h : Int.land (Int.ofNat n) ((2 ^ t - 1 : Nat) : Int)
        = ((n &&& (2 ^ t - 1) : Nat) : Int) := rfl
    rw [h, Nat.and_pow_two_sub_one_eq_mod]
    simp
  | negSucc n =>
    have h : Int.land (Int.negSucc n) ((2 ^ t - 1 : Nat) : Int)
        = ((Nat.ldiff (2 ^ t - 1) n : Nat) : Int) := rfl
    have hp : (0 : Int) < 2 ^ t := by positivity
    rw [h, ldiff_mask, Int.negSucc_emod n hp]
    have h2 : n % 2 ^ t < 2 ^ t := Nat.mod_lt _ (two_pow_pos_nat t)
    have h3 : ((2 ^ t : Nat) : Int) = 2 ^ t := by push_cast; rfl
    have h4 : ((n % 2 ^ t : Nat) : Int) = (n : Int) % 2 ^ t := by push_cast; rfl
    rw [← h4, ← h3]
    omega

theorem ldiff_low (q f w : Nat) (hw : w < 2 ^ f) :
    Nat.ldiff (2 ^ f * q + (2 ^ f - 1)) w = 2 ^ f * q + (2 ^ f - 1 - w) := by
  apply Nat.eq_of_testBit_eq
  intro i
  have hp := two_pow_pos_nat f
  have h1 : 2 ^ f - 1 < 2 ^ f := by omega
  have h2 : 2 ^ f - 1 - w < 2 ^ f := by omega
  rw [Nat.testBit_ldiff, Nat.testBit_mul_pow_two_add q h1, Nat.testBit_mul_pow_two_add q h2]
  by_cases hi : i < f
  · simp only [hi, if_true]
    have e : 2 ^ f - 1 - w = 2 ^ f - (w + 1) := by omega
    rw [e, Nat.testBit_two_pow_sub_succ hw, Nat.testBit_two_pow_sub_one]
  · simp only [hi, if_false]
    have : w.testBit i = false :=
      Nat.testBit_lt_two_pow (lt_of_lt_of_le hw (Nat.pow_le_pow_right (by norm_num) (by omega)))
    simp [this]

/-- Or-ing a value below `2^f` into a multiple of `2^f` adds it. -/
theorem lor_add (x : Int) (w f : Nat) (hx : x % 2 ^ f = 0) (hw : w < 2 ^ f) :
    Int.lor x (w : Int) = x + w := by
  have hp := two_pow_pos_nat f
  have h3 : ((2 ^ f : Nat) : Int) = 2 ^ f := by push_cast; rfl
  cases x with
  | ofNat n =>
    have h : Int.lor (Int.ofNat n) (w : Int) = ((n ||| w : Nat) : Int) := rfl
    rw [h]
    have hn : n % 2 ^ f = 0 := by
      have : ((n % 2 ^ f : Nat) : Int) = 0 := by
        rw [← hx]; push_cast; rfl
      exact_mod_cast this
    obtain ⟨q, hq⟩ := Nat.dvd_of_mod_eq_zero hn
    rw [hq, ← Nat.mul_add_lt_is_or hw]
    simp only [Int.ofNat_eq_coe]
    push_cast
    ring
  | negSucc n =>
    have h : Int.lor (Int.negSucc n) (w : Int) = Int.negSucc (Nat.ldiff n w) := rfl
    rw [h]
    have hpi : (0 : Int) < 2 ^ f := by positivity
    rw [Int.negSucc_emod n hpi] at hx
    have h4 : ((n % 2 ^ f : Nat) : Int) = (n : Int) % 2 ^ f := by push_cast; rfl
    rw [← h4, ← h3] at hx
    have h2 : n % 2 ^ f < 2 ^ f := Nat.mod_lt _ hp
    have hn : n = 2 ^ f * (n / 2 ^ f) + (2 ^ f - 1) := by
      have := Nat.div_add_mod n (2 ^ f)
      omega
    rw [hn, ldiff_low _ f w hw]
    simp only [Int.negSucc_eq]
    push_cast
    omega

theorem wrap64_modEq (y : Int) : Int.ModEq (2 ^ 64) (wrap64 y) y := by
  unfold wrap64 Int.ModEq
  omega

theorem shl_modEq (x : Int) (A k : Nat) (h : Int.ModEq (2 ^ 64) x A) :
    Int.ModEq (2 ^ 64) (shl x k) ((A * 2 ^ k : Nat) : Int) := by
  unfold shl
  refine (wrap64_modEq _).trans ?_
  have := h.mul_right (2 ^ k)
  push_cast
  exact this

theorem modEq_two_pow (x y : Int) (j : Nat) (hj : j ≤ 64) (h : Int.ModEq (2 ^ 64) x y) :
    Int.ModEq (2 ^ j) x y := by
  apply Int.ModEq.of_dvd _ h
  exact pow_dvd_pow 2 hj

theorem shl_emod (x : Int) (f : Nat) (hf : f ≤ 64) : shl x f % 2 ^ f = 0 := by
  have h1 : Int.ModEq (2 ^ f) (shl x f) (x * 2 ^ f) :=
    modEq_two_pow _ _ f hf (wrap64_modEq _)
  have h2 : (x * 2 ^ f) % 2 ^ f = 0 := Int.mul_emod_left _ _
  rw [← h2]
  exact h1

/-- The maximal value `maxv` of `convertbits`. -/
theorem maxv_eq (t : Nat) (ht : t ≤ 62) :
    wrap64 (shl 1 t - 1) = ((2 ^ t - 1 : Nat) : Int) := by
  have hp := two_pow_pos_nat t
  have hle : (2 : Int) ^ t ≤ 2 ^ 62 := pow_le_pow_right₀ (by norm_num) ht
  have hpi : (0 : Int) < 2 ^ t := by positivity
  have h1 : shl 1 t = 2 ^ t := by
    unfold shl
    rw [one_mul]
    exact wrap64_of_lt _ (by omega) (by omega)
  rw [h1, wrap64_of_lt _ (by omega) (by omega)]
  push_cast [Nat.cast_sub hp]
  rfl

/-- A group of `t` bits read at offset `b` of a 64-bit register. -/
theorem land_shr_modEq (x : Int) (A b t : Nat) (hbt : b + t ≤ 64)
    (h : Int.ModEq (2 ^ 64) x A) :
    Int.land (shr x b) ((2 ^ t - 1 : Nat) : Int) = ((A / 2 ^ b % 2 ^ t : Nat) : Int) := by
  rw [land_mask]
  unfold shr
  rw [Int.shiftRight_eq_div_pow]
  obtain ⟨k, hk⟩ := Int.modEq_iff_add_fac.mp h.symm
  have e64 : (2 : Int) ^ 64 = 2 ^ b * (2 ^ t * 2 ^ (64 - b - t)) := by
    rw [← pow_add, ← pow_add]
    congr 1
    omega
  have hb0 : (2 : Int) ^ b ≠ 0 := by positivity
  have e1 : x = (A : Int) + 2 ^ b * (2 ^ t * 2 ^ (64 - b - t) * k) := by
    rw [hk, e64]; ring
  have e2 : x / 2 ^ b = (A : Int) / 2 ^ b + 2 ^ t * (2 ^ (64 - b - t) * k) := by
    rw [e1, Int.add_mul_ediv_left _ _ hb0]
    ring
  have e3 : ((2 ^ b : Nat) : Int) = 2 ^ b := by push_cast; rfl
  rw [e3, e2, Int.add_mul_emod_self_left]
  push_cast
  rfl

/-- The low `t` bits of a shifted 64-bit register. -/
theorem land_shl_modEq (x : Int) (A k t : Nat) (ht : t ≤ 64)
    (h : Int.ModEq (2 ^ 64) x A) :
    Int.land (shl x k) ((2 ^ t - 1 : Nat) : Int) = (((A * 2 ^ k) % 2 ^ t : Nat) : Int) := by
  rw [land_mask]
  have h1 := modEq_two_pow _ _ t ht (shl_modEq x A k h)
  rw [h1]
  push_cast
  rfl

theorem shr_cast_eq_zero (v f : Nat) (h : v < 2 ^ f) : shr (v : Int) f = 0 := by
  rw [shr_cast, Nat.shiftRight_eq_div_pow, Nat.div_eq_of_lt h]
  rfl

/-! ### Digits -/

theorem digits_length (w n x : Nat) : (digits w n x).length = n := by
  induction n generalizing x with
  | zero => rfl
  | succ n ih => simp [digits, ih]

theorem digits_lt (w n x : Nat) : ∀ d ∈ digits w n x, d < 2 ^ w := by
  induction n generalizing x with
  | zero => simp [digits]
  | succ n ih =>
    intro d hd
    simp only [digits, List.mem_append, List.mem_singleton] at hd
    rcases hd with h | h
    · exact ih _ d h
    · rw [h]; exact Nat.mod_lt _ (two_pow_pos_nat w)

theorem valueFrom_append (w a : Nat) (l : List Nat) (d : Nat) :
    valueFrom w a (l ++ [d]) = valueFrom w a l * 2 ^ w + d := by
  simp [valueFrom, List.foldl_append]

theorem valueFrom_cons (w a : Nat) (l : List Nat) (d : Nat) :
    valueFrom w a (d :: l) = valueFrom w (a * 2 ^ w + d) l := rfl

theorem digits_valueFrom (w a : Nat) (l : List Nat) (h : ∀ d ∈ l, d < 2 ^ w) :
    digits w l.length (valueFrom w a l) = l := by
  induction l using List.reverseRecOn with
  | nil => rfl
  | append_singleton l d ih =>
    have hd : d < 2 ^ w := h d (by simp)
    rw [List.length_append, List.length_singleton, valueFrom_append, digits]
    have e1 : (valueFrom w a l * 2 ^ w + d) / 2 ^ w = valueFrom w a l := by
      rw [Nat.add_comm, Nat.add_mul_div_right _ _ (two_pow_pos_nat w), Nat.div_eq_of_lt hd,
        Nat.zero_add]
    have e2 : (valueFrom w a l * 2 ^ w + d) % 2 ^ w = d := by
      rw [Nat.add_comm, Nat.add_mul_mod_self_right, Nat.mod_eq_of_lt hd]
    rw [e1, e2, ih (fun x hx => h x (by simp [hx]))]

theorem valueFrom_digits (w n x : Nat) : valueFrom w 0 (digits w n x) = x % 2 ^ (w * n) := by
  induction n generalizing x with
  | zero => simp [digits, valueFrom, Nat.mod_one]
  | succ n ih =>
    rw [digits, valueFrom_append, ih, Nat.mul_succ, pow_add, Nat.mul_comm (2 ^ (w * n)),
      Nat.mod_mul]
    ring

theorem valueFrom_lt (w : Nat) (l : List Nat) (h : ∀ d ∈ l, d < 2 ^ w) :
    valueFrom w 0 l < 2 ^ (w * l.length) := by
  induction l using List.reverseRecOn with
  | nil => simp [valueFrom]
  | append_singleton l d ih =>
    have hd : d < 2 ^ w := h d (by simp)
    have h1 := ih (fun x hx => h x (by simp [hx]))
    rw [valueFrom_append, List.length_append, List.length_singleton, Nat.mul_succ, pow_add]
    have h2 : (valueFrom w 0 l + 1) * 2 ^ w ≤ 2 ^ (w * l.length) * 2 ^ w :=
      Nat.mul_le_mul_right _ h1
    rw [Nat.add_mul, Nat.one_mul] at h2
    omega

/-! ### The bit converter -/

theorem div_pow_add (X b f : Nat) : X / 2 ^ (b + f) = X / 2 ^ f / 2 ^ b := by
  rw [Nat.div_div_eq_div_mul, pow_add, Nat.mul_comm]

theorem emit_spec (t : Nat) (ht : 1 ≤ t) (A : Nat) :
    ∀ (fuel : Nat) (s : ConvState) (n : Nat), s.bits ≤ fuel → s.bits ≤ 64 →
      Int.ModEq (2 ^ 64) s.acc A → s.ret = castList (digits t n (A / 2 ^ s.bits)) →
      (emit t ((2 ^ t - 1 : Nat) : Int) fuel s).acc = s.acc ∧
      (emit t ((2 ^ t - 1 : Nat) : Int) fuel s).bits = s.bits % t ∧
      (emit t ((2 ^ t - 1 : Nat) : Int) fuel s).ret =
        castList (digits t (n + s.bits / t) (A / 2 ^ (s.bits % t))) := by
  intro fuel
  induction fuel with
  | zero =>
    intro s n h0 _ _ hr
    have hb : s.bits = 0 := by omega
    simp only [emit, hb, Nat.zero_mod, Nat.zero_div, Nat.add_zero, true_and]
    rw [hr, hb]
  | succ fuel ih =>
    intro s n hf h64 hacc hr
    rw [emit]
    by_cases hge : s.bits ≥ t
    · rw [if_pos hge]
      have hm : s.bits - t + t = s.bits := Nat.sub_add_cancel hge
      have hnew : s.ret ++ [Int.land (shr s.acc (s.bits - t)) ((2 ^ t - 1 : Nat) : Int)]
          = castList (digits t (n + 1) (A / 2 ^ (s.bits - t))) := by
        have hm2 : t + (s.bits - t) = s.bits := by omega
        rw [land_shr_modEq s.acc A (s.bits - t) t (by omega) hacc, hr, digits,
          castList_append, ← div_pow_add, hm2]
        rfl
      obtain ⟨h1, h2, h3⟩ := ih ⟨s.acc, s.bits - t, _⟩ (n + 1) (by simp only; omega)
        (by simp only; omega) hacc hnew
      simp only at h1 h2 h3
      refine ⟨h1, ?_, ?_⟩
      · rw [h2]
        conv_rhs => rw [← hm]
        rw [Nat.add_mod_right]
      · rw [h3]
        have e1 : (s.bits - t) % t = s.bits % t := by
          conv_rhs => rw [← hm]
          rw [Nat.add_mod_right]
        have e2 : n + 1 + (s.bits - t) / t = n + s.bits / t := by
          conv_rhs => rw [← hm]
          rw [Nat.add_div_right _ (by omega)]
          omega
        rw [e1, e2]
    · rw [if_neg hge]
      have hlt : s.bits < t := by omega
      rw [Nat.mod_eq_of_lt hlt, Nat.div_eq_of_lt hlt, Nat.add_zero]
      exact ⟨rfl, rfl, hr⟩

theorem convLoop_spec (f t : Nat) (ht : 1 ≤ t) (hft : f + t ≤ 64) :
    ∀ (vals : List Nat) (idx : Nat) (s : ConvState) (A n : Nat),
      (∀ v ∈ vals, v < 2 ^ f) → s.bits < t → Int.ModEq (2 ^ 64) s.acc A →
      s.ret = castList (digits t n (A / 2 ^ s.bits)) →
      ∃ s2 n2, convLoop f t ((2 ^ t - 1 : Nat) : Int) (castList vals) idx s = .ok s2 ∧
        s2.bits < t ∧ n2 * t + s2.bits = n * t + s.bits + f * vals.length ∧
        Int.ModEq (2 ^ 64) s2.acc (valueFrom f A vals) ∧
        s2.ret = castList (digits t n2 (valueFrom f A vals / 2 ^ s2.bits)) := by
  intro vals
  induction vals with
  | nil =>
    intro idx s A n _ hb hacc hr
    exact ⟨s, n, rfl, hb, by simp, hacc, hr⟩
  | cons v rest ih =>
    intro idx s A n hv hb hacc hr
    have hv0 : v < 2 ^ f := hv v (List.mem_cons_self _ _)
    have hcond : ¬ ((v : Int) < 0 ∨ shr (v : Int) f ≠ 0) := by
      rw [shr_cast_eq_zero v f hv0]
      simp
    have hlor : Int.lor (shl s.acc f) (v : Int) = shl s.acc f + v :=
      lor_add _ v f (shl_emod _ f (by omega)) hv0
    have hacc2 : Int.ModEq (2 ^ 64) (shl s.acc f + v) ((A * 2 ^ f + v : Nat) : Int) := by
      have := (shl_modEq s.acc A f hacc).add_right (v : Int)
      push_cast at this ⊢
      exact this
    have hr2 : s.ret = castList (digits t n ((A * 2 ^ f + v) / 2 ^ (s.bits + f))) := by
      rw [hr, div_pow_add, Nat.add_comm (A * 2 ^ f), Nat.add_mul_div_right _ _ (two_pow_pos_nat f),
        Nat.div_eq_of_lt hv0, Nat.zero_add]
    obtain ⟨h1, h2, h3⟩ := emit_spec t ht (A * 2 ^ f + v) (s.bits + f)
      ⟨shl s.acc f + v, s.bits + f, s.ret⟩ n (le_refl _) (by simp only; omega) hacc2 hr2
    simp only at h1 h2 h3
    obtain ⟨s3, n3, e3, hb3, hn3, hacc3, hr3⟩ := ih (idx + 1)
      (emit t ((2 ^ t - 1 : Nat) : Int) (s.bits + f) ⟨shl s.acc f + v, s.bits + f, s.ret⟩)
      (A * 2 ^ f + v) (n + (s.bits + f) / t)
      (fun x hx => hv x (List.mem_cons_of_mem _ hx))
      (by rw [h2]; exact Nat.mod_lt _ (by omega)) (by rw [h1]; exact hacc2) (by rw [h3, h2])
    refine ⟨s3, n3, ?_, hb3, ?_, ?_, ?_⟩
    · simp only [castList, List.map_cons] at e3 ⊢
      rw [convLoop, if_neg hcond]
      simp only [hlor]
      exact e3
    · rw [hn3, h2, List.length_cons, Nat.add_mul, Nat.mul_succ]
      have := Nat.div_add_mod (s.bits + f) t
      rw [Nat.mul_comm] at this
      omega
    · rw [valueFrom_cons]; exact hacc3
    · rw [valueFrom_cons]; exact hr3

theorem convLoop_init (f t : Nat) (ht : 1 ≤ t) (hft : f + t ≤ 64) (vals : List Nat)
    (hv : ∀ v ∈ vals, v < 2 ^ f) :
    ∃ s n, convLoop f t ((2 ^ t - 1 : Nat) : Int) (castList vals) 0 ⟨0, 0, []⟩ = .ok s ∧
      s.bits < t ∧ n * t + s.bits = f * vals.length ∧
      Int.ModEq (2 ^ 64) s.acc (valueFrom f 0 vals) ∧
      s.ret = castList (digits t n (valueFrom f 0 vals / 2 ^ s.bits)) := by
  obtain ⟨s, n, e, hb, hn, hacc, hr⟩ := convLoop_spec f t ht hft vals 0 ⟨0, 0, []⟩ 0 0 hv
    (by simp only; omega) (by simp only; exact Int.ModEq.refl _) (by simp [digits, castList])
  exact ⟨s, n, e, hb, by simpa using hn, hacc, hr⟩

/-- The function `convertbits` with padding, on values below `2^frombits`. -/
theorem convertbits_pad (f t : Nat) (ht : 1 ≤ t) (ht2 : t ≤ 62) (hft : f + t ≤ 64)
    (vals : List Nat) (hv : ∀ v ∈ vals, v < 2 ^ f) :
    ∃ n bits, bits < t ∧ n * t + bits = f * vals.length ∧
      convertbits (castList vals) f t true = .ok (castList
        (if 0 < bits then digits t (n + 1) (valueFrom f 0 vals * 2 ^ (t - bits))
         else digits t n (valueFrom f 0 vals))) := by
  obtain ⟨s, n, e, hb, hn, hacc, hr⟩ := convLoop_init f t ht hft vals hv
  refine ⟨n, s.bits, hb, hn, ?_⟩
  unfold convertbits
  simp only [maxv_eq t ht2, e, if_true]
  by_cases hpos : 0 < s.bits
  · rw [if_pos hpos, if_pos hpos, land_shl_modEq s.acc _ (t - s.bits) t (by omega) hacc, hr,
      digits, castList_append]
    have e1 : valueFrom f 0 vals * 2 ^ (t - s.bits) / 2 ^ t = valueFrom f 0 vals / 2 ^ s.bits := by
      have e2 : 2 ^ t = 2 ^ s.bits * 2 ^ (t - s.bits) := by
        rw [← pow_add]; congr 1; omega
      rw [e2, Nat.mul_div_mul_right _ _ (two_pow_pos_nat _)]
    rw [e1]
    rfl
  · have h0 : s.bits = 0 := by omega
    rw [if_neg hpos, if_neg hpos, hr, h0]
    simp

/-- The function `convertbits` without padding, on values below `2^frombits`. -/
theorem convertbits_strict (f t : Nat) (ht : 1 ≤ t) (ht2 : t ≤ 62) (hft : f + t ≤ 64)
    (vals : List Nat) (hv : ∀ v ∈ vals, v < 2 ^ f) :
    ∃ n bits, bits < t ∧ n * t + bits = f * vals.length ∧
      convertbits (castList vals) f t false =
        if bits ≥ f then .error .illegalZeroPadding
        else if valueFrom f 0 vals % 2 ^ bits ≠ 0 then .error .nonZeroPadding
        else .ok (castList (digits t n (valueFrom f 0 vals / 2 ^ bits))) := by
  obtain ⟨s, n, e, hb, hn, hacc, hr⟩ := convLoop_init f t ht hft vals hv
  refine ⟨n, s.bits, hb, hn, ?_⟩
  unfold convertbits
  simp only [maxv_eq t ht2, e, Bool.false_eq_true, if_false]
  by_cases hge : s.bits ≥ f
  · rw [if_pos hge, if_pos hge]
  · rw [if_neg hge, if_neg hge, land_shl_modEq s.acc _ (t - s.bits) t (by omega) hacc]
    have e2 : 2 ^ t = 2 ^ s.bits * 2 ^ (t - s.bits) := by
      rw [← pow_add]; congr 1; omega
    have e3 : valueFrom f 0 vals * 2 ^ (t - s.bits) % 2 ^ t
        = valueFrom f 0 vals % 2 ^ s.bits * 2 ^ (t - s.bits) := by
      rw [e2, Nat.mul_mod_mul_right]
    have hp := two_pow_pos_nat (t - s.bits)
    by_cases hz : valueFrom f 0 vals % 2 ^ s.bits = 0
    · rw [if_neg (by rw [e3, hz]; simp), if_neg (by simp [hz]), hr]
    · rw [if_pos, if_pos hz]
      rw [e3]
      intro h0
      have h1 : valueFrom f 0 vals % 2 ^ s.bits * 2 ^ (t - s.bits) = 0 := by exact_mod_cast h0
      rcases Nat.mul_eq_zero.mp h1 with h2 | h2
      · exact hz h2
      · omega

/-! ### Round trips of the bit converter -/

theorem lt_256 (b : List Nat) (hb : ∀ x ∈ b, x < 256) : ∀ x ∈ b, x < 2 ^ 8 := fun x hx => by
  have := hb x hx
  norm_num
  exact this

theorem lt_32 (b : List Nat) (hb : ∀ x ∈ b, x < 32) : ∀ x ∈ b, x < 2 ^ 5 := fun x hx => by
  have := hb x hx
  norm_num
  exact this

/-- Bytes converted to 5-bit groups with padding convert back, without padding,
to the same bytes. -/
theorem convertbits_roundtrip_8_5 (b : List Nat) (hb : ∀ x ∈ b, x < 256) :
    ∃ r : List Nat, (∀ x ∈ r, x < 32) ∧ 8 * b.length ≤ 5 * r.length ∧
      5 * r.length < 8 * b.length + 5 ∧
      convertbits (castList b) 8 5 true = .ok (castList r) ∧
      convertbits (castList r) 5 8 false = .ok (castList b) := by
  have hb8 := lt_256 b hb
  obtain ⟨n, bits, hbits, hn, e⟩ := convertbits_pad 8 5 (by norm_num) (by norm_num) (by norm_num)
    b hb8
  have hN := valueFrom_lt 8 b hb8
  have hdig := digits_valueFrom 8 0 b hb8
  by_cases hpos : 0 < bits
  · rw [if_pos hpos] at e
    have hr32 : ∀ x ∈ digits 5 (n + 1) (valueFrom 8 0 b * 2 ^ (5 - bits)), x < 32 := by
      intro x hx
      have := digits_lt 5 _ _ x hx
      norm_num at this
      exact this
    refine ⟨_, hr32, by rw [digits_length]; omega, by rw [digits_length]; omega, e, ?_⟩
    obtain ⟨n2, bits2, hbits2, hn2, e2⟩ := convertbits_strict 5 8 (by norm_num) (by norm_num)
      (by norm_num) _ (lt_32 _ hr32)
    rw [digits_length] at hn2
    have hb2 : bits2 = 5 - bits := by omega
    have hn2b : n2 = b.length := by omega
    have hlt : valueFrom 8 0 b * 2 ^ (5 - bits) < 2 ^ (5 * (n + 1)) := by
      have e5 : 5 * (n + 1) = 8 * b.length + (5 - bits) := by omega
      rw [e5, pow_add]
      exact Nat.mul_lt_mul_of_pos_right hN (two_pow_pos_nat _)
    rw [e2, valueFrom_digits, Nat.mod_eq_of_lt hlt, hb2, hn2b, if_neg (by omega),
      Nat.mul_mod_left, if_neg (by simp), Nat.mul_div_cancel _ (two_pow_pos_nat _), hdig]
  · rw [if_neg hpos] at e
    have h0 : bits = 0 := by omega
    have hr32 : ∀ x ∈ digits 5 n (valueFrom 8 0 b), x < 32 := by
      intro x hx
      have := digits_lt 5 _ _ x hx
      norm_num at this
      exact this
    refine ⟨_, hr32, by rw [digits_length]; omega, by rw [digits_length]; omega, e, ?_⟩
    obtain ⟨n2, bits2, hbits2, hn2, e2⟩ := convertbits_strict 5 8 (by norm_num) (by norm_num)
      (by norm_num) _ (lt_32 _ hr32)
    rw [digits_length] at hn2
    have hb2 : bits2 = 0 := by omega
    have hn2b : n2 = b.length := by omega
    have hlt : valueFrom 8 0 b < 2 ^ (5 * n) := by
      have e5 : 5 * n = 8 * b.length := by omega
      rw [e5]
      exact hN
    rw [e2, valueFrom_digits, Nat.mod_eq_of_lt hlt, hb2, hn2b, if_neg (by omega),
      pow_zero, Nat.mod_one, if_neg (by simp), Nat.div_one, hdig]

/-- Symbols accepted by the conversion to bytes without padding are what the
conversion with padding makes of those bytes. -/
theorem convertbits_roundtrip_5_8 (d : List Nat) (hd : ∀ x ∈ d, x < 32) (res : List Int)
    (h : convertbits (castList d) 5 8 false = .ok res) :
    ∃ r : List Nat, res = castList r ∧ (∀ x ∈ r, x < 256) ∧
      convertbits (castList r) 8 5 true = .ok (castList d) := by
  have hd5 := lt_32 d hd
  obtain ⟨n, bits, hbits, hn, e⟩ := convertbits_strict 5 8 (by norm_num) (by norm_num)
    (by norm_num) d hd5
  have hN := valueFrom_lt 5 d hd5
  have hdig := digits_valueFrom 5 0 d hd5
  rw [e] at h
  split_ifs at h with h1 h2
  have hres := (Except.ok.inj h).symm
  have hlt5 : bits < 5 := by omega
  have hz : valueFrom 5 0 d % 2 ^ bits = 0 := by
    by_contra hc
    exact h2 hc
  have hr256 : ∀ x ∈ digits 8 n (valueFrom 5 0 d / 2 ^ bits), x < 256 := by
    intro x hx
    have := digits_lt 8 _ _ x hx
    norm_num at this
    exact this
  refine ⟨_, hres, hr256, ?_⟩
  obtain ⟨n2, bits2, hbits2, hn2, e2⟩ := convertbits_pad 8 5 (by norm_num) (by norm_num)
    (by norm_num) _ (lt_256 _ hr256)
  rw [digits_length] at hn2
  have hlt : valueFrom 5 0 d / 2 ^ bits < 2 ^ (8 * n) := by
    apply Nat.div_lt_of_lt_mul
    rw [← pow_add]
    have e5 : bits + 8 * n = 5 * d.length := by omega
    rw [e5]
    exact hN
  rw [e2, valueFrom_digits, Nat.mod_eq_of_lt hlt]
  by_cases hpos : 0 < bits2
  · rw [if_pos hpos]
    have hb2 : 5 - bits2 = bits := by omega
    have hn2b : n2 + 1 = d.length := by omega
    rw [hb2, hn2b, Nat.div_mul_cancel (Nat.dvd_of_mod_eq_zero hz), hdig]
  · rw [if_neg hpos]
    have hb2 : bits = 0 := by omega
    have hn2b : n2 = d.length := by omega
    rw [hb2, hn2b, pow_zero, Nat.div_one, hdig]

/-! ### The segwit address codec -/

theorem SegwitAddrDecode_congr (hrp a b : GoString) (h : Decode a = Decode b) :
    SegwitAddrDecode hrp a = SegwitAddrDecode hrp b := by
  unfold SegwitAddrDecode
  rw [h]

/-- The function `SegwitAddrDecode` on an address whose decoding is known. -/
theorem SegwitAddrDecode_of_Decode (hrp addr : GoString) (dec : Dec) (res : List Int)
    (hd : Decode addr = .ok dec) (hh : dec.hrp = hrp) (h1 : 1 ≤ dec.data.length)
    (hv : dec.data.headD 0 ≤ 16) (hc : convertbits dec.data.tail 5 8 false = .ok res)
    (hl : 2 ≤ res.length ∧ res.length ≤ 40)
    (h0 : dec.data.headD 0 = 0 → res.length = 20 ∨ res.length = 32) :
    SegwitAddrDecode hrp addr = .ok ⟨dec.data.headD 0, res⟩ := by
  unfold SegwitAddrDecode
  rw [hd]
  simp only
  rw [if_neg (by simp [hh]), if_neg (by omega), if_neg (by omega), hc]
  simp only
  rw [if_neg (by omega), if_neg]
  rintro ⟨h2, h3, h4⟩
  rcases h0 h2 with h5 | h5
  · exact h3 h5
  · exact h4 h5

theorem castList_cons (v : Nat) (l : List Nat) : castList (v :: l) = (v : Int) :: castList l :=
  rfl

theorem all_lt_of_range (l : List Int) (k : Int) (h : ∀ x ∈ l, 0 ≤ x ∧ x ≤ k) :
    ∀ v ∈ l.map Int.toNat, (v : Int) ≤ k := by
  intro v hv
  simp only [List.mem_map] at hv
  obtain ⟨x, hx, rfl⟩ := hv
  have := h x hx
  omega

/-- The anatomy of an address accepted by `SegwitAddrDecode`. -/
theorem SegwitAddrDecode_structure (hrp addr : GoString) (r : SegwitAddrDec)
    (h : SegwitAddrDecode hrp addr = .ok r) :
    ∃ (v : Nat) (tailN : List Nat) (prog : List Nat),
      toLower addr = hrp ++ 49 :: render (v :: tailN ++ createChecksumN hrp (v :: tailN)) ∧
      hrp ≠ [] ∧ validChars hrp ∧ anyUpper hrp = false ∧
      hrp.length + 7 + (v :: tailN).length ≤ 90 ∧
      (∀ x ∈ v :: tailN, x < 32) ∧ v ≤ 16 ∧
      r.version = (v : Int) ∧ r.program = castList prog ∧ (∀ x ∈ prog, x < 256) ∧
      convertbits (castList prog) 8 5 true = .ok (castList tailN) ∧
      Decode (toLower addr) = Decode addr := by
  obtain ⟨dec, hd, hh, h1, hv16, hc, hver, _, _, _⟩ := SegwitAddrDecode_ok hrp addr r h
  obtain ⟨hvalid, _, hb⟩ := Decode_ok addr dec hd
  obtain ⟨hrp2, dd, e, hne, h6, hlen, hcs, _, hchk, hr⟩ := decodeBody_ok _ dec hb
  have hh2 : hrp2 = hrp := by rw [← hh, hr]
  subst hh2
  have hvl := (validChars_toLower addr).mpr hvalid
  have hul := anyUpper_toLower addr
  have hvh : validChars hrp2 := validChars_mono _ _ (by rw [e]; simp_all) hvl
  have huh : anyUpper hrp2 = false := by
    rw [e, anyUpper_append] at hul
    exact (Bool.or_eq_false_iff.mp hul).1
  have hlen2 : (toLower addr).length = hrp2.length + 1 + dd.length := by
    rw [e]; simp; omega
  have hsl := symsN_length dd
  have hs32 := symsN_lt dd hcs
  have hsplit : symsN dd = (symsN dd).take (dd.length - 6) ++ (symsN dd).drop (dd.length - 6) :=
    (List.take_append_drop _ _).symm
  have hdata : dec.data = castList ((symsN dd).take (dd.length - 6)) := by
    rw [hr, map_index_eq dd hcs]
    simp [castList, List.map_take]
  have hpoly : polymodN (hrpExpandN hrp2 ++ (symsN dd).take (dd.length - 6) ++
      (symsN dd).drop (dd.length - 6)) = 1 := by
    rw [map_index_eq dd hcs, verifyChecksum_cast, decide_eq_true_eq] at hchk
    rw [List.append_assoc, ← hsplit]
    exact hchk
  have huniq := checksum_unique hrp2 _ _ (by rw [List.length_drop, hsl]; omega)
    (fun s hs => hs32 s (List.mem_of_mem_drop hs)) hpoly
  have hdd : dd = render ((symsN dd).take (dd.length - 6) ++
      createChecksumN hrp2 ((symsN dd).take (dd.length - 6))) := by
    rw [← huniq, ← hsplit]
    exact (render_toNat_index dd hcs).symm
  have htl : ((symsN dd).take (dd.length - 6)).length = dd.length - 6 := by
    rw [List.length_take, hsl]; omega
  have h32 : ∀ x ∈ (symsN dd).take (dd.length - 6), x < 32 :=
    fun s hs => hs32 s (List.mem_of_mem_take hs)
  generalize (symsN dd).take (dd.length - 6) = dataN at hdata hdd htl h32
  have h1b : 1 ≤ dataN.length := by
    rw [hdata, castList_length] at h1
    exact h1
  rcases dataN with _ | ⟨v, tailN⟩
  · simp at h1b
  · rw [hdata] at hv16 hc hver
    simp only [castList_cons, List.headD_cons, List.tail_cons] at hv16 hc hver
    obtain ⟨prog, hp1, hp2, hp3⟩ := convertbits_roundtrip_5_8 tailN
      (fun x hx => h32 x (List.mem_cons_of_mem _ hx)) r.program hc
    refine ⟨v, tailN, prog, by rw [e, ← hdd], hne, hvh, huh, ?_, h32, by omega, hver, hp1, hp2,
      hp3, ?_⟩
    · rw [htl]
      rw [toLower_length] at hlen hlen2
      omega
    · rw [Decode_valid _ hvl, hul, Bool.and_false, toLower_toLower, hd]
      exact hb

/-! ## The checksum -/

/-- C3: for every string `hrp` and every data sequence of symbols in `[0,31]`,
`createChecksum hrp data` has exactly six symbols, each in `[0,31]`, and
`verifyChecksum hrp (data ++ createChecksum hrp data)` holds, that is
`polymod (hrpExpand hrp ++ data ++ createChecksum hrp data) = 1`. -/
theorem createChecksum_valid (hrp : GoString) (data : List Int)
    (hd : ∀ x ∈ data, 0 ≤ x ∧ x ≤ 31) :
    (createChecksum hrp data).length = 6 ∧
    (∀ y ∈ createChecksum hrp data, 0 ≤ y ∧ y ≤ 31) ∧
    verifyChecksum hrp (data ++ createChecksum hrp data) = true ∧
    polymod (hrpExpand hrp ++ data ++ createChecksum hrp data) = 1 := by
  have hdn : ∀ v ∈ data.map Int.toNat, v < 32 := by
    intro v hv
    simp only [List.mem_map] at hv
    obtain ⟨x, hx, rfl⟩ := hv
    have := hd x hx
    omega
  have hp := polymodN_createChecksumN hrp (data.map Int.toNat) hdn
  rw [← castList_toNat data (fun x hx => (hd x hx).1), createChecksum_cast]
  refine ⟨by simp [castList, createChecksumN, unpack], ?_, ?_, ?_⟩
  · intro y hy
    obtain ⟨n, hn, rfl⟩ := mem_castList _ y hy
    have := unpack_lt _ n hn
    omega
  · rw [← castList_append, verifyChecksum_cast, ← List.append_assoc, hp]
    rfl
  · rw [hrpExpand_cast, ← castList_append, ← castList_append, castList, polymod_cast, hp]
    rfl

/-- Witness of C3 at `hrp = "bc"` and `data = [0, 14, 20]`. -/
theorem createChecksum_valid_witness :
    (∀ x ∈ ([0, 14, 20] : List Int), 0 ≤ x ∧ x ≤ 31) ∧
    (createChecksum (ascii ("bc")) [0, 14, 20]).length = 6 ∧
    (∀ y ∈ createChecksum (ascii ("bc")) [0, 14, 20], 0 ≤ y ∧ y ≤ 31) ∧
    verifyChecksum (ascii ("bc")) ([0, 14, 20] ++ createChecksum (ascii ("bc")) [0, 14, 20]) = true ∧
    polymod (hrpExpand (ascii ("bc")) ++ [0, 14, 20] ++ createChecksum (ascii ("bc")) [0, 14, 20])
      = 1 :=
  ⟨by decide, createChecksum_valid (ascii ("bc")) [0, 14, 20] (by decide)⟩

/-! ## The bech32 codec -/

/-- C2: for a non-empty `hrp` of characters in `[33,126]` without upper-case
letters (the character `1` allowed) and data symbols in `[0,31]` with
`len(hrp) + 7 + len(data) ≤ 90`, `Encode hrp data` returns `hrp`, the separator
`1`, and the `CHARSET` characters of `data` followed by `createChecksum hrp data`;
`Decode` of that string returns exactly `(hrp, data)`. -/
theorem Encode_Decode_roundtrip (hrp : GoString) (data : List Int)
    (hne : hrp ≠ []) (hv : ∀ b ∈ hrp, 33 ≤ b.val ∧ b.val ≤ 126)
    (hu : ∀ b ∈ hrp, ¬ (65 ≤ b.val ∧ b.val ≤ 90))
    (hd : ∀ x ∈ data, 0 ≤ x ∧ x ≤ 31) (hlen : hrp.length + 7 + data.length ≤ 90) :
    Encode hrp data =
      .ok (hrp ++ [49] ++ charsetRender (data ++ createChecksum hrp data)) ∧
    Decode (hrp ++ [49] ++ charsetRender (data ++ createChecksum hrp data)) =
      .ok ⟨hrp, data⟩ := by
  have hdn : ∀ v ∈ data.map Int.toNat, v < 32 := by
    intro v hv
    simp only [List.mem_map] at hv
    obtain ⟨x, hx, rfl⟩ := hv
    have := hd x hx
    omega
  have h := Encode_cast hrp (data.map Int.toNat) hne hv ((anyUpper_eq_false hrp).mpr hu) hdn
    (by rw [List.length_map]; exact hlen)
  have e := castList_toNat data (fun x hx => (hd x hx).1)
  rw [← e, createChecksum_cast, ← castList_append, charsetRender_cast]
  rw [e] at h ⊢
  simpa using h

/-- Witness of C2 at `hrp = "a1"` and `data = [3, 31]`. -/
theorem Encode_Decode_roundtrip_witness :
    Encode (ascii ("a1")) [3, 31] =
      .ok (ascii ("a1") ++ [49] ++
        charsetRender ([3, 31] ++ createChecksum (ascii ("a1")) [3, 31])) ∧
    Decode (ascii ("a1") ++ [49] ++
        charsetRender ([3, 31] ++ createChecksum (ascii ("a1")) [3, 31])) =
      .ok ⟨ascii ("a1"), [3, 31]⟩ :=
  Encode_Decode_roundtrip (ascii ("a1")) [3, 31] (by decide) (by decide) (by decide)
    (by decide) (by decide)

/-- C4: let `s` be a string without upper-case letters that `Decode` accepts, `i`
an index after the last separator `1` of `s`, and `c` a character of `CHARSET`
other than `s[i]`. Then `Decode` of `s` with `s[i]` replaced by `c` fails with the
invalid-checksum error. -/
theorem Decode_single_error (s : GoString) (d : Dec) (i : Nat) (c : Byte)
    (hlow : ∀ b ∈ s, ¬ (65 ≤ b.val ∧ b.val ≤ 90)) (hs : Decode s = .ok d)
    (hi : lastIndex s 49 < (i : Int)) (hlt : i < s.length) (hc : c ∈ CHARSET)
    (hne : s[i]? ≠ some c) :
    Decode (s.set i c) = .error .invalidChecksum := by
  have e : s = s.take i ++ s[i] :: s.drop (i + 1) := by
    rw [List.getElem_cons_drop, List.take_append_drop]
  have e2 : s.set i c = s.take i ++ c :: s.drop (i + 1) :=
    List.set_eq_take_cons_drop c hlt
  have hx : s[i] ≠ c := by
    intro h0
    apply hne
    rw [List.getElem?_eq_getElem hlt, h0]
  have hli : (s.take i).length = i := by
    rw [List.length_take]
    omega
  rw [e2]
  apply Decode_replace (s.take i) (s.drop (i + 1)) s[i] c d
  · rw [← e]; exact (anyUpper_eq_false s).mpr hlow
  · rw [← e]; exact hs
  · rw [← e, hli]; exact hi
  · exact mem_CHARSET_index c hc
  · exact hx

/-- Witness of C4: in the accepted string `a12uel5l` the character at index 3 is
replaced by `q`. -/
theorem Decode_single_error_witness :
    Decode ((ascii ("a12uel5l")).set 3 113) = .error .invalidChecksum :=
  Decode_single_error (ascii ("a12uel5l")) ⟨ascii ("a"), []⟩ 3 113 (by decide) (by decide)
    (by decide) (by decide) (by decide) (by decide)

/-- For a string `s` without lower-case letters `a-z`, `Decode s` and `Decode` of
the bytewise lower-case form of `s` both fail, or both succeed with the same
`(hrp, data)`, whose `hrp` has no upper-case letter. -/
theorem Decode_toLower_bytewise (s : GoString)
    (hl : ∀ b ∈ s, ¬ (97 ≤ b.val ∧ b.val ≤ 122)) :
    (((∃ e, Decode s = .error e) ∧ (∃ e, Decode (toLower s) = .error e)) ∨
      (∃ d, Decode s = .ok d ∧ Decode (toLower s) = .ok d ∧
        ∀ b ∈ d.hrp, ¬ (65 ≤ b.val ∧ b.val ≤ 90))) ∧
    Decode (ascii ("A12UEL5L")) = .ok ⟨ascii ("a"), []⟩ := by
  refine ⟨?_, by decide⟩
  by_cases hv : validChars s
  · have h1 : Decode s = decodeBody (toLower s) := by
      rw [Decode_valid s hv, (anyLower_eq_false s).mpr hl]
      rfl
    have h2 : Decode (toLower s) = decodeBody (toLower s) := by
      rw [Decode_valid _ ((validChars_toLower s).mpr hv), anyUpper_toLower, Bool.and_false,
        toLower_toLower]
      rfl
    cases hb : decodeBody (toLower s) with
    | error e => exact Or.inl ⟨⟨e, by rw [h1, hb]⟩, ⟨e, by rw [h2, hb]⟩⟩
    | ok d =>
      refine Or.inr ⟨d, by rw [h1, hb], by rw [h2, hb], ?_⟩
      obtain ⟨hrp, dd, e, _, _, _, _, _, _, hr⟩ := decodeBody_ok _ d hb
      have hu := (anyUpper_eq_false _).mp (anyUpper_toLower s)
      intro b hb2
      apply hu b
      rw [e]
      rw [hr] at hb2
      exact List.mem_append_left _ hb2
  · obtain ⟨i1, c1, e1⟩ := Decode_invalid s hv
    obtain ⟨i2, c2, e2⟩ := Decode_invalid (toLower s) (fun h => hv ((validChars_toLower s).mp h))
    exact Or.inl ⟨⟨_, e1⟩, ⟨_, e2⟩⟩

/-- C7: a string with at least one lower-case letter `a-z` and at least one
upper-case letter `A-Z` is rejected by `Decode`, and then by `SegwitAddrDecode`
for every `hrp`, with the same error. -/
theorem Decode_mixed_case (s : GoString)
    (hl : ∃ b ∈ s, 97 ≤ b.val ∧ b.val ≤ 122) (hu : ∃ b ∈ s, 65 ≤ b.val ∧ b.val ≤ 90) :
    ∃ e, Decode s = .error e ∧ ∀ hrp, SegwitAddrDecode hrp s = .error e := by
  have key : ∃ e, Decode s = .error e := by
    by_cases hv : validChars s
    · refine ⟨.mixedCase, ?_⟩
      have h1 : anyLower s = true := by
        simpa [anyLower] using hl
      have h2 : anyUpper s = true := by
        simpa [anyUpper] using hu
      rw [Decode_valid s hv, h1, h2]
      rfl
    · obtain ⟨i1, c1, e1⟩ := Decode_invalid s hv
      exact ⟨_, e1⟩
  obtain ⟨e, he⟩ := key
  refine ⟨e, he, fun hrp => ?_⟩
  unfold SegwitAddrDecode
  rw [he]

/-- Witness of C7 at the string `a1Q`. -/
theorem Decode_mixed_case_witness :
    ∃ e, Decode (ascii ("a1Q")) = .error e ∧
      ∀ hrp, SegwitAddrDecode hrp (ascii ("a1Q")) = .error e :=
  Decode_mixed_case (ascii ("a1Q")) (by decide) (by decide)

/-- C8: `Decode s` fails when `s` has more than 90 characters, when it has no `1`,
when its last `1` is at index 0, and when fewer than 6 characters follow its last
`1`; whenever `Decode s` succeeds, the index `pos` of the last `1` satisfies
`1 ≤ pos` and `pos + 7 ≤ len(s) ≤ 90`. -/
theorem Decode_bounds (s : GoString) :
    ((90 < s.length ∨ (49 : Byte) ∉ s ∨ lastIndex s 49 = 0 ∨
        (s.length : Int) - (lastIndex s 49 + 1) < 6) → ∃ e, Decode s = .error e) ∧
    (∀ d, Decode s = .ok d →
      1 ≤ lastIndex s 49 ∧ lastIndex s 49 + 7 ≤ s.length ∧ s.length ≤ 90) := by
  have h2 : ∀ d, Decode s = .ok d →
      1 ≤ lastIndex s 49 ∧ lastIndex s 49 + 7 ≤ s.length ∧ s.length ≤ 90 := by
    intro d hd
    obtain ⟨a, b, c, _⟩ := Decode_ok_bounds s d hd
    exact ⟨a, b, c⟩
  refine ⟨?_, h2⟩
  intro h
  cases hd : Decode s with
  | error e => exact ⟨e, rfl⟩
  | ok d =>
    exfalso
    obtain ⟨a, b, c⟩ := h2 d hd
    rcases h with h | h | h | h
    · omega
    · rw [lastIndex_not_mem 49 s h] at a
      omega
    · omega
    · omega

/-- C10: if `Decode addr` succeeds with a prefix different from `hrp`, then
`SegwitAddrDecode hrp addr` fails, with the mismatch error; and
`SegwitAddrDecode hrp addr` succeeds only if `hrp` is the lower-case form of the
part of `addr` before its last `1`. -/
theorem SegwitAddrDecode_hrp (hrp addr : GoString) :
    (∀ dec, Decode addr = .ok dec → dec.hrp ≠ hrp →
      SegwitAddrDecode hrp addr = .error (.hrpMismatch hrp dec.hrp)) ∧
    (∀ r, SegwitAddrDecode hrp addr = .ok r →
      hrp = toLower (addr.take (lastIndex addr 49).toNat)) := by
  constructor
  · intro dec hd hne
    unfold SegwitAddrDecode
    rw [hd]
    simp only
    rw [if_pos hne]
  · intro r hr
    obtain ⟨dec, hd, hh, _⟩ := SegwitAddrDecode_ok hrp addr r hr
    rw [← hh]
    exact (Decode_ok_bounds addr dec hd).2.2.2.1

/-! ## The segwit address codec -/

/-- C1: for a non-empty `hrp` of characters in `[33,126]` without upper-case
letters, a version in `[0,16]`, a program of `n` values in `[0,255]` with
`2 ≤ n ≤ 40` (`n` in `{20,32}` for version 0) and
`len(hrp) + 8 + ceil(8n/5) ≤ 90`, `SegwitAddrEncode hrp version program` returns
an address `a`, and `SegwitAddrDecode hrp a` returns exactly `(version, program)`. -/
theorem Segwit_roundtrip (hrp : GoString) (version : Int) (program : List Int)
    (hne : hrp ≠ []) (hv : ∀ b ∈ hrp, 33 ≤ b.val ∧ b.val ≤ 126)
    (hu : ∀ b ∈ hrp, ¬ (65 ≤ b.val ∧ b.val ≤ 90))
    (hver : 0 ≤ version ∧ version ≤ 16)
    (hp : ∀ x ∈ program, 0 ≤ x ∧ x ≤ 255)
    (hn : 2 ≤ program.length ∧ program.length ≤ 40)
    (h0 : version = 0 → program.length = 20 ∨ program.length = 32)
    (hlen : hrp.length + 8 + (8 * program.length + 4) / 5 ≤ 90) :
    ∃ a, SegwitAddrEncode hrp version program = .ok a ∧
      SegwitAddrDecode hrp a = .ok ⟨version, program⟩ := by
  have hpn : ∀ x ∈ program.map Int.toNat, x < 256 := by
    intro x hx
    have := all_lt_of_range program 255 hp x hx
    omega
  obtain ⟨r, hr32, hr1, hr2, hc1, hc2⟩ := convertbits_roundtrip_8_5 _ hpn
  have ep := castList_toNat program (fun x hx => (hp x hx).1)
  rw [ep] at hc1 hc2
  rw [List.length_map] at hr1 hr2
  have ev : ((version.toNat : Nat) : Int) = version := Int.toNat_of_nonneg hver.1
  have hall : ∀ x ∈ version.toNat :: r, x < 32 := by
    intro x hx
    rcases List.mem_cons.mp hx with h | h
    · rw [h]; omega
    · exact hr32 x h
  obtain ⟨he1, he2⟩ := Encode_cast hrp (version.toNat :: r) hne hv
    ((anyUpper_eq_false hrp).mpr hu) hall (by rw [List.length_cons]; omega)
  rw [castList_cons, ev] at he1 he2
  have hdec := SegwitAddrDecode_of_Decode hrp _ _ program he2 rfl (by simp) (by simp; omega)
    (by simpa using hc2) hn (by simpa using h0)
  simp only [List.headD_cons] at hdec
  refine ⟨_, ?_, hdec⟩
  unfold SegwitAddrEncode
  rw [hc1]
  simp only [he1, hdec]

/-- Witness of C1 at `hrp = "bc"`, version 16 and the program `[0x75, 0x1e]`. -/
theorem Segwit_roundtrip_witness :
    ∃ a, SegwitAddrEncode (ascii ("bc")) 16 [0x75, 0x1e] = .ok a ∧
      SegwitAddrDecode (ascii ("bc")) a = .ok ⟨16, [0x75, 0x1e]⟩ :=
  Segwit_roundtrip (ascii ("bc")) 16 [0x75, 0x1e] (by decide) (by decide) (by decide)
    (by decide) (by decide) (by decide) (by decide) (by decide)

/-- C5: if `SegwitAddrDecode hrp addr` succeeds with `(version, program)`, then
`SegwitAddrEncode hrp version program` succeeds and returns the lower-case form of
`addr`. -/
theorem Segwit_reencode (hrp addr : GoString) (r : SegwitAddrDec)
    (h : SegwitAddrDecode hrp addr = .ok r) :
    SegwitAddrEncode hrp r.version r.program = .ok (toLower addr) := by
  obtain ⟨v, tailN, prog, e, hne, hvh, huh, hlen, h32, _, hver, hprog, _, hc, hdec⟩ :=
    SegwitAddrDecode_structure hrp addr r h
  obtain ⟨he1, _⟩ := Encode_cast hrp (v :: tailN) hne hvh huh h32 hlen
  rw [castList_cons, ← e] at he1
  have hsd : SegwitAddrDecode hrp (toLower addr) = .ok r := by
    rw [SegwitAddrDecode_congr hrp _ _ hdec]
    exact h
  unfold SegwitAddrEncode
  rw [hprog, hver, hc]
  simp only [he1, hsd]

/-- Witness of C5 at the address `BC1SW50QA3JX3S`. -/
theorem Segwit_reencode_witness :
    SegwitAddrEncode (ascii ("bc")) 16 [0x75, 0x1e] = .ok (toLower (ascii ("BC1SW50QA3JX3S"))) :=
  Segwit_reencode (ascii ("bc")) (ascii ("BC1SW50QA3JX3S")) ⟨16, [0x75, 0x1e]⟩ (by decide)

/-- C9: if `SegwitAddrDecode hrp addr` succeeds with `(version, program)`, then
`0 ≤ version ≤ 16`, every element of `program` is in `[0,255]`,
`2 ≤ len(program) ≤ 40`, and for version 0 the length is 20 or 32. -/
theorem SegwitAddrDecode_post (hrp addr : GoString) (r : SegwitAddrDec)
    (h : SegwitAddrDecode hrp addr = .ok r) :
    (0 ≤ r.version ∧ r.version ≤ 16) ∧ (∀ x ∈ r.program, 0 ≤ x ∧ x ≤ 255) ∧
    (2 ≤ r.program.length ∧ r.program.length ≤ 40) ∧
    (r.version = 0 → r.program.length = 20 ∨ r.program.length = 32) := by
  obtain ⟨v, tailN, prog, _, _, _, _, _, _, hv16, hver, hprog, hp256, _, _⟩ :=
    SegwitAddrDecode_structure hrp addr r h
  obtain ⟨_, _, _, _, _, _, _, hl1, hl2, hl0⟩ := SegwitAddrDecode_ok hrp addr r h
  refine ⟨by rw [hver]; omega, ?_, ⟨hl1, hl2⟩, hl0⟩
  intro x hx
  rw [hprog] at hx
  obtain ⟨n, hn, rfl⟩ := mem_castList _ x hx
  have := hp256 n hn
  omega

/-- Witness of C9 at the address `BC1SW50QA3JX3S`. -/
theorem SegwitAddrDecode_post_witness :
    ((0 : Int) ≤ 16 ∧ (16 : Int) ≤ 16) ∧ (∀ x ∈ ([0x75, 0x1e] : List Int), 0 ≤ x ∧ x ≤ 255) ∧
    (2 ≤ ([0x75, 0x1e] : List Int).length ∧ ([0x75, 0x1e] : List Int).length ≤ 40) ∧
    ((16 : Int) = 0 → ([0x75, 0x1e] : List Int).length = 20 ∨
      ([0x75, 0x1e] : List Int).length = 32) :=
  SegwitAddrDecode_post (ascii ("bc")) (ascii ("BC1SW50QA3JX3S")) ⟨16, [0x75, 0x1e]⟩ (by decide)

/-! ### The loop of `Encode` on arbitrary integers -/

theorem encodeLoop_inv (l : List Int) (idx : Nat) (ret r : GoString)
    (h : encodeLoop l idx ret = .ok r) :
    (∀ p ∈ l, 0 ≤ p ∧ p < 32) ∧ r = ret ++ charsetRender l := by
  induction l generalizing idx ret with
  | nil =>
    simp only [encodeLoop, Except.ok.injEq] at h
    simp [charsetRender, h]
  | cons p ps ih =>
    rw [encodeLoop] at h
    split_ifs at h with hp
    rw [CHARSET_length] at hp
    obtain ⟨h1, h2⟩ := ih _ _ h
    refine ⟨?_, ?_⟩
    · intro q hq
      rcases List.mem_cons.mp hq with e | e
      · rw [e]
        push_cast at hp
        omega
      · exact h1 q e
    · rw [h2]
      simp [charsetRender]

theorem encodeLoop_bad (pre : List Int) (p : Int) (post : List Int) (idx : Nat) (ret : GoString)
    (hpre : ∀ x ∈ pre, 0 ≤ x ∧ x ≤ 31) (hp : p < 0 ∨ 32 ≤ p) :
    encodeLoop (pre ++ p :: post) idx ret = .error (.invalidData (idx + pre.length) p) := by
  induction pre generalizing idx ret with
  | nil =>
    rw [List.nil_append, encodeLoop, if_pos]
    · rfl
    · rw [CHARSET_length]
      push_cast
      omega
  | cons x xs ih =>
    have hx := hpre x (List.mem_cons_self _ _)
    rw [List.cons_append, encodeLoop, if_neg, ih _ _ (fun y hy => hpre y (List.mem_cons_of_mem _ hy))]
    · rw [List.length_cons]
      congr 2
      omega
    · rw [CHARSET_length]
      push_cast
      omega

/-- The first element of a list of integers outside `[0,31]`, when there is one. -/
theorem exists_first_bad (lo hi : Int) (data : List Int) (h : ∃ x ∈ data, x < lo ∨ hi < x) :
    ∃ pre p post, data = pre ++ p :: post ∧ (∀ x ∈ pre, lo ≤ x ∧ x ≤ hi) ∧ (p < lo ∨ hi < p) := by
  induction data with
  | nil =>
    obtain ⟨x, hx, _⟩ := h
    cases hx
  | cons a as ih =>
    by_cases ha : a < lo ∨ hi < a
    · exact ⟨[], a, as, rfl, by simp, ha⟩
    · have h2 : ∃ x ∈ as, x < lo ∨ hi < x := by
        obtain ⟨x, hx, hb⟩ := h
        rcases List.mem_cons.mp hx with e | e
        · rw [e] at hb; exact absurd hb ha
        · exact ⟨x, e, hb⟩
      obtain ⟨pre, p, post, e, hpre, hp⟩ := ih h2
      refine ⟨a :: pre, p, post, by rw [e]; rfl, ?_, hp⟩
      intro x hx
      rcases List.mem_cons.mp hx with e2 | e2
      · rw [e2]; omega
      · exact hpre x e2

/-- C12: if `data` has a value outside `[0,31]`, `Encode hrp data` fails with the
invalid-data error, reporting the index and the value of the first such element
of `data`. -/
theorem Encode_out_of_range (hrp : GoString) (data : List Int)
    (h : ∃ x ∈ data, x < 0 ∨ 32 ≤ x) :
    ∃ (i : Nat) (p : Int), data[i]? = some p ∧ (p < 0 ∨ 32 ≤ p) ∧
      (∀ j, j < i → ∀ q, data[j]? = some q → 0 ≤ q ∧ q ≤ 31) ∧
      Encode hrp data = .error (.invalidData i p) := by
  have h2 : ∃ x ∈ data, x < 0 ∨ 31 < x := by
    obtain ⟨x, hx, hb⟩ := h
    exact ⟨x, hx, by omega⟩
  obtain ⟨pre, p, post, e, hpre, hp⟩ := exists_first_bad 0 31 data h2
  refine ⟨pre.length, p, ?_, by omega, ?_, ?_⟩
  · rw [e, List.getElem?_append_right (le_refl _), Nat.sub_self]
    simp
  · intro j hj q hq
    rw [e, List.getElem?_append_left hj] at hq
    exact hpre q (List.getElem?_mem hq)
  · unfold Encode
    simp only
    have e2 : data ++ createChecksum hrp data
        = pre ++ p :: (post ++ createChecksum hrp data) := by
      rw [e]
      simp
    rw [e2, encodeLoop_bad pre p _ 0 _ hpre (by omega)]
    simp

/-- Witness of C12 at `hrp = "bc"` and the data `[3, 40, -1]`. -/
theorem Encode_out_of_range_witness :
    ∃ (i : Nat) (p : Int), ([3, 40, -1] : List Int)[i]? = some p ∧ (p < 0 ∨ 32 ≤ p) ∧
      (∀ j, j < i → ∀ q, ([3, 40, -1] : List Int)[j]? = some q → 0 ≤ q ∧ q ≤ 31) ∧
      Encode (ascii ("bc")) [3, 40, -1] = .error (.invalidData i p) :=
  Encode_out_of_range (ascii ("bc")) [3, 40, -1] ⟨40, by decide, by decide⟩

/-! ### The range check of the bit converter -/

theorem shr_eq_zero_iff (n f : Nat) : shr (n : Int) f = 0 ↔ n < 2 ^ f := by
  rw [shr_cast, Nat.shiftRight_eq_div_pow]
  constructor
  · intro h
    have h2 : n / 2 ^ f = 0 := by exact_mod_cast h
    exact (Nat.div_eq_zero_iff (two_pow_pos_nat f)).mp h2
  · intro h
    rw [Nat.div_eq_of_lt h]
    rfl

/-- The range check of `convertbits` passes exactly for the values in `[0, 2^frombits)`. -/
theorem range_check_iff (value : Int) (f : Nat) :
    (value < 0 ∨ shr value f ≠ 0) ↔ ¬ (0 ≤ value ∧ value < 2 ^ f) := by
  by_cases h0 : value < 0
  · constructor
    · intro _ h
      omega
    · intro _
      exact Or.inl h0
  · obtain ⟨n, rfl⟩ := Int.eq_ofNat_of_zero_le (by omega : 0 ≤ value)
    rw [ne_eq, shr_eq_zero_iff]
    constructor
    · rintro (h | h)
      · exact absurd h h0
      · intro h2
        apply h
        exact_mod_cast h2.2
    · intro h
      right
      intro h2
      apply h
      exact ⟨by omega, by exact_mod_cast h2⟩

/-- The loop of `convertbits` ends normally only on values in `[0, 2^frombits)`. -/
theorem convLoop_ok_valid (f t : Nat) (maxv : Int) (data : List Int) (idx : Nat)
    (s s2 : ConvState) (h : convLoop f t maxv data idx s = .ok s2) :
    ∀ x ∈ data, 0 ≤ x ∧ x < 2 ^ f := by
  induction data generalizing idx s with
  | nil =>
    intro x hx
    cases hx
  | cons v vs ih =>
    rw [convLoop] at h
    split_ifs at h with hv
    intro x hx
    rcases List.mem_cons.mp hx with e | e
    · rw [e]
      exact not_not.mp ((not_congr (range_check_iff v f)).mp hv)
    · exact ih _ _ h x e

/-- The loop of `convertbits` stops at the first value outside `[0, 2^frombits)`. -/
theorem convLoop_bad (f t : Nat) (maxv : Int) (pre : List Int) (bad : Int) (post : List Int)
    (hpre : ∀ x ∈ pre, 0 ≤ x ∧ x < 2 ^ f) (hbad : ¬ (0 ≤ bad ∧ bad < 2 ^ f))
    (idx : Nat) (s : ConvState) :
    convLoop f t maxv (pre ++ bad :: post) idx s
      = .error (.invalidDataRange (idx + pre.length) bad f) := by
  induction pre generalizing idx s with
  | nil =>
    rw [List.nil_append, convLoop, if_pos ((range_check_iff bad f).mpr hbad)]
    rfl
  | cons x xs ih =>
    have hx := hpre x (List.mem_cons_self _ _)
    rw [List.cons_append, convLoop, if_neg, ih (fun y hy => hpre y (List.mem_cons_of_mem _ hy))]
    · rw [List.length_cons]
      congr 2
      omega
    · rw [range_check_iff]
      exact not_not.mpr hx

/-- The function `convertbits` returns a result only on values in `[0, 2^frombits)`. -/
theorem convertbits_ok_valid (data : List Int) (f t : Nat) (pad : Bool) (r : List Int)
    (h : convertbits data f t pad = .ok r) : ∀ x ∈ data, 0 ≤ x ∧ x < 2 ^ f := by
  unfold convertbits at h
  simp only at h
  cases hc : convLoop f t (wrap64 (shl 1 t - 1)) data 0 ⟨0, 0, []⟩ with
  | error e => rw [hc] at h; cases h
  | ok s => exact convLoop_ok_valid f t _ data 0 _ s hc

/-- The function `convertbits` fails at the first value outside `[0, 2^frombits)`. -/
theorem convertbits_bad (pre : List Int) (bad : Int) (post : List Int) (f t : Nat) (pad : Bool)
    (hpre : ∀ x ∈ pre, 0 ≤ x ∧ x < 2 ^ f) (hbad : ¬ (0 ≤ bad ∧ bad < 2 ^ f)) :
    convertbits (pre ++ bad :: post) f t pad = .error (.invalidDataRange pre.length bad f) := by
  unfold convertbits
  simp only
  rw [convLoop_bad f t _ pre bad post hpre hbad]
  simp

/-- A list of integers in `[0, 2^f)` is a list of naturals. -/
theorem exists_castList (l : List Int) (f : Nat) (h : ∀ x ∈ l, 0 ≤ x ∧ x < 2 ^ f) :
    ∃ vals : List Nat, l = castList vals ∧ ∀ v ∈ vals, v < 2 ^ f := by
  refine ⟨l.map Int.toNat, (castList_toNat l (fun x hx => (h x hx).1)).symm, ?_⟩
  intro v hv
  simp only [List.mem_map] at hv
  obtain ⟨x, hx, rfl⟩ := hv
  have := h x hx
  have h2 : ((x.toNat : Nat) : Int) < ((2 ^ f : Nat) : Int) := by
    rw [Int.toNat_of_nonneg this.1]
    push_cast
    exact this.2
  exact_mod_cast h2

/-! ### What `Encode` and `SegwitAddrEncode` return -/

/-- A string splits in one way at a separator that is followed by no other one. -/
theorem sep_split_unique (a c b d : GoString) (hb : (49 : Byte) ∉ b) (hd : (49 : Byte) ∉ d)
    (h : a ++ 49 :: b = c ++ 49 :: d) : a = c ∧ b = d := by
  have h1 := lastIndex_append 49 a b hb
  have h2 := lastIndex_append 49 c d hd
  rw [h, h2] at h1
  have hl : a.length = c.length := by
    have : (c.length : Int) = (a.length : Int) := h1
    omega
  obtain ⟨e1, e2⟩ := List.append_inj h hl
  exact ⟨e1, (List.cons.inj e2).2⟩

/-- What a successful `Encode` says about its input and its result. -/
theorem Encode_ok_inv (hrp : GoString) (data : List Int) (a : GoString)
    (h : Encode hrp data = .ok a) :
    (∀ p ∈ data, 0 ≤ p ∧ p < 32) ∧
      a = hrp ++ 49 :: charsetRender (data ++ createChecksum hrp data) ∧
      ∃ dec, Decode a = .ok dec := by
  unfold Encode at h
  simp only at h
  cases he : encodeLoop (data ++ createChecksum hrp data) 0 (hrp ++ [49]) with
  | error e => rw [he] at h; cases h
  | ok ret =>
    rw [he] at h
    simp only at h
    cases hd : Decode ret with
    | error e => rw [hd] at h; cases h
    | ok dec =>
      rw [hd] at h
      have ha : ret = a := Except.ok.inj h
      subst ha
      obtain ⟨h1, h2⟩ := encodeLoop_inv _ _ _ _ he
      refine ⟨fun p hp => h1 p (List.mem_append_left _ hp), ?_, dec, hd⟩
      rw [h2]
      simp

theorem toLower_sep_render (hrp : GoString) (X : List Nat) (hX : ∀ v ∈ X, v < 32) :
    toLower (hrp ++ 49 :: render X) = toLower hrp ++ 49 :: render X := by
  have h1 : toLower (render X) = render X :=
    toLower_of_not_anyUpper _ (anyUpper_of_index _ (render_index_ne X hX))
  have h2 : toLowerByte 49 = 49 := by decide
  simp only [toLower, List.map_append, List.map_cons] at h1 ⊢
  rw [h1, h2]

/-- The result of `Decode` on a prefix followed by rendered symbols. -/
theorem Decode_render (hrp : GoString) (X : List Nat) (hX : ∀ v ∈ X, v < 32) (dec : Dec)
    (h : Decode (hrp ++ 49 :: render X) = .ok dec) :
    dec.hrp = toLower hrp ∧ dec.data = castList (X.take (X.length - 6)) ∧
      verifyChecksum (toLower hrp) (castList X) = true := by
  obtain ⟨_, _, hb⟩ := Decode_ok _ dec h
  obtain ⟨hrp2, dd, e, hne, h6, hlen, hcs, hl, hchk, hr⟩ := decodeBody_ok _ dec hb
  have hri := render_index_ne X hX
  rw [toLower_sep_render hrp X hX] at e
  obtain ⟨e1, e2⟩ := sep_split_unique _ _ _ _ (sep_not_mem_of_index _ hri)
    (sep_not_mem_of_index _ hcs) e
  rw [hr, ← e1, ← e2, render_map_index X hX, render_length]
  rw [← e1, ← e2, render_map_index X hX] at hchk
  refine ⟨rfl, ?_, hchk⟩
  simp [castList, List.map_take]

theorem createChecksumN_length (hrp : GoString) (data : List Nat) :
    (createChecksumN hrp data).length = 6 := by
  simp [createChecksumN, unpack]

/-- A successful `SegwitAddrEncode` was checked by a `SegwitAddrDecode` that
found the version and the program again. -/
theorem SegwitAddrEncode_ok (hrp : GoString) (version : Int) (program : List Int)
    (a : GoString) (h : SegwitAddrEncode hrp version program = .ok a) :
    ∃ r, SegwitAddrDecode hrp a = .ok r ∧ r.version = version ∧ r.program = program := by
  unfold SegwitAddrEncode at h
  cases hc : convertbits program 8 5 true with
  | error e => rw [hc] at h; cases h
  | ok data =>
    rw [hc] at h
    simp only at h
    cases he : Encode hrp (version :: data) with
    | error e => rw [he] at h; cases h
    | ok ret =>
      rw [he] at h
      simp only at h
      cases hs : SegwitAddrDecode hrp ret with
      | error e => rw [hs] at h; cases h
      | ok r =>
        rw [hs] at h
        have ha : ret = a := Except.ok.inj h
        subst ha
        refine ⟨r, hs, ?_⟩
        obtain ⟨progN, ep, hpN⟩ := exists_castList program 8 (convertbits_ok_valid _ _ _ _ _ hc)
        subst ep
        obtain ⟨rN, hr32, _, _, hc1, hc2⟩ := convertbits_roundtrip_8_5 progN
          (fun x hx => by have := hpN x hx; norm_num at this; exact this)
        rw [hc1] at hc
        have ed : data = castList rN := (Except.ok.inj hc).symm
        subst ed
        obtain ⟨hin, eret, _⟩ := Encode_ok_inv hrp _ ret he
        have hv := hin version (List.mem_cons_self _ _)
        obtain ⟨vN, rfl⟩ := Int.eq_ofNat_of_zero_le hv.1
        have hvN : vN < 32 := by omega
        have hall : ∀ x ∈ vN :: rN ++ createChecksumN hrp (vN :: rN), x < 32 := by
          intro x hx
          rcases List.mem_append.mp hx with h1 | h1
          · rcases List.mem_cons.mp h1 with h2 | h2
            · rw [h2]; exact hvN
            · exact hr32 x h2
          · exact unpack_lt _ x h1
        have ecast : ((vN : Nat) : Int) :: castList rN = castList (vN :: rN) := rfl
        rw [ecast, createChecksum_cast, ← castList_append, charsetRender_cast] at eret
        obtain ⟨dec, hd, _, _, _, hconv, hver, _⟩ := SegwitAddrDecode_ok hrp ret r hs
        rw [eret] at hd
        obtain ⟨_, hdata, _⟩ := Decode_render hrp _ hall dec hd
        have etake : (vN :: rN ++ createChecksumN hrp (vN :: rN)).take
            ((vN :: rN ++ createChecksumN hrp (vN :: rN)).length - 6) = vN :: rN := by
          rw [List.length_append, createChecksumN_length, Nat.add_sub_cancel]
          exact List.take_left' rfl
        rw [etake] at hdata
        rw [hdata] at hconv hver
        simp only [castList_cons, List.headD_cons, List.tail_cons] at hconv hver
        rw [hc2] at hconv
        exact ⟨hver, (Except.ok.inj hconv).symm⟩

/-- C11: if `SegwitAddrEncode hrp version program` succeeds, then
`0 ≤ version ≤ 16`, every element of `program` is in `[0,255]`,
`2 ≤ len(program) ≤ 40`, and for version 0 the length is 20 or 32; so the
version is neither 17 nor 33 and the program does not contain `-1`. -/
theorem SegwitAddrEncode_post (hrp : GoString) (version : Int) (program : List Int)
    (a : GoString) (h : SegwitAddrEncode hrp version program = .ok a) :
    (0 ≤ version ∧ version ≤ 16) ∧ (∀ x ∈ program, 0 ≤ x ∧ x ≤ 255) ∧
      (2 ≤ program.length ∧ program.length ≤ 40) ∧
      (version = 0 → program.length = 20 ∨ program.length = 32) ∧
      version ≠ 17 ∧ version ≠ 33 ∧ (-1 : Int) ∉ program := by
  obtain ⟨r, hs, hver, hprog⟩ := SegwitAddrEncode_ok hrp version program a h
  obtain ⟨dec, hd, _, h1, hv16, _, hv, hl2, hl40, h0⟩ := SegwitAddrDecode_ok hrp a r hs
  have hb := (Decode_ok_bounds a dec hd).2.2.2.2
  have hmem : dec.data.headD 0 ∈ dec.data := by
    rcases hdd : dec.data with _ | ⟨x, xs⟩
    · rw [hdd] at h1
      simp at h1
    · simp
  have hv0 := (hb _ hmem).1
  have hvalid : ∀ x ∈ program, 0 ≤ x ∧ x ≤ 255 := by
    intro x hx
    unfold SegwitAddrEncode at h
    cases hc : convertbits program 8 5 true with
    | error e => rw [hc] at h; cases h
    | ok data =>
      have := convertbits_ok_valid _ _ _ _ _ hc x hx
      norm_num at this
      omega
  rw [hprog] at hl2 hl40 h0
  rw [hver] at hv h0
  rw [← hv] at hv16 hv0
  refine ⟨⟨hv0, hv16⟩, hvalid, ⟨hl2, hl40⟩, h0, by omega, by omega, ?_⟩
  intro hm
  have := (hvalid _ hm).1
  omega

/-- Witness of C11 at `hrp = "bc"`, version 16 and the program `[0, 1, 2, 3, 4, 5]`,
a case of `TestCoverage`. -/
theorem SegwitAddrEncode_post_witness :
    SegwitAddrEncode (ascii ("bc")) 16 [0, 1, 2, 3, 4, 5] = .ok (ascii ("bc1sqqqsyqcyq5hk8hk3")) ∧
    ((0 : Int) ≤ 16 ∧ (16 : Int) ≤ 16) ∧ (∀ x ∈ ([0, 1, 2, 3, 4, 5] : List Int), 0 ≤ x ∧ x ≤ 255) ∧
      (2 ≤ ([0, 1, 2, 3, 4, 5] : List Int).length ∧ ([0, 1, 2, 3, 4, 5] : List Int).length ≤ 40) ∧
      ((16 : Int) = 0 → ([0, 1, 2, 3, 4, 5] : List Int).length = 20 ∨
        ([0, 1, 2, 3, 4, 5] : List Int).length = 32) ∧
      (16 : Int) ≠ 17 ∧ (16 : Int) ≠ 33 ∧ (-1 : Int) ∉ ([0, 1, 2, 3, 4, 5] : List Int) :=
  ⟨by decide, SegwitAddrEncode_post (ascii ("bc")) 16 [0, 1, 2, 3, 4, 5]
    (ascii ("bc1sqqqsyqcyq5hk8hk3")) (by decide)⟩

/-- The error cases of `SegwitAddrEncode` exercised by `TestCoverage`. -/
theorem SegwitAddrEncode_coverage :
    SegwitAddrEncode (ascii ("bc")) 17 [0, 1, 2, 3, 4, 5] = .error (.invalidWitnessVersion 17) ∧
    SegwitAddrEncode (ascii ("bc")) 33 [] = .error (.invalidData 0 33) ∧
    SegwitAddrEncode (ascii ("bc")) 0 [-1] = .error (.invalidDataRange 0 (-1) 8) := by
  decide

/-! ### `Encode` on an upper-case prefix -/

theorem anyLower_append (a b : GoString) : anyLower (a ++ b) = (anyLower a || anyLower b) := by
  simp [anyLower]

theorem anyLower_sep (d : GoString) : anyLower (49 :: d) = anyLower d := by
  have : ¬ (97 ≤ ((49 : Byte).val) ∧ ((49 : Byte).val) ≤ 122) := by decide
  simp only [anyLower, List.any_cons, this, decide_False, Bool.false_or]

/-- The function `Encode` on a prefix with upper-case and without lower-case
letters: the prefix is kept as it is, and the check by `Decode` decides. -/
theorem Encode_of_upper (hrp : GoString) (data : List Nat) (hne : hrp ≠ []) (hv : validChars hrp)
    (hup : anyUpper hrp = true) (hlow : anyLower hrp = false) (hd : ∀ v ∈ data, v < 32)
    (hlen : hrp.length + 7 + data.length ≤ 90) :
    Encode hrp (castList data) =
      if anyLower (render (data ++ createChecksumN hrp data)) then .error .mixedCase
      else if verifyChecksum (toLower hrp) (castList (data ++ createChecksumN hrp data)) then
        .ok (hrp ++ 49 :: render (data ++ createChecksumN hrp data))
      else .error .invalidChecksum := by
  have hcl := createChecksumN_length hrp data
  have hall : ∀ v ∈ data ++ createChecksumN hrp data, v < 32 := by
    intro v hv2
    rcases List.mem_append.mp hv2 with h | h
    · exact hd v h
    · exact unpack_lt _ v h
  have hri := render_index_ne _ hall
  have hvs : validChars (hrp ++ 49 :: render (data ++ createChecksumN hrp data)) := by
    rw [validChars_append, validChars_cons]
    exact ⟨hv, by decide, validChars_of_index _ hri⟩
  have hnel : toLower hrp ≠ [] := by
    intro h0
    apply hne
    have := toLower_length hrp
    rw [h0] at this
    exact List.length_eq_zero.mp this.symm
  have hdec : Decode (hrp ++ 49 :: render (data ++ createChecksumN hrp data)) =
      if anyLower (render (data ++ createChecksumN hrp data)) then .error .mixedCase
      else if verifyChecksum (toLower hrp) (castList (data ++ createChecksumN hrp data)) then
        .ok ⟨toLower hrp, castList data⟩
      else .error .invalidChecksum := by
    rw [Decode_valid _ hvs, anyLower_append, anyUpper_append, hup, hlow, anyLower_sep,
      Bool.false_or, Bool.true_or, Bool.and_true, toLower_sep_render hrp _ hall,
      decodeBody_split (toLower hrp) _ hnel
        (by rw [render_length, List.length_append, hcl]; omega)
        (by rw [toLower_length, render_length, List.length_append, hcl]; omega) hri,
      render_map_index _ hall, render_length, List.length_append, hcl, Nat.add_sub_cancel,
      castList_append, ← castList_length data, List.take_left']
    rfl
  unfold Encode
  simp only [createChecksum_cast, ← castList_append]
  rw [encodeLoop_ok _ _ _ hall]
  have e : hrp ++ [49] ++ render (data ++ createChecksumN hrp data)
      = hrp ++ 49 :: render (data ++ createChecksumN hrp data) := by simp
  simp only [e, hdec]
  split_ifs <;> rfl

/-- C13 (amended): `Encode` does not lower-case its prefix. For a non-empty `hrp`
of characters in `[33,126]` with an upper-case and without a lower-case letter,
symbols in `[0,31]` and `len(hrp) + 7 + len(data) ≤ 90`, `Encode (lowercase hrp)
data` succeeds and `Encode hrp data` never returns that string: it fails with the
mixed-case error when the rendering of `data ++ checksum` has a letter, and
otherwise it fails with the invalid-checksum error, unless the checksum made for
`hrp` is valid for `lowercase hrp` too, and then it returns the string with `hrp`
as given. -/
theorem Encode_uppercase_hrp (hrp : GoString) (data : List Int)
    (hne : hrp ≠ []) (hv : ∀ b ∈ hrp, 33 ≤ b.val ∧ b.val ≤ 126)
    (hup : ∃ b ∈ hrp, 65 ≤ b.val ∧ b.val ≤ 90)
    (hlow : ∀ b ∈ hrp, ¬ (97 ≤ b.val ∧ b.val ≤ 122))
    (hd : ∀ x ∈ data, 0 ≤ x ∧ x ≤ 31)
    (hlen : hrp.length + 7 + data.length ≤ 90) :
    (∃ s, Encode (toLower hrp) data = .ok s ∧ Encode hrp data ≠ .ok s) ∧
    Encode hrp data =
      if anyLower (charsetRender (data ++ createChecksum hrp data)) then .error .mixedCase
      else if verifyChecksum (toLower hrp) (data ++ createChecksum hrp data) then
        .ok (hrp ++ 49 :: charsetRender (data ++ createChecksum hrp data))
      else .error .invalidChecksum := by
  obtain ⟨dataN, rfl, hdn5⟩ := exists_castList data 5 (fun x hx => by
    have := hd x hx
    norm_num
    omega)
  have hdn : ∀ v ∈ dataN, v < 32 := fun v hv2 => by
    have := hdn5 v hv2
    norm_num at this
    exact this
  rw [castList_length] at hlen
  have hupb : anyUpper hrp = true := by
    simp only [anyUpper, List.any_eq_true, decide_eq_true_eq]
    exact hup
  have hnel : toLower hrp ≠ [] := by
    intro h0
    apply hne
    have := toLower_length hrp
    rw [h0] at this
    exact List.length_eq_zero.mp this.symm
  have hchar := Encode_of_upper hrp dataN hne hv hupb ((anyLower_eq_false hrp).mpr hlow) hdn hlen
  obtain ⟨hlo, _⟩ := Encode_cast (toLower hrp) dataN hnel
    ((validChars_toLower hrp).mpr hv) (anyUpper_toLower hrp) hdn
    (by rw [toLower_length]; exact hlen)
  constructor
  · refine ⟨_, hlo, ?_⟩
    intro hs
    obtain ⟨_, es, _⟩ := Encode_ok_inv hrp _ _ hs
    rw [createChecksum_cast, ← castList_append, charsetRender_cast] at es
    have hri : ∀ (h : GoString), (49 : Byte) ∉ render (dataN ++ createChecksumN h dataN) := by
      intro h
      apply sep_not_mem_of_index
      apply render_index_ne
      intro v hv2
      rcases List.mem_append.mp hv2 with h1 | h1
      · exact hdn v h1
      · exact unpack_lt _ v h1
    obtain ⟨e1, _⟩ := sep_split_unique _ _ _ _ (hri _) (hri _) es
    have := anyUpper_toLower hrp
    rw [e1, hupb] at this
    cases this
  · rw [createChecksum_cast, ← castList_append, charsetRender_cast]
    exact hchar

/-- Witness of C13 (amended) at `hrp = "A"` and no data: the mixed-case error. -/
theorem Encode_uppercase_hrp_witness :
    (∃ s, Encode (toLower (ascii ("A"))) [] = .ok s ∧ Encode (ascii ("A")) [] ≠ .ok s) ∧
    Encode (ascii ("A")) [] =
      if anyLower (charsetRender ([] ++ createChecksum (ascii ("A")) [])) then .error .mixedCase
      else if verifyChecksum (toLower (ascii ("A"))) ([] ++ createChecksum (ascii ("A")) []) then
        .ok (ascii ("A") ++ 49 :: charsetRender ([] ++ createChecksum (ascii ("A")) []))
      else .error .invalidChecksum :=
  Encode_uppercase_hrp (ascii ("A")) [] (by decide) (by decide) (by decide) (by decide)
    (by decide) (by decide)

/-- Counterexample to C13 as stated: `hrp = "A"` with no data meets the
conditions, `Encode "A" []` fails with the mixed-case error, and
`Encode "a" []` returns `a12uel5l`. -/
theorem Encode_uppercase_hrp_counterexample :
    (ascii ("A") ≠ [] ∧ (∀ b ∈ ascii ("A"), 33 ≤ b.val ∧ b.val ≤ 126) ∧
      (∃ b ∈ ascii ("A"), 65 ≤ b.val ∧ b.val ≤ 90) ∧
      (∀ b ∈ ascii ("A"), ¬ (97 ≤ b.val ∧ b.val ≤ 122)) ∧
      (ascii ("A")).length + 7 + ([] : List Int).length ≤ 90) ∧
    Encode (ascii ("A")) [] = .error .mixedCase ∧
    Encode (toLower (ascii ("A"))) [] = .ok (ascii ("a12uel5l")) ∧
    ¬ (∃ s, Encode (ascii ("A")) [] = .ok s ∧ Encode (toLower (ascii ("A"))) [] = .ok s) := by
  refine ⟨by decide, by decide, by decide, ?_⟩
  rintro ⟨s, h1, _⟩
  have h2 : Encode (ascii ("A")) [] = .error .mixedCase := by decide
  rw [h2] at h1
  cases h1

/-- A rendering without letters: the checksum made for `"A"` is not valid for
`"a"`, and `Encode` fails with the invalid-checksum error. -/
theorem Encode_upper_digits : Encode (ascii ("A")) [5, 7, 15, 7] = .error .invalidChecksum := by
  decide

/-! ### The bit converter on arbitrary widths -/

theorem div_mod_of_split (n bits t x : Nat) (hb : bits < t) (h : n * t + bits = x) :
    x / t = n ∧ x % t = bits := by
  subst h
  have ht : 0 < t := by omega
  constructor
  · rw [Nat.add_comm, Nat.add_mul_div_right _ _ ht, Nat.div_eq_of_lt hb, Nat.zero_add]
  · rw [Nat.add_comm, Nat.add_mul_mod_self_right, Nat.mod_eq_of_lt hb]

theorem ceil_of_split (n bits t x : Nat) (hb : bits < t) (h : n * t + bits = x) :
    (x + t - 1) / t = if 0 < bits then n + 1 else n := by
  subst h
  have ht : 0 < t := by omega
  split_ifs with hp
  · have e : n * t + bits + t - 1 = (bits - 1) + (n + 1) * t := by
      rw [Nat.add_mul]
      omega
    rw [e, Nat.add_mul_div_right _ _ ht, Nat.div_eq_of_lt (by omega), Nat.zero_add]
  · have e : n * t + bits + t - 1 = (t - 1) + n * t := by omega
    rw [e, Nat.add_mul_div_right _ _ ht, Nat.div_eq_of_lt (by omega), Nat.zero_add]

/-- C16: for widths `1 ≤ frombits, tobits ≤ 8` and `n` values in
`[0, 2^frombits)`, `convertbits data frombits tobits true` returns
`m = ceil(n * frombits / tobits)` values in `[0, 2^tobits)`, and the big-endian
number of the output in base `2^tobits` is the big-endian number of the input in
base `2^frombits` times `2^(m * tobits - n * frombits)`. -/
theorem convertbits_pad_value (f t : Nat) (hf : 1 ≤ f ∧ f ≤ 8) (ht : 1 ≤ t ∧ t ≤ 8)
    (data : List Int) (hd : ∀ x ∈ data, 0 ≤ x ∧ x < 2 ^ f) :
    ∃ out : List Nat, convertbits data f t true = .ok (castList out) ∧
      out.length = (data.length * f + t - 1) / t ∧ (∀ d ∈ out, d < 2 ^ t) ∧
      valueFrom t 0 out =
        valueFrom f 0 (data.map Int.toNat) * 2 ^ (out.length * t - data.length * f) := by
  obtain ⟨vals, rfl, hv⟩ := exists_castList data f hd
  have emap : (castList vals).map Int.toNat = vals := by
    simp [castList, Function.comp_def]
  rw [emap, castList_length]
  obtain ⟨n, bits, hb, hn, e⟩ := convertbits_pad f t ht.1 (by omega) (by omega) vals hv
  have hn2 : n * t + bits = vals.length * f := by rw [hn, Nat.mul_comm]
  have hceil := ceil_of_split n bits t _ hb hn2
  have hV := valueFrom_lt f vals hv
  by_cases hp : 0 < bits
  · rw [if_pos hp] at e hceil
    refine ⟨_, e, by rw [digits_length, hceil], digits_lt _ _ _, ?_⟩
    rw [digits_length, valueFrom_digits]
    have e1 : (n + 1) * t - vals.length * f = t - bits := by
      rw [← hn2, Nat.add_mul]
      omega
    rw [e1]
    apply Nat.mod_eq_of_lt
    have e2 : t * (n + 1) = f * vals.length + (t - bits) := by
      rw [Nat.mul_comm f, ← hn2, Nat.mul_comm t, Nat.add_mul]
      omega
    rw [e2, pow_add]
    exact Nat.mul_lt_mul_of_pos_right hV (two_pow_pos_nat _)
  · rw [if_neg hp] at e hceil
    have hb0 : bits = 0 := by omega
    refine ⟨_, e, by rw [digits_length, hceil], digits_lt _ _ _, ?_⟩
    rw [digits_length, valueFrom_digits]
    have e1 : n * t - vals.length * f = 0 := by
      rw [← hn2]
      omega
    rw [e1, pow_zero, Nat.mul_one]
    apply Nat.mod_eq_of_lt
    have e2 : t * n = f * vals.length := by
      rw [Nat.mul_comm f, ← hn2, Nat.mul_comm t]
      omega
    rw [e2]
    exact hV

/-- Witness of C16 at two bytes converted to four 5-bit groups. -/
theorem convertbits_pad_value_witness :
    ∃ out : List Nat, convertbits [0x75, 0x1e] 8 5 true = .ok (castList out) ∧
      out.length = (([0x75, 0x1e] : List Int).length * 8 + 5 - 1) / 5 ∧
      (∀ d ∈ out, d < 2 ^ 5) ∧
      valueFrom 5 0 out = valueFrom 8 0 (([0x75, 0x1e] : List Int).map Int.toNat) *
        2 ^ (out.length * 5 - ([0x75, 0x1e] : List Int).length * 8) :=
  convertbits_pad_value 8 5 (by decide) (by decide) [0x75, 0x1e] (by decide)

/-- C17: for widths `1 ≤ frombits, tobits ≤ 8` and `n` integers,
`convertbits data frombits tobits false` succeeds if and only if every value is in
`[0, 2^frombits)`, the leftover bit count `k = (n * frombits) mod tobits` is below
`frombits`, and the last `k` bits of the input bit string are zero; on success the
output has `floor(n * frombits / tobits)` values. -/
theorem convertbits_strict_iff (f t : Nat) (hf : 1 ≤ f ∧ f ≤ 8) (ht : 1 ≤ t ∧ t ≤ 8)
    (data : List Int) :
    ((∃ r, convertbits data f t false = .ok r) ↔
      ((∀ x ∈ data, 0 ≤ x ∧ x < 2 ^ f) ∧ data.length * f % t < f ∧
        valueFrom f 0 (data.map Int.toNat) % 2 ^ (data.length * f % t) = 0)) ∧
    (∀ r, convertbits data f t false = .ok r → r.length = data.length * f / t) := by
  by_cases hd : ∀ x ∈ data, 0 ≤ x ∧ x < 2 ^ f
  · obtain ⟨vals, rfl, hv⟩ := exists_castList data f hd
    have emap : (castList vals).map Int.toNat = vals := by
      simp [castList, Function.comp_def]
    rw [emap, castList_length]
    obtain ⟨n, bits, hb, hn, e⟩ := convertbits_strict f t ht.1 (by omega) (by omega) vals hv
    have hn2 : n * t + bits = vals.length * f := by rw [hn, Nat.mul_comm]
    obtain ⟨hdiv, hmod⟩ := div_mod_of_split n bits t _ hb hn2
    rw [hdiv, hmod, e]
    by_cases hge : bits ≥ f
    · rw [if_pos hge]
      constructor
      · constructor
        · rintro ⟨r, hr⟩
          cases hr
        · rintro ⟨_, h2, _⟩
          omega
      · intro r hr
        cases hr
    · rw [if_neg hge]
      by_cases hz : valueFrom f 0 vals % 2 ^ bits ≠ 0
      · rw [if_pos hz]
        constructor
        · constructor
          · rintro ⟨r, hr⟩
            cases hr
          · rintro ⟨_, _, h3⟩
            exact absurd h3 hz
        · intro r hr
          cases hr
      · rw [if_neg hz]
        constructor
        · constructor
          · intro _
            exact ⟨hd, by omega, not_not.mp hz⟩
          · intro _
            exact ⟨_, rfl⟩
        · intro r hr
          rw [← Except.ok.inj hr, castList_length, digits_length]
  · constructor
    · constructor
      · rintro ⟨r, hr⟩
        exact absurd (convertbits_ok_valid _ _ _ _ _ hr) hd
      · rintro ⟨h1, _⟩
        exact absurd h1 hd
    · intro r hr
      exact absurd (convertbits_ok_valid _ _ _ _ _ hr) hd

/-- Witness of C17 at four 5-bit groups converted to two bytes. -/
theorem convertbits_strict_iff_witness :
    ((∃ r, convertbits [14, 20, 15, 0] 5 8 false = .ok r) ↔
      ((∀ x ∈ ([14, 20, 15, 0] : List Int), 0 ≤ x ∧ x < 2 ^ 5) ∧
        ([14, 20, 15, 0] : List Int).length * 5 % 8 < 5 ∧
        valueFrom 5 0 (([14, 20, 15, 0] : List Int).map Int.toNat) %
          2 ^ (([14, 20, 15, 0] : List Int).length * 5 % 8) = 0)) ∧
    (∀ r, convertbits [14, 20, 15, 0] 5 8 false = .ok r →
      r.length = ([14, 20, 15, 0] : List Int).length * 5 / 8) :=
  convertbits_strict_iff 5 8 (by decide) (by decide) [14, 20, 15, 0]

/-- The cases of `convertbits` without padding: a value out of range (the case
of `TestCoverage`), a whole group left over, padding bits that are not zero, and
a conversion that succeeds. -/
theorem convertbits_strict_cases :
    convertbits [33] 5 8 false = .error (.invalidDataRange 0 33 5) ∧
    convertbits [0, 0, 0] 5 8 false = .error .illegalZeroPadding ∧
    convertbits [14, 20, 15, 1] 5 8 false = .error .nonZeroPadding ∧
    convertbits [14, 20, 15, 0] 5 8 false = .ok [0x75, 0x1e] := by
  decide

/-! ### The round trip of the bit converter -/

/-- Bytes given as Go integers: the round trip through 5-bit groups. -/
theorem convertbits_roundtrip_int (b : List Int) (hb : ∀ x ∈ b, 0 ≤ x ∧ x ≤ 255) :
    ∃ r : List Int, (∀ x ∈ r, 0 ≤ x ∧ x ≤ 31) ∧ 8 * b.length ≤ 5 * r.length ∧
      5 * r.length < 8 * b.length + 5 ∧
      convertbits b 8 5 true = .ok r ∧ convertbits r 5 8 false = .ok b := by
  obtain ⟨bN, rfl, hbN⟩ := exists_castList b 8 (fun x hx => by
    have := hb x hx
    norm_num
    omega)
  obtain ⟨r, hr32, h1, h2, hc1, hc2⟩ := convertbits_roundtrip_8_5 bN (fun x hx => by
    have := hbN x hx
    norm_num at this
    exact this)
  rw [castList_length]
  refine ⟨castList r, ?_, by rw [castList_length]; exact h1,
    by rw [castList_length]; exact h2, hc1, hc2⟩
  intro x hx
  obtain ⟨n, hn, rfl⟩ := mem_castList r x hx
  have := hr32 n hn
  omega

/-- C14 (amended): for bytes `b` in `[0,255]` whose bit length `8 * len(b)` is not
a multiple of 5, `convertbits b 8 5 true` succeeds with some `r`, which ends in
one to four padding bits, and `convertbits r 5 8 false` does not fail: it
returns `b`. -/
theorem convertbits_uneven_roundtrip (b : List Int) (hb : ∀ x ∈ b, 0 ≤ x ∧ x ≤ 255)
    (hu : 8 * b.length % 5 ≠ 0) :
    ∃ r : List Int, convertbits b 8 5 true = .ok r ∧
      (0 < 5 * r.length - 8 * b.length ∧ 5 * r.length - 8 * b.length < 5) ∧
      convertbits r 5 8 false = .ok b := by
  obtain ⟨r, _, h1, h2, hc1, hc2⟩ := convertbits_roundtrip_int b hb
  exact ⟨r, hc1, ⟨by omega, by omega⟩, hc2⟩

/-- Witness of C14 (amended) at the two bytes `75 1e`. -/
theorem convertbits_uneven_roundtrip_witness :
    8 * ([0x75, 0x1e] : List Int).length % 5 ≠ 0 ∧
    ∃ r : List Int, convertbits [0x75, 0x1e] 8 5 true = .ok r ∧
      (0 < 5 * r.length - 8 * ([0x75, 0x1e] : List Int).length ∧
        5 * r.length - 8 * ([0x75, 0x1e] : List Int).length < 5) ∧
      convertbits r 5 8 false = .ok [0x75, 0x1e] :=
  ⟨by decide, convertbits_uneven_roundtrip [0x75, 0x1e] (by decide) (by decide)⟩

/-- Counterexample to C14 as stated: the byte `ff` has a bit length, 8, that is
not a multiple of 5; it converts to the groups `[31, 28]`, and these convert
back to `ff` without a padding error. -/
theorem convertbits_uneven_counterexample :
    (∀ x ∈ ([255] : List Int), 0 ≤ x ∧ x ≤ 255) ∧ 8 * ([255] : List Int).length % 5 ≠ 0 ∧
    convertbits [255] 8 5 true = .ok [31, 28] ∧
    convertbits [31, 28] 5 8 false = .ok [255] ∧
    ¬ (∃ r, convertbits [255] 8 5 true = .ok r ∧
        (convertbits r 5 8 false = .error .illegalZeroPadding ∨
          convertbits r 5 8 false = .error .nonZeroPadding)) := by
  refine ⟨by decide, by decide, by decide, by decide, ?_⟩
  rintro ⟨r, h1, h2⟩
  have e1 : convertbits [255] 8 5 true = .ok [31, 28] := by decide
  have e2 : convertbits [31, 28] 5 8 false = .ok [255] := by decide
  rw [e1] at h1
  rw [← Except.ok.inj h1, e2] at h2
  rcases h2 with h | h <;> cases h

/-- C18: for every list `b` of bytes in `[0,255]`, of any length,
`convertbits b 8 5 true` succeeds with some `r` and `convertbits r 5 8 false`
succeeds and returns `b`. -/
theorem convertbits_byte_roundtrip (b : List Int) (hb : ∀ x ∈ b, 0 ≤ x ∧ x ≤ 255) :
    ∃ r : List Int, convertbits b 8 5 true = .ok r ∧ convertbits r 5 8 false = .ok b := by
  obtain ⟨r, _, _, _, hc1, hc2⟩ := convertbits_roundtrip_int b hb
  exact ⟨r, hc1, hc2⟩

/-- Witness of C18 at the three bytes `00 ff 80`, 24 bits. -/
theorem convertbits_byte_roundtrip_witness :
    ∃ r : List Int, convertbits [0, 255, 128] 8 5 true = .ok r ∧
      convertbits r 5 8 false = .ok [0, 255, 128] :=
  convertbits_byte_roundtrip [0, 255, 128] (by decide)

/-- The round trip on the empty list. -/
theorem convertbits_empty_roundtrip :
    convertbits [] 8 5 true = .ok [] ∧ convertbits [] 5 8 false = .ok [] := by
  decide

/-! ### The accumulator of the bit converter beyond 64 bits -/

/-- The loop `for bits >= tobits` reads the same groups from a 64-bit register and
from the unbounded accumulator. -/
theorem emit_sim (t : Nat) (ht : 1 ≤ t) (A : Nat) :
    ∀ (fuel : Nat) (s u : ConvState), s.bits ≤ fuel → s.bits ≤ 64 →
      Int.ModEq (2 ^ 64) s.acc A → u.acc = A → u.bits = s.bits → u.ret = s.ret →
      (emit t ((2 ^ t - 1 : Nat) : Int) fuel s).acc = s.acc ∧
      (emit t ((2 ^ t - 1 : Nat) : Int) fuel u).acc = u.acc ∧
      (emit t ((2 ^ t - 1 : Nat) : Int) fuel u).bits =
        (emit t ((2 ^ t - 1 : Nat) : Int) fuel s).bits ∧
      (emit t ((2 ^ t - 1 : Nat) : Int) fuel u).ret =
        (emit t ((2 ^ t - 1 : Nat) : Int) fuel s).ret ∧
      (emit t ((2 ^ t - 1 : Nat) : Int) fuel s).bits < t := by
  intro fuel
  induction fuel with
  | zero =>
    intro s u hf _ _ _ hb hr
    refine ⟨rfl, rfl, hb, hr, ?_⟩
    show s.bits < t
    omega
  | succ fuel ih =>
    intro s u hf h64 hs hu hb hr
    by_cases hge : s.bits ≥ t
    · have hgeu : u.bits ≥ t := by rw [hb]; exact hge
      rw [emit, if_pos hge, emit, if_pos hgeu]
      have e1 := land_shr_modEq s.acc A (s.bits - t) t (by omega) hs
      have e2 := land_shr_modEq u.acc A (s.bits - t) t (by omega) (by rw [hu])
      rw [hb, hr, e2, ← e1]
      exact ih ⟨s.acc, s.bits - t, s.ret ++ [Int.land (shr s.acc (s.bits - t)) ((2 ^ t - 1 : Nat) : Int)]⟩
        ⟨u.acc, s.bits - t, s.ret ++ [Int.land (shr s.acc (s.bits - t)) ((2 ^ t - 1 : Nat) : Int)]⟩
        (by simp only; omega) (by simp only; omega) hs hu rfl rfl
    · have hgeu : ¬ u.bits ≥ t := by rw [hb]; exact hge
      rw [emit, if_neg hge, emit, if_neg hgeu]
      exact ⟨rfl, rfl, hb, hr, by omega⟩

/-- The loops of `convertbits` on 64-bit and on unbounded integers end alike:
with the same error, or with the same counter and output and with accumulators
that agree modulo `2^64`. -/
theorem convLoop_sim (f t : Nat) (ht : 1 ≤ t) (hft : f + t ≤ 64) :
    ∀ (data : List Int) (idx : Nat) (s u : ConvState) (A : Nat), s.bits < t →
      Int.ModEq (2 ^ 64) s.acc A → u.acc = A → u.bits = s.bits → u.ret = s.ret →
      (∃ e, convLoop f t ((2 ^ t - 1 : Nat) : Int) data idx s = .error e ∧
        convLoopUnbounded f t ((2 ^ t - 1 : Nat) : Int) data idx u = .error e) ∨
      (∃ s2 u2 A2, convLoop f t ((2 ^ t - 1 : Nat) : Int) data idx s = .ok s2 ∧
        convLoopUnbounded f t ((2 ^ t - 1 : Nat) : Int) data idx u = .ok u2 ∧
        s2.bits < t ∧ Int.ModEq (2 ^ 64) s2.acc (A2 : Nat) ∧ u2.acc = (A2 : Nat) ∧
        u2.bits = s2.bits ∧ u2.ret = s2.ret) := by
  intro data
  induction data with
  | nil =>
    intro idx s u A hb hs hu hbu hr
    exact Or.inr ⟨s, u, A, rfl, rfl, hb, hs, hu, hbu, hr⟩
  | cons v rest ih =>
    intro idx s u A hb hs hu hbu hr
    by_cases hcond : v < 0 ∨ shr v f ≠ 0
    · left
      refine ⟨.invalidDataRange idx v f, ?_, ?_⟩
      · rw [convLoop, if_pos hcond]
      · rw [convLoopUnbounded, if_pos hcond]
    · have hvalid := not_not.mp ((not_congr (range_check_iff v f)).mp hcond)
      obtain ⟨w, rfl⟩ := Int.eq_ofNat_of_zero_le hvalid.1
      have hw : w < 2 ^ f := by exact_mod_cast hvalid.2
      have hlor : Int.lor (shl s.acc f) (w : Int) = shl s.acc f + w :=
        lor_add _ w f (shl_emod _ f (by omega)) hw
      have hloru : Int.lor (u.acc * 2 ^ f) (w : Int) = u.acc * 2 ^ f + w :=
        lor_add _ w f (Int.mul_emod_left _ _) hw
      have hacc2 : Int.ModEq (2 ^ 64) (shl s.acc f + w) ((A * 2 ^ f + w : Nat) : Int) := by
        have := (shl_modEq s.acc A f hs).add_right (w : Int)
        push_cast at this ⊢
        exact this
      have haccu : u.acc * 2 ^ f + w = ((A * 2 ^ f + w : Nat) : Int) := by
        rw [hu]
        push_cast
        rfl
      obtain ⟨h1, h2, h3, h4, h5⟩ := emit_sim t ht (A * 2 ^ f + w) (s.bits + f)
        ⟨shl s.acc f + w, s.bits + f, s.ret⟩ ⟨u.acc * 2 ^ f + w, s.bits + f, s.ret⟩
        (le_refl _) (by simp only; omega) hacc2 haccu rfl rfl
      simp only at h1 h2 h3 h4 h5
      rw [convLoop, if_neg hcond, convLoopUnbounded, if_neg hcond]
      simp only [hlor, hloru, hbu, hr]
      exact ih (idx + 1) _ _ (A * 2 ^ f + w) h5 (by rw [h1]; exact hacc2)
        (by rw [h2]; exact haccu) h3 h4

theorem maxv_unbounded (t : Nat) : (1 : Int) * 2 ^ t - 1 = ((2 ^ t - 1 : Nat) : Int) := by
  have hp := two_pow_pos_nat t
  push_cast [Nat.cast_sub hp]
  ring

/-- C19: for widths `1 ≤ frombits, tobits ≤ 8`, every pad flag and every input
list, `convertbits` with 64-bit two's-complement wrapping returns the same
result, the same error or the same output list, as `convertbits` evaluated on
unbounded integers. -/
theorem convertbits_overflow_harmless (f t : Nat) (hf : 1 ≤ f ∧ f ≤ 8) (ht : 1 ≤ t ∧ t ≤ 8)
    (pad : Bool) (data : List Int) :
    convertbits data f t pad = convertbitsUnbounded data f t pad := by
  unfold convertbits convertbitsUnbounded
  simp only [maxv_eq t (by omega), maxv_unbounded]
  rcases convLoop_sim f t ht.1 (by omega) data 0 ⟨0, 0, []⟩ ⟨0, 0, []⟩ 0 (by simp only; omega)
    (Int.ModEq.refl _) rfl rfl rfl with ⟨e, h1, h2⟩ | ⟨s2, u2, A2, h1, h2, hb, hs, hu, hbu, hr⟩
  · rw [h1, h2]
  · rw [h1, h2]
    simp only
    have e1 := land_shl_modEq s2.acc A2 (t - s2.bits) t (by omega) hs
    have e2 : Int.land (u2.acc * 2 ^ (t - s2.bits)) ((2 ^ t - 1 : Nat) : Int)
        = (((A2 * 2 ^ (t - s2.bits)) % 2 ^ t : Nat) : Int) := by
      rw [land_mask, hu]
      push_cast
      rfl
    rw [hbu, hr, e1, e2]

/-- Witness of C19 at nine bytes, 72 bits, converted to 5-bit groups. -/
theorem convertbits_overflow_harmless_witness :
    convertbits ([1, 0, 0, 0, 0, 0, 0, 0, 0]) 8 5 true
      = convertbitsUnbounded ([1, 0, 0, 0, 0, 0, 0, 0, 0]) 8 5 true :=
  convertbits_overflow_harmless 8 5 (by decide) (by decide) true ([1, 0, 0, 0, 0, 0, 0, 0, 0])

/-- On the nine bytes `01 00 00 00 00 00 00 00 00` the 64-bit accumulator has
wrapped to `0`; the unbounded one is `2^64`. -/
theorem convLoop_acc_wraps :
    (convLoop 8 5 31 [1, 0, 0, 0, 0, 0, 0, 0, 0] 0 ⟨0, 0, []⟩).map (fun s => s.acc) = .ok 0 ∧
    (convLoopUnbounded 8 5 31 [1, 0, 0, 0, 0, 0, 0, 0, 0] 0 ⟨0, 0, []⟩).map (fun s => s.acc)
      = .ok (2 ^ 64) := by
  decide

/-! ### The checksum fold as specified -/

theorem shl_land_cast (c : Nat) :
    shl (Int.land (c : Int) 0x1ffffff) 5 = (((c &&& 0x1ffffff) <<< 5 : Nat) : Int) := by
  have hm : Int.land (c : Int) 0x1ffffff = ((c &&& 0x1ffffff : Nat) : Int) := rfl
  have hlt : c &&& 0x1ffffff < 2 ^ 25 :=
    Nat.and_lt_two_pow c (show 0x1ffffff < 2 ^ 25 by norm_num)
  rw [hm]
  unfold shl
  rw [wrap64_of_lt, Nat.shiftLeft_eq]
  · push_cast; rfl
  · have : (0 : Int) ≤ ((c &&& 0x1ffffff : Nat) : Int) := Int.ofNat_nonneg _
    nlinarith
  · have : ((c &&& 0x1ffffff : Nat) : Int) < 2 ^ 25 := by exact_mod_cast hlt
    nlinarith

/-- A symbol below 32 is combined with the shifted register alike by OR and by XOR. -/
theorem lor_eq_xor_shl (c v : Nat) (hv : v < 32) :
    Int.lor (shl (Int.land (c : Int) 0x1ffffff) 5) (v : Int)
      = Int.xor (shl (Int.land (c : Int) 0x1ffffff) 5) (v : Int) := by
  rw [shl_land_cast, lor_cast, xor_cast]
  apply congrArg Nat.cast
  generalize c &&& 0x1ffffff = a
  have hv5 : v < 2 ^ 5 := by omega
  rw [xor_eq_add_of_lt a v 5 hv5, Nat.shiftLeft_eq, Nat.mul_comm a,
    Nat.mul_add_lt_is_or hv5]

theorem polymodSpecStep_eq (c v : Nat) (hv : v < 32) :
    polymodSpecStep (c : Int) (v : Int) = polymodStep (c : Int) (v : Int) := by
  unfold polymodSpecStep polymodStep
  simp only [lor_eq_xor_shl c v hv]
  rfl

theorem foldl_polymodSpecStep (vs : List Nat) (hv : ∀ v ∈ vs, v < 32) (c : Nat) :
    List.foldl polymodSpecStep (c : Int) (castList vs)
      = List.foldl polymodStep (c : Int) (castList vs) := by
  induction vs generalizing c with
  | nil => rfl
  | cons v vs ih =>
    simp only [castList, List.map_cons, List.foldl_cons] at ih ⊢
    rw [polymodSpecStep_eq c v (hv v (List.mem_cons_self _ _)), polymodStep_cast]
    exact ih (fun x hx => hv x (List.mem_cons_of_mem _ hx)) _

/-- C20: on symbols in `[0,31]`, `polymod` returns what the specified fold
returns, which combines the symbol by OR where the source uses XOR, and the
value lies in `[0, 2^30)`. -/
theorem polymod_refines_spec (values : List Int) (h : ∀ v ∈ values, 0 ≤ v ∧ v ≤ 31) :
    polymod values = polymodSpec values ∧ 0 ≤ polymod values ∧ polymod values < 2 ^ 30 := by
  obtain ⟨vs, rfl, hvs5⟩ := exists_castList values 5 (fun x hx => by
    have := h x hx
    norm_num
    omega)
  have hvs : ∀ v ∈ vs, v < 32 := fun v hv => by
    have := hvs5 v hv
    norm_num at this
    exact this
  refine ⟨?_, ?_, ?_⟩
  · unfold polymod polymodSpec
    exact (foldl_polymodSpecStep vs hvs 1).symm
  · rw [castList, polymod_cast]
    exact Int.ofNat_nonneg _
  · rw [castList, polymod_cast]
    have := polymodN_lt vs hvs
    exact_mod_cast this

/-- Witness of C20 at the expansion of `"a"` followed by the checksum of
`a12uel5l`. -/
theorem polymod_refines_spec_witness :
    polymod [3, 0, 1, 10, 28, 25, 31, 20, 31] = polymodSpec [3, 0, 1, 10, 28, 25, 31, 20, 31] ∧
      0 ≤ polymod [3, 0, 1, 10, 28, 25, 31, 20, 31] ∧
      polymod [3, 0, 1, 10, 28, 25, 31, 20, 31] < 2 ^ 30 :=
  polymod_refines_spec [3, 0, 1, 10, 28, 25, 31, 20, 31] (by decide)

/-- Outside `[0,31]` the two folds differ: on the symbol `32` after the symbol
`1`, OR and XOR give different registers. -/
theorem polymod_spec_differs : polymod [1, 32] ≠ polymodSpec [1, 32] := by
  decide

/-! ### The test vector of BIP-173 -/

/-- The 5-bit groups of the test vector convert to its 20 bytes. -/
theorem convertbits_bip173 :
    convertbits [14, 20, 15, 7, 13, 26, 0, 25, 18, 6, 11, 13, 8, 21, 4, 20, 3, 17, 2, 29, 3, 12,
        29, 3, 4, 15, 24, 20, 6, 14, 30, 22] 5 8 false =
      .ok [0x75, 0x1e, 0x76, 0xe8, 0x19, 0x91, 0x96, 0xd4, 0x54, 0x94,
        0x1c, 0x45, 0xd1, 0xb3, 0xa3, 0x23, 0xf1, 0x43, 0x3b, 0xd6] := by
  obtain ⟨n, bits, hb, hn, e⟩ := convertbits_strict 5 8 (by norm_num) (by norm_num) (by norm_num)
    [14, 20, 15, 7, 13, 26, 0, 25, 18, 6, 11, 13, 8, 21, 4, 20, 3, 17, 2, 29, 3, 12,
      29, 3, 4, 15, 24, 20, 6, 14, 30, 22] (by decide)
  have hl : ([14, 20, 15, 7, 13, 26, 0, 25, 18, 6, 11, 13, 8, 21, 4, 20, 3, 17, 2, 29, 3, 12,
      29, 3, 4, 15, 24, 20, 6, 14, 30, 22] : List Nat).length = 32 := rfl
  rw [hl] at hn
  have hn20 : n = 20 := by omega
  have hb0 : bits = 0 := by omega
  subst hn20 hb0
  have ec : castList [14, 20, 15, 7, 13, 26, 0, 25, 18, 6, 11, 13, 8, 21, 4, 20, 3, 17, 2, 29,
      3, 12, 29, 3, 4, 15, 24, 20, 6, 14, 30, 22] =
      ([14, 20, 15, 7, 13, 26, 0, 25, 18, 6, 11, 13, 8, 21, 4, 20, 3, 17, 2, 29, 3, 12,
        29, 3, 4, 15, 24, 20, 6, 14, 30, 22] : List Int) := rfl
  rw [ec] at e
  rw [e]
  decide

/-- C15: `SegwitAddrDecode "bc" "BC1QW508D6QEJXTDG4Y5R3ZARVARY0C5XW7KV8F3T4"`
succeeds with version 0 and the 20-byte program
`75 1e 76 e8 19 91 96 d4 54 94 1c 45 d1 b3 a3 23 f1 43 3b d6`, computed with the
alphabet `qpzry9x8gf2tvdw0s3jn54khce6mua7l` and the five generators of the
checksum. -/
theorem SegwitAddrDecode_bip173 :
    SegwitAddrDecode (ascii ("bc")) (ascii ("BC1QW508D6QEJXTDG4Y5R3ZARVARY0C5XW7KV8F3T4")) =
      .ok ⟨0, [0x75, 0x1e, 0x76, 0xe8, 0x19, 0x91, 0x96, 0xd4, 0x54, 0x94,
        0x1c, 0x45, 0xd1, 0xb3, 0xa3, 0x23, 0xf1, 0x43, 0x3b, 0xd6]⟩ ∧
    CHARSET = ascii ("qpzry9x8gf2tvdw0s3jn54khce6mua7l") ∧
    GENERATOR = [0x3b6a57b2, 0x26508e6d, 0x1ea119fa, 0x3d4233dd, 0x2a1462b3] := by
  have hd : Decode (ascii ("BC1QW508D6QEJXTDG4Y5R3ZARVARY0C5XW7KV8F3T4")) = .ok ⟨ascii ("bc"),
      [0, 14, 20, 15, 7, 13, 26, 0, 25, 18, 6, 11, 13, 8, 21, 4, 20, 3, 17, 2, 29, 3, 12, 29, 3,
        4, 15, 24, 20, 6, 14, 30, 22]⟩ := by decide
  refine ⟨?_, rfl, rfl⟩
  exact SegwitAddrDecode_of_Decode _ _ _ _ hd rfl (by decide) (by decide) convertbits_bip173
    (by decide) (by decide)

/-! ### Case invariance of `Decode` -/

/-- On a string of ASCII bytes `strings.ToLower` is the bytewise lower-casing,
whatever the case tables. -/
theorem stringsToLower_ascii (table : Nat → Nat) (s : GoString)
    (h : ∀ b ∈ s, b.val < 128) : stringsToLower table s = toLower s := by
  unfold stringsToLower
  rw [if_pos]
  simp only [List.all_eq_true, decide_eq_true_eq]
  exact h

/-- A string accepted by the first loop of `Decode` is a string of ASCII bytes, so
that `Decode` lower-cases it byte by byte. -/
theorem stringsToLower_valid (table : Nat → Nat) (s : GoString) (h : validChars s) :
    stringsToLower table s = toLower s :=
  stringsToLower_ascii table s (fun b hb => by have := h b hb; omega)

/-- C6 (amended): for a string `s` of ASCII bytes without lower-case letters
`a-z`, `Decode s` and `Decode (strings.ToLower s)` both fail, or both succeed
with the same `(hrp, data)`, whose `hrp` has no upper-case letter; and
`Decode "A12UEL5L"` returns the prefix `a` with empty data. -/
theorem Decode_case_ascii (table : Nat → Nat) (s : GoString)
    (ha : ∀ b ∈ s, b.val < 128)
    (hl : ∀ b ∈ s, ¬ (97 ≤ b.val ∧ b.val ≤ 122)) :
    (((∃ e, Decode s = .error e) ∧ (∃ e, Decode (stringsToLower table s) = .error e)) ∨
      (∃ d, Decode s = .ok d ∧ Decode (stringsToLower table s) = .ok d ∧
        ∀ b ∈ d.hrp, ¬ (65 ≤ b.val ∧ b.val ≤ 90))) ∧
    Decode (ascii ("A12UEL5L")) = .ok ⟨ascii ("a"), []⟩ := by
  rw [stringsToLower_ascii table s ha]
  exact Decode_toLower_bytewise s hl

/-- Witness of C6 (amended) at the string `A12UEL5L`, with case tables that leave
every rune as it is. -/
theorem Decode_case_ascii_witness :
    (((∃ e, Decode (ascii ("A12UEL5L")) = .error e) ∧
        (∃ e, Decode (stringsToLower id (ascii ("A12UEL5L"))) = .error e)) ∨
      (∃ d, Decode (ascii ("A12UEL5L")) = .ok d ∧
        Decode (stringsToLower id (ascii ("A12UEL5L"))) = .ok d ∧
        ∀ b ∈ d.hrp, ¬ (65 ≤ b.val ∧ b.val ≤ 90))) ∧
    Decode (ascii ("A12UEL5L")) = .ok ⟨ascii ("a"), []⟩ :=
  Decode_case_ascii id (ascii ("A12UEL5L")) (by decide) (by decide)

/-- Counterexample to C6 as stated: the string of the Kelvin sign U+212A, bytes
`E2 84 AA`, followed by `18DUSE0` has no lower-case letter `a-z`, and `Decode`
rejects its first rune; with case tables that send the Kelvin sign to `k`, as
those of the Unicode library do, its lower-case form is `k18duse0`, which
`Decode` accepts. -/
theorem Decode_case_kelvin :
    (∀ b ∈ ([0xE2, 0x84, 0xAA] ++ ascii ("18DUSE0") : GoString),
      ¬ (97 ≤ b.val ∧ b.val ≤ 122)) ∧
    Decode ([0xE2, 0x84, 0xAA] ++ ascii ("18DUSE0")) = .error (.invalidChar 0 0x212A) ∧
    (∀ table : Nat → Nat, table 0x212A = 0x6B →
      stringsToLower table ([0xE2, 0x84, 0xAA] ++ ascii ("18DUSE0")) = ascii ("k18duse0") ∧
      Decode (stringsToLower table ([0xE2, 0x84, 0xAA] ++ ascii ("18DUSE0")))
        = .ok ⟨ascii ("k"), []⟩ ∧
      ¬ (((∃ e, Decode ([0xE2, 0x84, 0xAA] ++ ascii ("18DUSE0")) = .error e) ∧
          (∃ e, Decode (stringsToLower table ([0xE2, 0x84, 0xAA] ++ ascii ("18DUSE0")))
            = .error e)) ∨
        (∃ d, Decode ([0xE2, 0x84, 0xAA] ++ ascii ("18DUSE0")) = .ok d ∧
          Decode (stringsToLower table ([0xE2, 0x84, 0xAA] ++ ascii ("18DUSE0"))) = .ok d))) := by
  have hd : Decode ([0xE2, 0x84, 0xAA] ++ ascii ("18DUSE0")) = .error (.invalidChar 0 0x212A) := by
    decide
  refine ⟨by decide, hd, ?_⟩
  intro table ht
  have hs : stringsToLower table ([0xE2, 0x84, 0xAA] ++ ascii ("18DUSE0"))
      = ascii ("k18duse0") := by
    have hall : ([0xE2, 0x84, 0xAA] ++ ascii ("18DUSE0") : GoString).all
        (fun b => decide (b.val < 0x80)) = false := by decide
    have hr : range ([0xE2, 0x84, 0xAA] ++ ascii ("18DUSE0"))
        = [(0, 0x212A), (3, 49), (4, 56), (5, 68), (6, 85), (7, 83), (8, 69), (9, 48)] := by
      decide
    have h1 : unicodeToLower table 0x212A = 0x6B := by
      unfold unicodeToLower
      rw [if_neg (by decide), ht]
    have h2 : ∀ c, c < 0x80 → unicodeToLower table c = unicodeToLower id c := by
      intro c hc
      unfold unicodeToLower
      rw [if_pos hc, if_pos hc]
    unfold stringsToLower
    rw [hall, hr]
    simp only [Bool.false_eq_true, if_false, List.map_cons, List.map_nil, h1]
    rw [h2 49 (by decide), h2 56 (by decide), h2 68 (by decide), h2 85 (by decide),
      h2 83 (by decide), h2 69 (by decide), h2 48 (by decide)]
    decide
  have hk : Decode (ascii ("k18duse0")) = .ok ⟨ascii ("k"), []⟩ := by decide
  rw [hs, hd, hk]
  refine ⟨rfl, rfl, ?_⟩
  rintro (⟨_, e, he⟩ | ⟨d, h1, _⟩)
  · cases he
  · cases h1

end Bech32
